import Mathlib

/-!
# Process schedulers: FIFO, Shortest-Job-First, Round-Robin, Multi-Level Feedback

A shallow embedding of the four C programs `FIFOScheduler.c`, `SJFScheduler.c`,
`RRScheduler.c` and `MFQScheduler.c`.

* C pointers are `Option Nat`: `none` is `NULL`, `some a` is the address `a`.
* The heap of `malloc`ed nodes is a finite list of cells; a cell is `none` when it
  has been `free`d.  `malloc` hands out the next unused address and never fails.
* A C function yields an `Outcome`: a normal return, a call of `exit`, or a `fault`
  (dereference of `NULL` or of storage that is not live, undefined behaviour in C).
* The operating system is seen through a trace of `Event`s (signals sent, sleeps,
  lines printed) and through explicit inputs that say when the `SIGCHLD` handler
  ran: before the dispatcher tests the flag `done`, or later in the iteration.
* A queue in the heap is tied to the list of pids it holds by the predicates
  `Holds` (with the addresses of the cells) and `Models` (pids only).
-/

namespace Sched

/-! ## Outcomes and events -/

/-- Result of running a piece of C code. -/
inductive Outcome (α : Type) where
  /-- normal return -/
  | ok (val : α)
  /-- the process called `exit(status)` after printing `out` -/
  | exited (status : Int) (out : String)
  /-- dereference of `NULL` or of storage that is not live -/
  | fault
  /-- the run was cut off: a loop was given too few steps to end -/
  | unfinished
deriving DecidableEq, Repr

/-- Sequencing of C statements: the first abnormal outcome ends the run. -/
def Outcome.bind {α β : Type} : Outcome α → (α → Outcome β) → Outcome β
  | .ok a, f => f a
  | .exited c m, _ => .exited c m
  | .fault, _ => .fault
  | .unfinished, _ => .unfinished

instance : Monad Outcome where
  pure := Outcome.ok
  bind := Outcome.bind

/-- The two signals the dispatchers send with `kill`. -/
inductive Signal where
  | SIGCONT
  | SIGUSR1
deriving DecidableEq, Repr

/-- What a dispatcher does to the outside world. -/
inductive Event where
  | kill (pid : Int) (sig : Signal)
  | usleep (usec : Int)
  | wait
  | printf (text : String)
  /-- `fork()` for the program `path`, returning `pid` in the parent -/
  | fork (path : String) (pid : Int)
  | sleep (sec : Int)
deriving DecidableEq, Repr

/-! ## Heaps of `malloc`ed records -/

/-- Heap of records of type `α`: cell `a` is live when it holds `some r`. -/
structure Heap (α : Type) where
  cells : List (Option α)
deriving DecidableEq, Repr

namespace Heap

variable {α : Type}

/-- Number of addresses handed out so far. -/
def size (h : Heap α) : Nat := h.cells.length

/-- Load the record at address `a`; `none` when `a` is not live. -/
def read (h : Heap α) (a : Nat) : Option α := h.cells.getD a none

/-- Store a record at address `a`. -/
def write (h : Heap α) (a : Nat) (r : α) : Heap α := ⟨h.cells.set a (some r)⟩

/-- The C `free`. -/
def free (h : Heap α) (a : Nat) : Heap α := ⟨h.cells.set a none⟩

/-- The C `malloc`: a new live cell at the next unused address, holding the
indeterminate content `junk`. The result is never `NULL`. -/
def malloc (h : Heap α) (junk : α) : Option Nat × Heap α :=
  (some h.cells.length, ⟨h.cells ++ [some junk]⟩)

end Heap

/-- The C `struct list_tag` of `FIFOScheduler.c`, `RRScheduler.c`, `MFQScheduler.c`. -/
structure list_node where
  my_id : Int
  next : Option Nat
  prev : Option Nat
deriving DecidableEq, Repr

/-- `p->my_id` for a node pointer `p`. -/
def head_id (h : Heap list_node) (p : Option Nat) : Outcome Int :=
  match p with
  | none => .fault
  | some a =>
    match h.read a with
    | none => .fault
    | some node => .ok node.my_id

/-! ## FIFOScheduler.c (the queue code of RRScheduler.c is the same text) -/

namespace FIFO

/-- The C `queue` record: head and tail pointer. -/
structure queue where
  first : Option Nat
  last : Option Nat
deriving DecidableEq, Repr

/-- `Queue_Init`: `qp->first = qp->last = NULL`. -/
def Queue_Init (_qp : queue) : queue := { first := none, last := none }

/-- `Queue_Insert(rlp, in_id)`: new node at the end of the list. `rlp` is the record
the pointer argument refers to; the updated record is returned with the heap. -/
def Queue_Insert (h : Heap list_node) (rlp : queue) (in_id : Int) :
    Outcome (Heap list_node × queue) :=
  match h.malloc ⟨0, none, none⟩ with
  | (none, _) => .exited 1 "OUT OF MEMORY!!"
  | (some n, h1) =>
    match rlp.first with
    | none =>
      -- n->next = n->prev = NULL; rlp->first = rlp->last = n;
      .ok (h1.write n ⟨in_id, none, none⟩, { first := some n, last := some n })
    | some _ =>
      -- n->prev = rlp->last; n->next = NULL;
      let h2 := h1.write n ⟨in_id, none, rlp.last⟩
      -- rlp->last->next = n;
      match rlp.last with
      | none => .fault
      | some l =>
        match h2.read l with
        | none => .fault
        | some ln =>
          -- rlp->last = n;
          .ok (h2.write l { ln with next := some n }, { rlp with last := some n })

/-- `Queue_Remove(rlp)`: `rlp = none` is a `NULL` queue pointer, `some q` a pointer to
the record `q`. The test is on the pointer `rlp` itself, as in the source. -/
def Queue_Remove (h : Heap list_node) (rlp : Option queue) :
    Outcome (Heap list_node × queue) :=
  match rlp with
  | none => .exited 1 "Empty List\n"
  | some q =>
    -- remove = rlp->first; rlp->first = rlp->first->next;
    match q.first with
    | none => .fault
    | some remove =>
      match h.read remove with
      | none => .fault
      | some node =>
        -- free(remove); if(rlp->first == NULL) rlp->last = NULL;
        let q1 : queue := { q with first := node.next }
        .ok (h.free remove, if q1.first = none then { q1 with last := none } else q1)

/-- Calls `Queue_Insert` once per id, in order, as the creation loop of `main` does
with the pids returned by `fork`. -/
def insert_all (h : Heap list_node) (q : queue) : List Int → Outcome (Heap list_node × queue)
  | [] => .ok (h, q)
  | p :: ps => do
    let (h1, q1) ← Queue_Insert h q p
    insert_all h1 q1 ps

/-- Repeats `k` times: read `first->my_id`, then `Queue_Remove`. Returns the ids read. -/
def remove_n : Nat → Heap list_node → queue → Outcome (List Int × Heap list_node × queue)
  | 0, h, q => .ok ([], h, q)
  | k + 1, h, q => do
    let id ← head_id h q.first
    let (h1, q1) ← Queue_Remove h (some q)
    let (ids, h2, q2) ← remove_n k h1 q1
    pure (id :: ids, h2, q2)

end FIFO

/-! ## SJFScheduler.c -/

namespace SJF

/-- The C `struct list_tag` of `SJFScheduler.c`. -/
structure list_node where
  my_id : Int
  time : Int
  next : Option Nat
deriving DecidableEq, Repr

/-- The C `typedef list_node * queue`. -/
abbrev queue := Option Nat

/-- Values of the cursor `queue * rlp` inside `Queue_Insert`: the address of the
queue variable itself, or the address of the `next` field of the node at `a`. -/
inductive Loc where
  | var
  | next_of (a : Nat)
deriving DecidableEq, Repr

/-- `Queue_Init`: `*qp = NULL`. -/
def Queue_Init (_qp : queue) : queue := none

/-- The load `*rlp`. -/
def load (h : Heap list_node) (RL : queue) : Loc → Outcome queue
  | .var => .ok RL
  | .next_of a =>
    match h.read a with
    | none => .fault
    | some node => .ok node.next

/-- The store `*rlp = v`. -/
def store (h : Heap list_node) (RL : queue) (v : queue) : Loc → Outcome (Heap list_node × queue)
  | .var => .ok (h, v)
  | .next_of a =>
    match h.read a with
    | none => .fault
    | some node => .ok (h.write a { node with next := v }, RL)

/-- The loop `while(*rlp != NULL && (*rlp)->time < in_time) rlp = &((*rlp)->next);`,
cut off after `fuel` tests of the condition. -/
def scan (h : Heap list_node) (RL : queue) (in_time : Int) : Nat → Loc → Outcome Loc
  | 0, _ => .unfinished
  | fuel + 1, rlp => do
    let p ← load h RL rlp
    match p with
    | none => pure rlp
    | some a =>
      match h.read a with
      | none => .fault
      | some node => if node.time < in_time then scan h RL in_time fuel (.next_of a) else pure rlp

/-- `Queue_Insert(rlp, in_time, in_id)` called with `rlp` the address of the queue
variable, whose value is `RL`. A scan of more than `size` steps only happens on a
cyclic list, where the C loop does not end. -/
def Queue_Insert (h : Heap list_node) (RL : queue) (in_time : Int) (in_id : Int) :
    Outcome (Heap list_node × queue) :=
  match h.malloc ⟨0, 0, none⟩ with
  | (none, _) => .exited 1 "OUT OF MEMORY!!"
  | (some n, h1) => do
    -- n->my_id = in_id; n->time = in_time;
    let h2 := h1.write n ⟨in_id, in_time, none⟩
    let rlp ← scan h2 RL in_time (h2.size + 1) .var
    -- n->next = *rlp;
    let p ← load h2 RL rlp
    let h3 := h2.write n ⟨in_id, in_time, p⟩
    -- *rlp = n;
    store h3 RL (some n) rlp

/-- `Queue_Remove(rlp)`: `rlp = none` is a `NULL` pointer to the queue variable,
`some q` a pointer to a queue variable holding `q`. -/
def Queue_Remove (h : Heap list_node) (rlp : Option queue) : Outcome (Heap list_node × queue) :=
  match rlp with
  | none => .exited 1 "Empty List\n"
  | some q =>
    -- remove = *rlp; *rlp = (*rlp)->next; free(remove);
    match q with
    | none => .fault
    | some remove =>
      match h.read remove with
      | none => .fault
      | some node => .ok (h.free remove, node.next)

/-- State of `main`: the heap, the ready list `RL` and the events so far. -/
structure State where
  heap : Heap list_node
  RL : queue
  trace : List Event
deriving DecidableEq, Repr

/-- The creation loop of `main`, on the pairs (burst length, pid) that `atoi` and
`fork` deliver for the job arguments. -/
def create (s : State) : List (Int × Int) → Outcome State
  | [] => .ok s
  | (t, child) :: rest => do
    let (h1, q1) ← Queue_Insert s.heap s.RL t child
    create { s with heap := h1, RL := q1 } rest

/-- The scheduling loop `while(RL != NULL)` of `main`, cut off after `fuel` iterations. -/
def schedule : Nat → State → Outcome State
  | fuel, s =>
    match s.RL with
    | none => .ok s
    | some a =>
      match fuel with
      | 0 => .unfinished
      | k + 1 =>
        match s.heap.read a with
        | none => .fault
        | some node => do
          -- kill(RL->my_id, SIGCONT); wait(&pstatus);
          let s1 := { s with trace := s.trace ++ [Event.kill node.my_id .SIGCONT, Event.wait] }
          -- Queue_Remove(&RL);
          let (h1, q1) ← Queue_Remove s1.heap (some s1.RL)
          schedule k { heap := h1, RL := q1,
                       trace := s1.trace ++ [Event.printf "Scheduler: A child has completed\n"] }

end SJF

/-! ## RRScheduler.c -/

namespace RR

/-- State of `main` in the scheduling loop: heap, ready list, the global `done`,
the local `child`, and the events so far. -/
structure State where
  heap : Heap list_node
  RL : FIFO.queue
  done : Int
  child : Int
  trace : List Event
deriving DecidableEq, Repr

/-- The `SIGCHLD` handler `term_child`: `done = 1`. -/
def term_child (s : State) : State := { s with done := 1 }

/-- One run of the body of `while(RL.first != NULL)`. `sigchld` says whether the
handler `term_child` ran between `kill(.., SIGCONT)` and the test of `done`. -/
def iteration (qt : Int) (sigchld : Bool) (s : State) : Outcome State := do
  -- kill(RL.first->my_id, SIGCONT); usleep(qt);
  let id ← head_id s.heap s.RL.first
  let s1 := { s with trace := s.trace ++ [Event.kill id .SIGCONT, Event.usleep qt] }
  let s2 := if sigchld then term_child s1 else s1
  if s2.done = 0 then
    -- kill(RL.first->my_id, SIGUSR1); usleep(1000);
    let id1 ← head_id s2.heap s2.RL.first
    let s3 := { s2 with trace := s2.trace ++ [Event.kill id1 .SIGUSR1, Event.usleep 1000] }
    -- child = RL.first->my_id;
    let c ← head_id s3.heap s3.RL.first
    let s4 := { s3 with child := c }
    -- Queue_Remove(&RL); Queue_Insert(&RL, child);
    let (h5, q5) ← FIFO.Queue_Remove s4.heap (some s4.RL)
    let (h6, q6) ← FIFO.Queue_Insert h5 q5 s4.child
    pure { s4 with heap := h6, RL := q6 }
  else
    -- printf(..); Queue_Remove(&RL); done = 0;
    let s3 := { s2 with trace := s2.trace ++ [Event.printf "Scheduler: A child has completed\n"] }
    let (h4, q4) ← FIFO.Queue_Remove s3.heap (some s3.RL)
    pure { s3 with heap := h4, RL := q4, done := 0 }

/-- The scheduling loop fed with one pair of inputs per iteration: whether the
handler `term_child` ran between `kill(.., SIGCONT)` and the test of `done`, and
whether it ran later in the iteration, after the dispatcher was done with the flag.
(A run of the handler between the test and `done = 0` is overwritten by that
assignment and leaves no mark on the state.) The loop stops at the first test
`RL.first != NULL` that fails, or when the inputs are used up. -/
def run (qt : Int) : List (Bool × Bool) → State → Outcome State
  | [], s => .ok s
  | (f, late) :: fs, s =>
    match s.RL.first with
    | none => .ok s
    | some _ => do
      let s1 ← iteration qt f s
      run qt fs (if late then term_child s1 else s1)

/-- The scheduling loop under the run-time model: `rem p` is the time job `p` still
needs, a dispatch takes `Q` of it, and the handler runs in the quantum exactly when
the job needed no more than `Q`. Cut off after `fuel` iterations. -/
def timed (Q : Nat) : Nat → (Int → Nat) → State → Outcome State
  | fuel, rem, s =>
    match s.RL.first with
    | none => .ok s
    | some _ =>
      match fuel with
      | 0 => .unfinished
      | k + 1 => do
        let j ← head_id s.heap s.RL.first
        let s1 ← iteration Q (decide (rem j ≤ Q)) s
        timed Q k (Function.update rem j (rem j - Q)) s1

end RR

/-! ## MFQScheduler.c -/

namespace MFQ

/-- The C `struct queue_tag`: head and tail pointer of one ready list and the
pointer to the queue record of the next lower priority. -/
structure queue where
  first : Option Nat
  last : Option Nat
  next : Option Nat
deriving DecidableEq, Repr

/-- `Queue_Init`: `qp->first = qp->last = NULL`; the field `next` is left as it is. -/
def Queue_Init (qp : queue) : queue := { qp with first := none, last := none }

/-- `List_Insert(rlp)`: `rlp->next = malloc(sizeof(queue))`. The new record has the
indeterminate content `junk`. -/
def List_Insert (tiers : Heap queue) (rlp : queue) (junk : queue) :
    Outcome (Heap queue × queue) :=
  match tiers.malloc junk with
  | (none, _) => .exited 1 "OUT OF MEMORY!!\n"
  | (some t, tiers1) => .ok (tiers1, { rlp with next := t })

/-- `Queue_Insert(rlp, in_id)`: new node at the end of the list of the record `rlp`. -/
def Queue_Insert (h : Heap list_node) (rlp : queue) (in_id : Int) :
    Outcome (Heap list_node × queue) :=
  match h.malloc ⟨0, none, none⟩ with
  | (none, _) => .exited 1 "OUT OF MEMORY!!\n"
  | (some n, h1) =>
    match rlp.first with
    | none =>
      -- n->next = n->prev = NULL; rlp->first = rlp->last = n;
      .ok (h1.write n ⟨in_id, none, none⟩, { rlp with first := some n, last := some n })
    | some _ =>
      -- n->prev = rlp->last; n->next = NULL;
      let h2 := h1.write n ⟨in_id, none, rlp.last⟩
      -- rlp->last->next = n;
      match rlp.last with
      | none => .fault
      | some l =>
        match h2.read l with
        | none => .fault
        | some ln =>
          -- rlp->last = n;
          .ok (h2.write l { ln with next := some n }, { rlp with last := some n })

/-- `Queue_Remove(rlp)`: `rlp = none` is a `NULL` queue pointer, `some q` a pointer to
the record `q`. The test is on the pointer `rlp` itself, as in the source. -/
def Queue_Remove (h : Heap list_node) (rlp : Option queue) :
    Outcome (Heap list_node × queue) :=
  match rlp with
  | none => .exited 1 "Empty List\n"
  | some q =>
    -- remove = rlp->first; rlp->first = rlp->first->next;
    match q.first with
    | none => .fault
    | some remove =>
      match h.read remove with
      | none => .fault
      | some node =>
        -- free(remove); if(rlp->first == NULL) rlp->last = NULL;
        let q1 : queue := { q with first := node.next }
        .ok (h.free remove, if q1.first = none then { q1 with last := none } else q1)

/-- State of `main` in the scheduling loop: the node heap, the heap of `malloc`ed
queue records, the local record `RL` (high priority), the global `done`, the local
`child`, and the events so far. -/
structure State where
  heap : Heap list_node
  tiers : Heap queue
  RL : queue
  done : Int
  child : Int
  trace : List Event
deriving DecidableEq, Repr

/-- The `SIGCHLD` handler `term_child`: `done = 1`. -/
def term_child (s : State) : State := { s with done := 1 }

/-- The record `RL.next` points to, with its address. -/
def low (s : State) : Outcome (Nat × queue) :=
  match s.RL.next with
  | none => .fault
  | some t =>
    match s.tiers.read t with
    | none => .fault
    | some q => .ok (t, q)

/-- The loop condition `RL.first != NULL || RL.next->first != NULL`. -/
def guard (s : State) : Outcome Bool :=
  match s.RL.first with
  | some _ => .ok true
  | none => do
    let (_, q) ← low s
    pure (decide (q.first ≠ none))

/-- One run of the body of the scheduling loop. `sigchld` says whether the handler
`term_child` ran between `kill(.., SIGCONT)` and the test of `done`. -/
def iteration (qt : Int) (sigchld : Bool) (s : State) : Outcome State :=
  match s.RL.first with
  | some _ => do
    -- kill(RL.first->my_id, SIGCONT); usleep(qt);
    let id ← head_id s.heap s.RL.first
    let s1 := { s with trace := s.trace ++ [Event.kill id .SIGCONT, Event.usleep qt] }
    let s2 := if sigchld then term_child s1 else s1
    if s2.done = 0 then
      -- kill(RL.first->my_id, SIGUSR1); usleep(1000);
      let id1 ← head_id s2.heap s2.RL.first
      let s3 := { s2 with trace := s2.trace ++ [Event.kill id1 .SIGUSR1, Event.usleep 1000] }
      -- child = RL.first->my_id;
      let c ← head_id s3.heap s3.RL.first
      let s4 := { s3 with child := c }
      -- Queue_Remove(&RL);
      let (h5, q5) ← Queue_Remove s4.heap (some s4.RL)
      let s5 := { s4 with heap := h5, RL := q5 }
      -- Queue_Insert(RL.next, child);
      let (t, lq) ← low s5
      let (h6, lq6) ← Queue_Insert s5.heap lq s5.child
      pure { s5 with heap := h6, tiers := s5.tiers.write t lq6 }
    else
      -- printf(..); Queue_Remove(&RL); done = 0;
      let s3 := { s2 with trace := s2.trace ++ [Event.printf "Scheduler: A child has completed\n"] }
      let (h4, q4) ← Queue_Remove s3.heap (some s3.RL)
      pure { s3 with heap := h4, RL := q4, done := 0 }
  | none => do
    -- kill(RL.next->first->my_id, SIGCONT); usleep(qt);
    let (_, lq0) ← low s
    let id ← head_id s.heap lq0.first
    let s1 := { s with trace := s.trace ++ [Event.kill id .SIGCONT, Event.usleep qt] }
    let s2 := if sigchld then term_child s1 else s1
    if s2.done = 0 then
      -- kill(RL.next->first->my_id, SIGUSR1); usleep(1000);
      let (_, lq1) ← low s2
      let id1 ← head_id s2.heap lq1.first
      let s3 := { s2 with trace := s2.trace ++ [Event.kill id1 .SIGUSR1, Event.usleep 1000] }
      -- child = RL.next->first->my_id;
      let (_, lq3) ← low s3
      let c ← head_id s3.heap lq3.first
      let s4 := { s3 with child := c }
      -- Queue_Remove(RL.next);
      let (t, lq4) ← low s4
      let (h5, lq5) ← Queue_Remove s4.heap (some lq4)
      let s5 := { s4 with heap := h5, tiers := s4.tiers.write t lq5 }
      -- Queue_Insert(RL.next, child);
      let (t6, lq6) ← low s5
      let (h7, lq7) ← Queue_Insert s5.heap lq6 s5.child
      pure { s5 with heap := h7, tiers := s5.tiers.write t6 lq7 }
    else
      -- printf(..); Queue_Remove(RL.next); done = 0;
      let s3 := { s2 with trace := s2.trace ++ [Event.printf "Scheduler: A child has completed\n"] }
      let (t, lq3) ← low s3
      let (h4, lq4) ← Queue_Remove s3.heap (some lq3)
      pure { s3 with heap := h4, tiers := s3.tiers.write t lq4, done := 0 }

/-- The scheduling loop fed with one pair of inputs per iteration: whether the
handler `term_child` ran between `kill(.., SIGCONT)` and the test of `done`, and
whether it ran later in the iteration, after the dispatcher was done with the flag.
The loop stops at the first test of the loop condition that fails, or when the
inputs are used up. -/
def run (qt : Int) : List (Bool × Bool) → State → Outcome State
  | [], s => .ok s
  | (f, late) :: fs, s => do
    let go ← guard s
    if go then
      let s1 ← iteration qt f s
      run qt fs (if late then term_child s1 else s1)
    else
      pure s

end MFQ

/-! ## Shape of the linked lists in the heap -/

section Shape
variable {α β : Type}

/-- Following `nxt` from the pointer `p` visits the cells `cs` (address and payload)
in order and then reaches the pointer `q`. -/
def Seg (nxt : α → Option Nat) (val : α → β) (h : Heap α) :
    Option Nat → List (Nat × β) → Option Nat → Prop
  | p, [], q => p = q
  | p, c :: cs, q =>
    p = some c.1 ∧
      match h.read c.1 with
      | some r => val r = c.2 ∧ Seg nxt val h (nxt r) cs q
      | none => False

instance Seg.decide [DecidableEq β] (nxt : α → Option Nat) (val : α → β) (h : Heap α) :
    ∀ (p : Option Nat) (cs : List (Nat × β)) (q : Option Nat), Decidable (Seg nxt val h p cs q)
  | p, [], q => inferInstanceAs (Decidable (p = q))
  | p, c :: cs, q =>
    match hr : h.read c.1 with
    | none => isFalse (by simp [Seg, hr])
    | some r =>
      have := Seg.decide nxt val h (nxt r) cs q
      decidable_of_iff (p = some c.1 ∧ val r = c.2 ∧ Seg nxt val h (nxt r) cs q)
        (by simp [Seg, hr])
end Shape

namespace FIFO

/-- The queue record `q` in heap `h` is the list with cells `cs` (address and id):
`first` leads through `cs` to `NULL`, the addresses are distinct, and `last` is the
address of the final cell (`NULL` when there is none). -/
def Holds (h : Heap list_node) (q : queue) (cs : List (Nat × Int)) : Prop :=
  Seg list_node.next list_node.my_id h q.first cs none ∧ (cs.map Prod.fst).Nodup ∧
    q.last = (cs.map Prod.fst).getLast?

instance (h : Heap list_node) (q : queue) (cs : List (Nat × Int)) : Decidable (Holds h q cs) := by
  unfold Holds; infer_instance

/-- The queue record `q` in heap `h` is a well-formed list holding the ids `l`. -/
def Models (h : Heap list_node) (q : queue) (l : List Int) : Prop :=
  ∃ cs, Holds h q cs ∧ cs.map Prod.snd = l

end FIFO

namespace SJF

/-- What a node of the sorted list carries: burst length and pid. -/
def payload (n : list_node) : Int × Int := (n.time, n.my_id)

/-- The queue variable `RL` in heap `h` is the list with cells `cs` (address, burst
length and pid): `RL` leads through `cs` to `NULL` and the addresses are distinct. -/
def Holds (h : Heap list_node) (RL : queue) (cs : List (Nat × (Int × Int))) : Prop :=
  Seg list_node.next payload h RL cs none ∧ (cs.map Prod.fst).Nodup

instance (h : Heap list_node) (RL : queue) (cs : List (Nat × (Int × Int))) :
    Decidable (Holds h RL cs) := by
  unfold Holds; infer_instance

/-- The queue variable `RL` in heap `h` is a well-formed list holding the entries `l`
(burst length, pid). -/
def Models (h : Heap list_node) (RL : queue) (l : List (Int × Int)) : Prop :=
  ∃ cs, Holds h RL cs ∧ cs.map Prod.snd = l

/-- List-level insert before the first entry whose burst length is at least `b`. -/
def before_first_ge {γ : Type} (key : γ → Int) (b : Int) (e : γ) (l : List γ) : List γ :=
  l.takeWhile (fun c => decide (key c < b)) ++ e :: l.dropWhile (fun c => decide (key c < b))

/-- List-level insert before the first entry whose burst length is strictly greater
than `b`: the stable ascending insert of the specification. -/
def before_first_gt {γ : Type} (key : γ → Int) (b : Int) (e : γ) (l : List γ) : List γ :=
  l.takeWhile (fun c => decide (key c ≤ b)) ++ e :: l.dropWhile (fun c => decide (key c ≤ b))

/-- The ready list after a sequence of arrivals, on the list level. -/
def arrive (arrivals : List (Int × Int)) : List (Int × Int) :=
  arrivals.foldl (fun l e => before_first_ge Prod.fst e.1 e l) []

/-- After a store through the cursor, the cursor holds the pointer `p4`: for the
queue variable its new value is `p4`; for the `next` field of the node at `a` the
variable is as before and the node differs from its old content in `next` only. -/
def cursor_holds (h h4 : Heap list_node) (RL RL4 : queue) (p4 : Option Nat) : Loc → Prop
  | .var => RL4 = p4
  | .next_of a => RL4 = RL ∧ ∃ node, h.read a = some node ∧
      h4.read a = some { node with next := p4 }

end SJF

/-- The pids that were sent `SIGCONT`, in the order of the trace. -/
def resumes : List Event → List Int
  | [] => []
  | Event.kill p .SIGCONT :: es => p :: resumes es
  | _ :: es => resumes es

/-- Text of the line the dispatchers print when they see a job has finished. -/
def completed_line : String := "Scheduler: A child has completed\n"

/-- The pids whose completion was observed: a job is observed complete when the
completion line is printed while it is the running job. `cur` is the running job:
the job resumed last, unless it has been sent the pause signal since. -/
def completions_from : Option Int → List Event → List Int
  | _, [] => []
  | _, Event.kill p .SIGCONT :: es => completions_from (some p) es
  | _, Event.kill _ .SIGUSR1 :: es => completions_from none es
  | cur, Event.usleep _ :: es => completions_from cur es
  | cur, Event.wait :: es => completions_from cur es
  | cur, Event.fork _ _ :: es => completions_from cur es
  | cur, Event.sleep _ :: es => completions_from cur es
  | some p, Event.printf m :: es =>
    if m = completed_line then p :: completions_from none es else completions_from (some p) es
  | none, Event.printf _ :: es => completions_from none es

/-- The pids whose completion was observed in a trace. -/
def completions (t : List Event) : List Int := completions_from none t

/-- The pids that were sent the pause signal `SIGUSR1`, in the order of the trace. -/
def preemptions : List Event → List Int
  | [] => []
  | Event.kill p .SIGUSR1 :: es => p :: preemptions es
  | _ :: es => preemptions es

namespace RR

/-- The events of one iteration that dispatches job `j`. -/
def events (qt : Int) (f : Bool) (j : Int) : List Event :=
  if f then [Event.kill j .SIGCONT, Event.usleep qt,
    Event.printf "Scheduler: A child has completed\n"]
  else [Event.kill j .SIGCONT, Event.usleep qt, Event.kill j .SIGUSR1, Event.usleep 1000]

/-- One iteration on the list of queued pids: the head is dropped when its
completion was seen, and moved to the tail otherwise. -/
def step (f : Bool) : List Int → List Int
  | [] => []
  | j :: js => if f then js else js ++ [j]

/-- The queue after the loop has consumed the inputs `ins`, on the list level. `d`
says whether the flag `done` is set at the start. -/
def queue_after : Bool → List (Bool × Bool) → List Int → List Int
  | _, [], l => l
  | _, _ :: _, [] => []
  | d, (f, late) :: fs, j :: js => queue_after late fs (step (d || f) (j :: js))

/-- The events of the loop on the inputs `ins`, on the list level. `d` says whether
the flag `done` is set at the start. -/
def trace_of (qt : Int) : Bool → List (Bool × Bool) → List Int → List Event
  | _, [], _ => []
  | _, _ :: _, [] => []
  | d, (f, late) :: fs, j :: js =>
    events qt (d || f) j ++ trace_of qt late fs (step (d || f) (j :: js))

/-- Number of dispatches a job with `r` time left needs under quantum `Q`:
the ceiling of `r / Q`. -/
def need (Q r : Nat) : Nat := (r + Q - 1) / Q

/-- The order in which jobs are dispatched under the run-time model, on the list
level, for at most `fuel` iterations. -/
def timed_order (Q : Nat) : Nat → (Int → Nat) → List Int → List Int
  | 0, _, _ => []
  | _ + 1, _, [] => []
  | k + 1, rem, j :: js =>
    j :: timed_order Q k (Function.update rem j (rem j - Q)) (step (decide (rem j ≤ Q)) (j :: js))

end RR

namespace MFQ

/-- Head and tail pointer of a queue record. -/
def ends (q : queue) : FIFO.queue := ⟨q.first, q.last⟩

/-- The low-priority record, the one `RL.next` points to, is the list with cells `cs`. -/
def low_holds (s : State) (cs : List (Nat × Int)) : Prop :=
  match low s with
  | .ok (_, lq) => FIFO.Holds s.heap (ends lq) cs
  | _ => False

instance (s : State) (cs : List (Nat × Int)) : Decidable (low_holds s cs) := by
  unfold low_holds; split <;> infer_instance

/-- The two tiers are well-formed lists: `RL` is the list with cells `csH`, the record
`RL.next` points to is the list with cells `csL`, and no cell is in both. -/
def Holds (s : State) (csH csL : List (Nat × Int)) : Prop :=
  FIFO.Holds s.heap (ends s.RL) csH ∧ low_holds s csL ∧ ((csH ++ csL).map Prod.fst).Nodup

instance (s : State) (csH csL : List (Nat × Int)) : Decidable (Holds s csH csL) := by
  unfold Holds; infer_instance

/-- The two tiers are well-formed lists, the high tier holding the pids `H` and the
low tier holding the pids `L`. -/
def Models (s : State) (H L : List Int) : Prop :=
  ∃ csH csL, Holds s csH csL ∧ csH.map Prod.snd = H ∧ csL.map Prod.snd = L

/-- The job an iteration resumes, on the list level: the head of the high tier, or
the head of the low tier when the high tier is empty. -/
def dispatched : List Int × List Int → Option Int
  | (j :: _, _) => some j
  | ([], j :: _) => some j
  | ([], []) => none

/-- One iteration on the lists of queued pids (high tier, low tier): the dispatched
job is dropped when its completion was seen, and put at the tail of the low tier
otherwise. -/
def step (f : Bool) : List Int × List Int → List Int × List Int
  | (j :: H, L) => if f then (H, L) else (H, L ++ [j])
  | ([], j :: L) => if f then ([], L) else ([], L ++ [j])
  | ([], []) => ([], [])

/-- The tiers after the loop has consumed the inputs `ins`, on the list level. `d`
says whether the flag `done` is set at the start. -/
def tiers_after : Bool → List (Bool × Bool) → List Int × List Int → List Int × List Int
  | _, [], T => T
  | d, (f, late) :: fs, T =>
    match dispatched T with
    | none => T
    | some _ => tiers_after late fs (step (d || f) T)

/-- The events of the loop on the inputs `ins`, on the list level. `d` says whether
the flag `done` is set at the start. -/
def trace_of (qt : Int) : Bool → List (Bool × Bool) → List Int × List Int → List Event
  | _, [], _ => []
  | d, (f, late) :: fs, T =>
    match dispatched T with
    | none => []
    | some j => RR.events qt (d || f) j ++ trace_of qt late fs (step (d || f) T)

end MFQ

namespace FIFO

/-- State of `main`: the heap, the ready list `RL` and the events so far. -/
structure State where
  heap : Heap list_node
  RL : queue
  trace : List Event
deriving DecidableEq, Repr

/-- One run of the body of `while(RL.first != NULL)` of `main`. -/
def iteration (s : State) : Outcome State := do
  -- kill(RL.first->my_id, SIGCONT); wait(&pstatus);
  let id ← head_id s.heap s.RL.first
  let s1 := { s with trace := s.trace ++ [Event.kill id .SIGCONT, Event.wait] }
  -- Queue_Remove(&RL); printf(..);
  let (h2, q2) ← Queue_Remove s1.heap (some s1.RL)
  pure ⟨h2, q2, s1.trace ++ [Event.printf "Scheduler: A child has completed\n"]⟩

/-- The first `k` iterations of the scheduling loop (fewer when the loop condition
fails before). -/
def steps : Nat → State → Outcome State
  | 0, s => .ok s
  | k + 1, s =>
    match s.RL.first with
    | none => .ok s
    | some _ => do
      let s1 ← iteration s
      steps k s1

/-- The scheduling loop `while(RL.first != NULL)` of `main`, cut off after `fuel`
iterations. -/
def schedule : Nat → State → Outcome State
  | fuel, s =>
    match s.RL.first with
    | none => .ok s
    | some _ =>
      match fuel with
      | 0 => .unfinished
      | k + 1 => do
        let s1 ← iteration s
        schedule k s1

/-- The events of the iterations that run the jobs `l` to completion, in order. -/
def events_of : List Int → List Event
  | [] => []
  | p :: ps =>
    [Event.kill p .SIGCONT, Event.wait, Event.printf "Scheduler: A child has completed\n"] ++
      events_of ps

end FIFO

namespace FIFO

/-- Head/tail well-formedness of a queue record, in the words of the invariant:
`first` is `NULL` exactly when `last` is, and following `next` from `first` reaches
`NULL` after finitely many nodes, `last` being the final node on the way (the one
whose `next` is `NULL`). -/
def WellFormed (h : Heap list_node) (q : queue) : Prop :=
  (q.first = none ↔ q.last = none) ∧
  ∃ cs : List (Nat × Int), Seg list_node.next list_node.my_id h q.first cs none ∧
    q.last = (cs.map Prod.fst).getLast?

end FIFO

namespace MFQ

/-- The pid of the job the next iteration dispatches: `RL.first->my_id` when the high
tier is not empty, `RL.next->first->my_id` otherwise. -/
def current (s : State) : Outcome Int :=
  match s.RL.first with
  | some _ => head_id s.heap s.RL.first
  | none => do
    let (_, lq) ← low s
    head_id s.heap lq.first

/-- The scheduling loop under the run-time model: `rem p` is the time job `p` still
needs, a dispatch takes `Q` of it, and the handler runs in the quantum exactly when
the job needed no more than `Q`. Cut off after `fuel` iterations. -/
def timed (Q : Nat) : Nat → (Int → Nat) → State → Outcome State
  | fuel, rem, s =>
    match guard s with
    | .ok false => .ok s
    | .ok true =>
      match fuel with
      | 0 => .unfinished
      | k + 1 =>
        match current s with
        | .ok j =>
          match iteration Q (decide (rem j ≤ Q)) s with
          | .ok s1 => timed Q k (Function.update rem j (rem j - Q)) s1
          | .exited c m => .exited c m
          | .fault => .fault
          | .unfinished => .unfinished
        | .exited c m => .exited c m
        | .fault => .fault
        | .unfinished => .unfinished
    | .exited c m => .exited c m
    | .fault => .fault
    | .unfinished => .unfinished

end MFQ

/-! ## `main` of the four programs -/

/-- The C `isspace` in the C locale: space, and the control characters 9 to 13. -/
def is_space (c : Char) : Bool := c.toNat == 32 || (9 ≤ c.toNat && c.toNat ≤ 13)

/-- A value converted to the C type `int` (32 bits, two's complement). -/
def wrap32 (x : Int) : Int := (x + 2147483648) % 4294967296 - 2147483648

/-- The value of the longest run of decimal digits at the start of a string,
continuing from `acc`. -/
def digits_value : Int → List Char → Int
  | acc, [] => acc
  | acc, c :: cs =>
    if c.isDigit then digits_value (acc * 10 + ((c.toNat : Int) - 48)) cs else acc

/-- The C library function `atoi` on a string given by its characters: white space
is skipped, then an optional sign and the decimal digits that follow are read; the
value is 0 when there are no digits. The result is brought into the range of `int`. -/
def atoi (s : List Char) : Int :=
  match s.dropWhile is_space with
  | [] => 0
  | c :: r =>
    if c = '-' then wrap32 (-(digits_value 0 r))
    else if c = '+' then wrap32 (digits_value 0 r)
    else wrap32 (digits_value 0 (c :: r))

/-- The decimal numeral of a natural number, as characters. -/
def decimal (n : Nat) : List Char :=
  if n = 0 then ['0'] else (Nat.digits 10 n).reverse.map (fun d => Char.ofNat (48 + d))

/-- The arguments of the calls of `usleep`, in the order of the trace. -/
def usleeps : List Event → List Int
  | [] => []
  | Event.usleep x :: es => x :: usleeps es
  | _ :: es => usleeps es

/-- The programs for which `fork` was called, in the order of the trace. -/
def forks : List Event → List String
  | [] => []
  | Event.fork path _ :: es => path :: forks es
  | _ :: es => forks es

/-- The signals sent with `kill`, in the order of the trace. -/
def kills : List Event → List (Int × Signal)
  | [] => []
  | Event.kill p sg :: es => (p, sg) :: kills es
  | _ :: es => kills es

namespace FIFO

/-- The creation loop of `main`: `args` are the job arguments still to handle and
`pid_of k` is what the `k`-th call of `fork` returns in the parent. -/
def create (pid_of : Nat → Int) : List String → Nat → State → Outcome State
  | [], _, s => .ok s
  | arg :: rest, k, s => do
    -- printf("Parent: Creating program %s\n", argv[i]); child = fork();
    let s1 := { s with trace := s.trace ++
      [Event.printf ("Parent: Creating program " ++ arg ++ "\n"), Event.fork arg (pid_of k)] }
    -- Queue_Insert(&RL, child);
    let (h2, q2) ← Queue_Insert s1.heap s1.RL (pid_of k)
    create pid_of rest (k + 1) ⟨h2, q2, s1.trace⟩

/-- The parent process of `main`, called as `prog args`: `argc` is `args.length + 1`.
`RL0` is the indeterminate content of the local `RL`. The result is the events up to
the end of the process and how it ended: `.ok r` for `return r`. -/
def main (prog : String) (args : List String) (pid_of : Nat → Int) (h0 : Heap list_node)
    (RL0 : queue) (fuel : Nat) : List Event × Outcome Int :=
  let RL := Queue_Init RL0
  if args.length + 1 < 2 then
    -- printf("%s p1 p2 ... pN\n", argv[0]); exit(-1);
    ([], .exited (-1) (prog ++ " p1 p2 ... pN\n"))
  else
    match create pid_of args 0 ⟨h0, RL, []⟩ with
    | .ok s1 =>
      -- sleep(1); printf("\nScheduler: Program scheduling beginning...\n");
      let s2 : State := { s1 with trace := s1.trace ++
        [Event.sleep 1, Event.printf "\nScheduler: Program scheduling beginning...\n"] }
      match schedule fuel s2 with
      | .ok s3 =>
        -- printf("Scheduler: Scheduling complete\n"); return 0;
        (s3.trace ++ [Event.printf "Scheduler: Scheduling complete\n"], .ok 0)
      | .exited c m => (s2.trace, .exited c m)
      | .fault => (s2.trace, .fault)
      | .unfinished => (s2.trace, .unfinished)
    | .exited c m => ([], .exited c m)
    | .fault => ([], .fault)
    | .unfinished => ([], .unfinished)

end FIFO

namespace SJF

/-- The burst length `atoi(&argv[i][1])`: the job argument is read from its second
character on. For an empty argument the address is past the end of the string. -/
def burst_arg (arg : String) : Outcome Int :=
  match arg.toList with
  | [] => .fault
  | _ :: r => .ok (atoi r)

/-- The creation loop of `main`: `args` are the job arguments still to handle and
`pid_of k` is what the `k`-th call of `fork` returns in the parent. -/
def create_jobs (pid_of : Nat → Int) : List String → Nat → State → Outcome State
  | [], _, s => .ok s
  | arg :: rest, k, s => do
    -- printf("Parent: Creating program %s\n", argv[i]); child = fork();
    let s1 := { s with trace := s.trace ++
      [Event.printf ("Parent: Creating program " ++ arg ++ "\n"), Event.fork arg (pid_of k)] }
    -- Queue_Insert(&RL, atoi(&argv[i][1]), child);
    let t ← burst_arg arg
    let (h2, q2) ← Queue_Insert s1.heap s1.RL t (pid_of k)
    create_jobs pid_of rest (k + 1) ⟨h2, q2, s1.trace⟩

/-- The parent process of `main`, called as `prog args`: `argc` is `args.length + 1`.
The result is the events up to the end of the process and how it ended. -/
def main (prog : String) (args : List String) (pid_of : Nat → Int) (h0 : Heap list_node)
    (RL0 : queue) (fuel : Nat) : List Event × Outcome Int :=
  let RL := Queue_Init RL0
  if args.length + 1 < 2 then
    -- printf("%s p1 p2 ... pN\n", argv[0]); exit(-1);
    ([], .exited (-1) (prog ++ " p1 p2 ... pN\n"))
  else
    match create_jobs pid_of args 0 ⟨h0, RL, []⟩ with
    | .ok s1 =>
      -- sleep(1); printf("\nScheduler: Program scheduling beginning...\n");
      let s2 : State := { s1 with trace := s1.trace ++
        [Event.sleep 1, Event.printf "\nScheduler: Program scheduling beginning...\n"] }
      match schedule fuel s2 with
      | .ok s3 =>
        -- printf("Scheduler: Scheduling complete\n"); return 0;
        (s3.trace ++ [Event.printf "Scheduler: Scheduling complete\n"], .ok 0)
      | .exited c m => (s2.trace, .exited c m)
      | .fault => (s2.trace, .fault)
      | .unfinished => (s2.trace, .unfinished)
    | .exited c m => ([], .exited c m)
    | .fault => ([], .fault)
    | .unfinished => ([], .unfinished)

end SJF

namespace RR

/-- The time slice `1000*atoi(&argv[1][0])`, computed in `int`. -/
def quantum (arg : String) : Int := wrap32 (1000 * atoi arg.toList)

/-- The creation loop of `main`: `args` are the job arguments still to handle and
`pid_of k` is what the `k`-th call of `fork` returns in the parent. -/
def create (pid_of : Nat → Int) : List String → Nat → State → Outcome State
  | [], _, s => .ok s
  | arg :: rest, k, s => do
    -- printf("Parent: Creating program %s\n", argv[i]); child = fork();
    let s1 := { s with child := pid_of k, trace := s.trace ++
      [Event.printf ("Parent: Creating program " ++ arg ++ "\n"), Event.fork arg (pid_of k)] }
    -- Queue_Insert(&RL, child);
    let (h2, q2) ← FIFO.Queue_Insert s1.heap s1.RL s1.child
    create pid_of rest (k + 1) { s1 with heap := h2, RL := q2 }

/-- The parent process of `main`, called as `prog args`: `argc` is `args.length + 1`
and `args` starts with the quantum. `child0` is the indeterminate content of the
local `child`; the global `done` starts as 0. The initial value `qt = 50` is either
overwritten or not used, on every path. The loop is fed with the handler inputs
`ins`; the run is `unfinished` when they are used up before the queue is empty. -/
def main (prog : String) (args : List String) (pid_of : Nat → Int) (h0 : Heap list_node)
    (RL0 : FIFO.queue) (child0 : Int) (ins : List (Bool × Bool)) : List Event × Outcome Int :=
  let RL := FIFO.Queue_Init RL0
  if 2 < args.length + 1 then
    -- qt = 1000*atoi(&argv[1][0]);
    let qt := quantum (args.headD "")
    match create pid_of (args.drop 1) 0 ⟨h0, RL, 0, child0, []⟩ with
    | .ok s1 =>
      -- sleep(1); printf("\nScheduler: Program scheduling beginning...\n");
      let s2 : State := { s1 with trace := s1.trace ++
        [Event.sleep 1, Event.printf "\nScheduler: Program scheduling beginning...\n"] }
      match run qt ins s2 with
      | .ok s3 =>
        match s3.RL.first with
        | none =>
          -- printf("Scheduler: Scheduling complete\n"); return 0;
          (s3.trace ++ [Event.printf "Scheduler: Scheduling complete\n"], .ok 0)
        | some _ => (s3.trace, .unfinished)
      | .exited c m => (s2.trace, .exited c m)
      | .fault => (s2.trace, .fault)
      | .unfinished => (s2.trace, .unfinished)
    | .exited c m => ([], .exited c m)
    | .fault => ([], .fault)
    | .unfinished => ([], .unfinished)
  else
    -- printf("%s qt p1 p2 ... pN\n", argv[0]); exit(-1);
    ([], .exited (-1) (prog ++ " qt p1 p2 ... pN\n"))

end RR

namespace MFQ

/-- The time slice `1000*atoi(&argv[1][0])`, computed in `int`. -/
def quantum (arg : String) : Int := wrap32 (1000 * atoi arg.toList)

/-- The creation loop of `main`: every new job goes to the high-priority list `RL`. -/
def create (pid_of : Nat → Int) : List String → Nat → State → Outcome State
  | [], _, s => .ok s
  | arg :: rest, k, s => do
    -- printf("Parent: Creating program %s\n", argv[i]); child = fork();
    let s1 := { s with child := pid_of k, trace := s.trace ++
      [Event.printf ("Parent: Creating program " ++ arg ++ "\n"), Event.fork arg (pid_of k)] }
    -- Queue_Insert(&RL, child);
    let (h2, q2) ← Queue_Insert s1.heap s1.RL s1.child
    create pid_of rest (k + 1) { s1 with heap := h2, RL := q2 }

/-- The start of `main`: `List_Insert(&RL); Queue_Init(&RL); Queue_Init(RL.next);`.
`RL0` is the indeterminate content of the local `RL`, `junk` that of the new record. -/
def setup (tiers : Heap queue) (RL0 junk : queue) : Outcome (Heap queue × queue) := do
  let (tiers1, RL1) ← List_Insert tiers RL0 junk
  let RL2 := Queue_Init RL1
  match RL2.next with
  | none => .fault
  | some t =>
    match tiers1.read t with
    | none => .fault
    | some lq => pure (tiers1.write t (Queue_Init lq), RL2)

/-- The parent process of `main`, called as `prog args`: `argc` is `args.length + 1`
and `args` starts with the quantum. The loop is fed with the handler inputs `ins`;
the run is `unfinished` when they are used up before both tiers are empty. -/
def main (prog : String) (args : List String) (pid_of : Nat → Int) (h0 : Heap list_node)
    (tiers0 : Heap queue) (RL0 junk : queue) (child0 : Int) (ins : List (Bool × Bool)) :
    List Event × Outcome Int :=
  match setup tiers0 RL0 junk with
  | .ok (tiers, RL) =>
    if 2 < args.length + 1 then
      -- qt = 1000*atoi(&argv[1][0]);
      let qt := quantum (args.headD "")
      match create pid_of (args.drop 1) 0 ⟨h0, tiers, RL, 0, child0, []⟩ with
      | .ok s1 =>
        -- sleep(1); printf("\nScheduler: Program scheduling beginning...\n");
        let s2 : State := { s1 with trace := s1.trace ++
          [Event.sleep 1, Event.printf "\nScheduler: Program scheduling beginning...\n"] }
        match run qt ins s2 with
        | .ok s3 =>
          match guard s3 with
          | .ok false =>
            -- printf("Scheduler: Scheduling complete\n"); return 0;
            (s3.trace ++ [Event.printf "Scheduler: Scheduling complete\n"], .ok 0)
          | .ok true => (s3.trace, .unfinished)
          | .exited c m => (s3.trace, .exited c m)
          | .fault => (s3.trace, .fault)
          | .unfinished => (s3.trace, .unfinished)
        | .exited c m => (s2.trace, .exited c m)
        | .fault => (s2.trace, .fault)
        | .unfinished => (s2.trace, .unfinished)
      | .exited c m => ([], .exited c m)
      | .fault => ([], .fault)
      | .unfinished => ([], .unfinished)
    else
      -- printf("%s qt p1 p2 ... pN\n", argv[0]); exit(-1);
      ([], .exited (-1) (prog ++ " qt p1 p2 ... pN\n"))
  | .exited c m => ([], .exited c m)
  | .fault => ([], .fault)
  | .unfinished => ([], .unfinished)

end MFQ

/-- The events of the creation loop for the job arguments `args`, the first of them
being the `k`-th job. -/
def creation_events (pid_of : Nat → Int) : List String → Nat → List Event
  | [], _ => []
  | arg :: rest, k =>
    [Event.printf ("Parent: Creating program " ++ arg ++ "\n"), Event.fork arg (pid_of k)] ++
      creation_events pid_of rest (k + 1)

/-- The pids of the children created for the job arguments `args`, in order. -/
def created_pids (pid_of : Nat → Int) : List String → Nat → List Int
  | [], _ => []
  | _ :: rest, k => pid_of k :: created_pids pid_of rest (k + 1)

/-- Check of a trace for one running job at a time. `cur` is the running job: the
job resumed last, unless it has since been sent the pause signal or the completion
line has been printed. A resume while a job is running fails the check. -/
def exclusive : Option Int → List Event → Bool
  | _, [] => true
  | none, Event.kill p .SIGCONT :: es => exclusive (some p) es
  | some _, Event.kill _ .SIGCONT :: _ => false
  | none, Event.kill _ .SIGUSR1 :: es => exclusive none es
  | some q, Event.kill p .SIGUSR1 :: es => exclusive (if p = q then none else some q) es
  | none, Event.printf _ :: es => exclusive none es
  | some q, Event.printf m :: es =>
    exclusive (if m = completed_line then none else some q) es
  | cur, Event.usleep _ :: es => exclusive cur es
  | cur, Event.wait :: es => exclusive cur es
  | cur, Event.fork _ _ :: es => exclusive cur es
  | cur, Event.sleep _ :: es => exclusive cur es

/-! # Theorems -/

/-! ## Heap and list-segment lemmas -/

namespace Heap
variable {α : Type}

theorem read_lt {h : Heap α} {a : Nat} {r : α} (e : h.read a = some r) : a < h.size := by
  unfold read size at *
  by_contra hc
  rw [List.getD_eq_default _ _ (by omega)] at e
  cases e

theorem read_write (h : Heap α) (a b : Nat) (r : α) :
    (h.write a r).read b = if a = b ∧ a < h.size then some r else h.read b := by
  unfold read write size
  simp only [List.getD_eq_getElem?_getD, List.getElem?_set]
  by_cases e : a = b
  · subst e
    by_cases l : a < h.cells.length
    · simp [l]
    · simp [l, List.getElem?_eq_none (l := h.cells) (n := a) (by omega)]
  · simp [e]

theorem read_free (h : Heap α) (a b : Nat) :
    (h.free a).read b = if a = b then none else h.read b := by
  unfold read free
  simp only [List.getD_eq_getElem?_getD, List.getElem?_set]
  by_cases e : a = b
  · subst e
    by_cases l : a < h.cells.length
    · simp [l]
    · simp [l]
  · simp [e]

theorem read_malloc (h : Heap α) (junk : α) (b : Nat) :
    (h.malloc junk).2.read b = if b = h.size then some junk else h.read b := by
  unfold read malloc size
  simp only [List.getD_eq_getElem?_getD]
  by_cases e : b = h.cells.length
  · subst e; simp
  · simp only [e, if_false]
    by_cases l : b < h.cells.length
    · rw [List.getElem?_append_left l]
    · rw [List.getElem?_eq_none (by simp; omega), List.getElem?_eq_none (by omega)]

@[simp] theorem size_write (h : Heap α) (a : Nat) (r : α) : (h.write a r).size = h.size := by
  simp [size, write]

@[simp] theorem size_free (h : Heap α) (a : Nat) : (h.free a).size = h.size := by
  simp [size, free]

@[simp] theorem size_malloc (h : Heap α) (junk : α) : (h.malloc junk).2.size = h.size + 1 := by
  simp [size, malloc]

@[simp] theorem malloc_fst (h : Heap α) (junk : α) : (h.malloc junk).1 = some h.size := rfl

end Heap

section ShapeLemmas
variable {α β : Type} {nxt : α → Option Nat} {val : α → β}

theorem Seg_cons {h : Heap α} {p q : Option Nat} {c : Nat × β} {cs : List (Nat × β)} :
    Seg nxt val h p (c :: cs) q ↔
      ∃ r, p = some c.1 ∧ h.read c.1 = some r ∧ val r = c.2 ∧ Seg nxt val h (nxt r) cs q := by
  constructor
  · intro hs
    simp only [Seg] at hs
    obtain ⟨hp, hm⟩ := hs
    cases hr : h.read c.1 with
    | none => simp [hr] at hm
    | some r =>
      simp only [hr] at hm
      exact ⟨r, hp, rfl, hm.1, hm.2⟩
  · rintro ⟨r, hp, hr, hv, hs⟩
    simp only [Seg, hr]
    exact ⟨hp, hv, hs⟩

theorem Seg_append {h : Heap α} {cs ds : List (Nat × β)} {p q : Option Nat} :
    Seg nxt val h p (cs ++ ds) q ↔ ∃ m, Seg nxt val h p cs m ∧ Seg nxt val h m ds q := by
  induction cs generalizing p with
  | nil =>
    constructor
    · intro hs
      exact ⟨p, rfl, hs⟩
    · rintro ⟨m, hm, hs⟩
      simp only [Seg] at hm
      subst hm
      exact hs
  | cons c cs ih =>
    simp only [List.cons_append, Seg_cons]
    constructor
    · rintro ⟨r, hp, hr, hv, hs⟩
      obtain ⟨m, h1, h2⟩ := ih.mp hs
      exact ⟨m, ⟨r, hp, hr, hv, h1⟩, h2⟩
    · rintro ⟨m, ⟨r, hp, hr, hv, h1⟩, h2⟩
      exact ⟨r, hp, hr, hv, ih.mpr ⟨m, h1, h2⟩⟩

/-- A segment only depends on the cells it visits. -/
theorem Seg_frame {h k : Heap α} {cs : List (Nat × β)} {p q : Option Nat}
    (same : ∀ c ∈ cs, k.read c.1 = h.read c.1) (hs : Seg nxt val h p cs q) :
    Seg nxt val k p cs q := by
  induction cs generalizing p with
  | nil => exact hs
  | cons c cs ih =>
    obtain ⟨r, hp, hr, hv, ht⟩ := Seg_cons.mp hs
    refine Seg_cons.mpr ⟨r, hp, ?_, hv, ih (fun d hd => same d (List.mem_cons_of_mem _ hd)) ht⟩
    rw [same c (List.mem_cons_self _ _), hr]

theorem Seg_lt {h : Heap α} {cs : List (Nat × β)} {p q : Option Nat}
    (hs : Seg nxt val h p cs q) : ∀ c ∈ cs, c.1 < h.size := by
  induction cs generalizing p with
  | nil => intro c hc; cases hc
  | cons c cs ih =>
    obtain ⟨r, _, hr, _, ht⟩ := Seg_cons.mp hs
    intro d hd
    rcases List.mem_cons.mp hd with e | e
    · subst e; exact Heap.read_lt hr
    · exact ih ht d e

end ShapeLemmas

@[simp] theorem Outcome.ok_bind {α β : Type} (a : α) (f : α → Outcome β) :
    (Outcome.ok a >>= f) = f a := rfl

@[simp] theorem Outcome.pure_eq {α : Type} (a : α) : (pure a : Outcome α) = Outcome.ok a := rfl

namespace Heap
variable {α : Type}

/-- Reading after `malloc` and a write to the new cell. -/
theorem read_malloc_write (h : Heap α) (junk r : α) (b : Nat) :
    ((h.malloc junk).2.write h.size r).read b = if b = h.size then some r else h.read b := by
  rw [read_write, read_malloc, size_malloc]
  by_cases e : b = h.size
  · simp [e]
  · simp [e, Ne.symm e]

end Heap

/-! ## FIFO queue: `Queue_Insert` and `Queue_Remove` on well-formed lists (C1) -/

namespace FIFO

theorem Queue_Init_holds (h : Heap list_node) (q : queue) : Holds h (Queue_Init q) [] := by
  simp [Holds, Queue_Init, Seg]

theorem Queue_Insert_empty (h : Heap list_node) {q : queue} (x : Int) (hf : q.first = none) :
    Queue_Insert h q x = .ok ((h.malloc ⟨0, none, none⟩).2.write h.size ⟨x, none, none⟩,
      ⟨some h.size, some h.size⟩) := by
  simp only [Queue_Insert, hf]; rfl

theorem Queue_Insert_nonempty {h : Heap list_node} {q : queue} (x : Int) {a l : Nat}
    {r : list_node} (hf : q.first = some a) (hl : q.last = some l) (hr : h.read l = some r) :
    Queue_Insert h q x = .ok
      (((h.malloc ⟨0, none, none⟩).2.write h.size ⟨x, none, some l⟩).write l
        { r with next := some h.size }, { q with last := some h.size }) := by
  have hlt := Heap.read_lt hr
  have e := Heap.read_malloc_write h ⟨0, none, none⟩ ⟨x, none, some l⟩ l
  rw [if_neg (by omega), hr] at e
  simp only [Queue_Insert, Heap.malloc_fst, hf, hl]
  rw [show (h.malloc ⟨0, none, none⟩) = (some h.size, (h.malloc ⟨0, none, none⟩).2) from rfl]
  simp only [e]

theorem Queue_Insert_holds {h : Heap list_node} {q : queue} {cs : List (Nat × Int)}
    (hh : Holds h q cs) (x : Int) :
    ∃ k q1, Queue_Insert h q x = .ok (k, q1) ∧ Holds k q1 (cs ++ [(h.size, x)]) ∧
      k.size = h.size + 1 ∧ ∀ b, b ≠ h.size → q.last ≠ some b → k.read b = h.read b := by
  obtain ⟨hseg, hnd, hlast⟩ := hh
  have hlt := Seg_lt hseg
  rcases List.eq_nil_or_concat cs with rfl | ⟨init, c, rfl⟩
  · have hf : q.first = none := hseg
    refine ⟨_, _, Queue_Insert_empty h x hf, ⟨?_, by simp, by simp⟩, by simp, ?_⟩
    · refine Seg_cons.mpr ⟨⟨x, none, none⟩, rfl, ?_, rfl, rfl⟩
      rw [Heap.read_malloc_write, if_pos rfl]
    · intro b hb _
      rw [Heap.read_malloc_write, if_neg hb]
  · simp only [List.concat_eq_append] at hseg hnd hlast hlt ⊢
    obtain ⟨m, hinit, hc⟩ := Seg_append.mp hseg
    obtain ⟨r, hm, hr, hv, hn⟩ := Seg_cons.mp hc
    have hn : r.next = none := hn
    have hl : q.last = some c.1 := by simpa using hlast
    have hcl : c.1 < h.size := hlt c (by simp)
    obtain ⟨a0, hf⟩ : ∃ a0, q.first = some a0 := by
      cases init with
      | nil => exact ⟨c.1, by rw [← hm]; exact hinit⟩
      | cons d ds => obtain ⟨_, hp, _⟩ := Seg_cons.mp hinit; exact ⟨_, hp⟩
    have e3 : ∀ b, (((h.malloc ⟨0, none, none⟩).2.write h.size ⟨x, none, some c.1⟩).write c.1
        { r with next := some h.size }).read b =
        if b = c.1 then some { r with next := some h.size }
        else if b = h.size then some ⟨x, none, some c.1⟩ else h.read b := by
      intro b
      rw [Heap.read_write, Heap.read_malloc_write, Heap.size_write, Heap.size_malloc]
      by_cases e : b = c.1
      · rw [if_pos ⟨e.symm, by omega⟩, if_pos e]
      · rw [if_neg (fun hx => e hx.1.symm), if_neg e]
    have hnd2 : (init.map Prod.fst).Nodup ∧ c.1 ∉ init.map Prod.fst := by
      simpa [List.nodup_append, and_comm] using hnd
    refine ⟨_, _, Queue_Insert_nonempty x hf hl hr, ⟨?_, ?_, by simp⟩, by simp, ?_⟩
    · rw [List.append_assoc]
      refine Seg_append.mpr ⟨m, Seg_frame ?_ hinit, ?_⟩
      · intro d hd
        rw [e3]
        have hd1 : d.1 ≠ c.1 := fun e => hnd2.2 (e ▸ List.mem_map_of_mem _ hd)
        have hd2 : d.1 < h.size := hlt d (by simp [hd])
        rw [if_neg hd1, if_neg (by omega)]
      · refine Seg_cons.mpr ⟨{ r with next := some h.size }, hm, by rw [e3, if_pos rfl], hv, ?_⟩
        refine Seg_cons.mpr ⟨⟨x, none, some c.1⟩, rfl, ?_, rfl, rfl⟩
        show (Heap.read _ h.size) = _
        rw [e3, if_neg (by omega), if_pos rfl]
    · rw [List.map_append, List.nodup_append]
      refine ⟨hnd, by simp, ?_⟩
      intro a ha hb
      have : a = h.size := by simpa using hb
      subst this
      obtain ⟨d, hd, e⟩ := List.mem_map.mp ha
      have := hlt d hd
      omega
    · intro b hb hbl
      rw [hl] at hbl
      have hbl1 : b ≠ c.1 := fun e => hbl (by rw [e])
      rw [e3, if_neg hbl1, if_neg hb]

theorem Queue_Remove_holds {h : Heap list_node} {q : queue} {a : Nat} {x : Int}
    {cs : List (Nat × Int)} (hh : Holds h q ((a, x) :: cs)) :
    head_id h q.first = .ok x ∧
    ∃ q1, Queue_Remove h (some q) = .ok (h.free a, q1) ∧ Holds (h.free a) q1 cs := by
  obtain ⟨hseg, hnd, hlast⟩ := hh
  obtain ⟨r, hf, hr, hv, ht⟩ := Seg_cons.mp hseg
  simp only at hf hr hv
  have hnd2 : a ∉ cs.map Prod.fst ∧ (cs.map Prod.fst).Nodup := by simpa using hnd
  refine ⟨by simp [head_id, hf, hr, hv], ?_⟩
  have ht2 : Seg list_node.next list_node.my_id (h.free a) r.next cs none := by
    refine Seg_frame ?_ ht
    intro d hd
    rw [Heap.read_free, if_neg]
    intro e
    exact hnd2.1 (e ▸ List.mem_map_of_mem _ hd)
  cases cs with
  | nil =>
    have hn : r.next = none := ht
    refine ⟨⟨none, none⟩, by simp [Queue_Remove, hf, hr, hn], ?_⟩
    simp [Holds, Seg]
  | cons d ds =>
    obtain ⟨_, hn, _⟩ := Seg_cons.mp ht
    refine ⟨⟨r.next, q.last⟩, by simp [Queue_Remove, hf, hr, hn], ht2, hnd2.2, ?_⟩
    simpa using hlast

theorem insert_all_holds (ps : List Int) : ∀ {h : Heap list_node} {q : queue}
    {cs : List (Nat × Int)}, Holds h q cs →
    ∃ k q1 ds, insert_all h q ps = .ok (k, q1) ∧ Holds k q1 (cs ++ ds) ∧
      ds.map Prod.snd = ps := by
  induction ps with
  | nil =>
    intro h q cs hh
    exact ⟨h, q, [], rfl, by simpa using hh, rfl⟩
  | cons p ps ih =>
    intro h q cs hh
    obtain ⟨k, q1, e, hk, _, _⟩ := Queue_Insert_holds hh p
    obtain ⟨k2, q2, ds, e2, hk2, hd⟩ := ih hk
    refine ⟨k2, q2, (h.size, p) :: ds, ?_, by simpa using hk2, by simp [hd]⟩
    simp only [insert_all, e, Outcome.ok_bind, e2]

theorem remove_n_holds (cs : List (Nat × Int)) : ∀ {h : Heap list_node} {q : queue},
    Holds h q cs →
    ∃ k q1, remove_n cs.length h q = .ok (cs.map Prod.snd, k, q1) ∧ Holds k q1 [] := by
  induction cs with
  | nil =>
    intro h q hh
    exact ⟨h, q, rfl, hh⟩
  | cons c cs ih =>
    intro h q hh
    obtain ⟨a, x⟩ := c
    obtain ⟨e1, q1, e2, hk⟩ := Queue_Remove_holds hh
    obtain ⟨k2, q2, e3, hk2⟩ := ih hk
    refine ⟨k2, q2, ?_, hk2⟩
    simp only [remove_n, List.length_cons, e1, e2, e3, Outcome.ok_bind, List.map_cons,
      Outcome.pure_eq]

/-- C1 (FIFO round trip): from `Queue_Init`, inserting the ids `ps` in order and then
`ps.length` times reading the head id and calling `Queue_Remove` returns exactly `ps`,
in insertion order, and leaves `first = last = NULL`. -/
theorem round_trip (h0 : Heap list_node) (q0 : queue) (ps : List Int) :
    ∃ h1 q1 h2 q2, insert_all h0 (Queue_Init q0) ps = .ok (h1, q1) ∧
      remove_n ps.length h1 q1 = .ok (ps, h2, q2) ∧ q2.first = none ∧ q2.last = none := by
  obtain ⟨h1, q1, ds, e1, hh, hd⟩ := insert_all_holds ps (Queue_Init_holds h0 q0)
  obtain ⟨h2, q2, e2, hk⟩ := remove_n_holds ([] ++ ds) hh
  refine ⟨h1, q1, h2, q2, e1, ?_, hk.1, ?_⟩
  · have hl : ps.length = ([] ++ ds).length := by rw [← hd]; simp
    rw [hl, e2]; simp [hd]
  · have := hk.2.2
    simpa using this

end FIFO

/-! ## SJF: the sorted insert (C2) and the execution order (C3) -/

namespace SJF

/-- Linking the new node `n` in at the cursor `loc`, in front of the list `rest`. -/
theorem store_here {h : Heap list_node} {RL : queue} {b job : Int} {n : Nat}
    {rest : List (Nat × (Int × Int))} {loc : Loc} {p x : Option Nat}
    (hload : load h RL loc = .ok p) (hseg : Seg list_node.next payload h p rest none)
    (hnin : n ∉ rest.map Prod.fst) (hn : h.read n = some ⟨job, b, x⟩)
    (hloc : ∀ a, loc = .next_of a → a ∉ rest.map Prod.fst ∧ a ≠ n) :
    ∃ h4 RL4, store (h.write n ⟨job, b, p⟩) RL (some n) loc = .ok (h4, RL4) ∧
      Seg list_node.next payload h4 (some n) ((n, (b, job)) :: rest) none ∧
      cursor_holds h h4 RL RL4 (some n) loc ∧
      (∀ y, y ≠ n → loc ≠ .next_of y → h4.read y = h.read y) ∧
      h4.size = h.size := by
  have hnlt := Heap.read_lt hn
  cases loc with
  | var =>
    refine ⟨h.write n ⟨job, b, p⟩, some n, rfl, ?_, rfl, ?_, by simp⟩
    · refine Seg_cons.mpr ⟨⟨job, b, p⟩, rfl, ?_, rfl, Seg_frame ?_ hseg⟩
      · rw [Heap.read_write, if_pos ⟨rfl, hnlt⟩]
      · intro d hd
        rw [Heap.read_write, if_neg]
        intro e
        exact hnin (e.1 ▸ List.mem_map_of_mem _ hd)
    · intro y hy _
      rw [Heap.read_write, if_neg (fun e => hy e.1.symm)]
  | next_of a =>
    obtain ⟨hain, han⟩ := hloc a rfl
    cases hr : h.read a with
    | none => simp [load, hr] at hload
    | some node =>
      have hr3 : (h.write n ⟨job, b, p⟩).read a = some node := by
        rw [Heap.read_write, if_neg (fun e => han e.1.symm), hr]
      have halt : a < (h.write n ⟨job, b, p⟩).size := by simpa using Heap.read_lt hr
      refine ⟨(h.write n ⟨job, b, p⟩).write a { node with next := some n }, RL,
        by simp only [store, hr3], ?_, ⟨rfl, node, hr, ?_⟩, ?_, by simp⟩
      · refine Seg_cons.mpr ⟨⟨job, b, p⟩, rfl, ?_, rfl, Seg_frame ?_ hseg⟩
        · show Heap.read _ n = _
          rw [Heap.read_write, if_neg (fun e => han e.1), Heap.read_write, if_pos ⟨rfl, hnlt⟩]
        · intro d hd
          have hda : a ≠ d.1 := fun e => hain (e ▸ List.mem_map_of_mem _ hd)
          have hdn : n ≠ d.1 := fun e => hnin (e ▸ List.mem_map_of_mem _ hd)
          rw [Heap.read_write, if_neg (fun e => hda e.1), Heap.read_write,
            if_neg (fun e => hdn e.1)]
      · rw [Heap.read_write, if_pos ⟨rfl, halt⟩]
      · intro y hy hya
        have hya1 : a ≠ y := fun e => hya (by rw [e])
        rw [Heap.read_write, if_neg (fun e => hya1 e.1), Heap.read_write,
          if_neg (fun e => hy e.1.symm)]

theorem scan_store {h : Heap list_node} {RL : queue} {b job : Int} {n : Nat}
    (rest : List (Nat × (Int × Int))) :
    ∀ (loc : Loc) (p x : Option Nat) (fuel : Nat),
      load h RL loc = .ok p → Seg list_node.next payload h p rest none →
      (rest.map Prod.fst).Nodup → n ∉ rest.map Prod.fst →
      h.read n = some ⟨job, b, x⟩ →
      (∀ a, loc = .next_of a → a ∉ rest.map Prod.fst ∧ a ≠ n) →
      rest.length < fuel →
      ∃ loc1 p1 h4 RL4 p4, scan h RL b fuel loc = .ok loc1 ∧ load h RL loc1 = .ok p1 ∧
        store (h.write n ⟨job, b, p1⟩) RL (some n) loc1 = .ok (h4, RL4) ∧
        Seg list_node.next payload h4 p4
          (before_first_ge (fun c => c.2.1) b (n, (b, job)) rest) none ∧
        cursor_holds h h4 RL RL4 p4 loc ∧
        (∀ y, y ∉ rest.map Prod.fst → y ≠ n → loc ≠ .next_of y → h4.read y = h.read y) ∧
        h4.size = h.size := by
  induction rest with
  | nil =>
    intro loc p x fuel hload hseg _ hnin hn hloc hfuel
    have hp : p = none := hseg
    subst hp
    obtain ⟨k, rfl⟩ : ∃ k, fuel = k + 1 := ⟨fuel - 1, by simp at hfuel; omega⟩
    have hscan : scan h RL b (k + 1) loc = .ok loc := by
      simp only [scan, hload, Outcome.ok_bind, Outcome.pure_eq]
    obtain ⟨h4, RL4, e, hs, hm, hfr, hsz⟩ := store_here hload hseg hnin hn hloc
    exact ⟨loc, none, h4, RL4, some n, hscan, hload, e, hs, hm, fun y _ => hfr y, hsz⟩
  | cons c rest ih =>
    intro loc p x fuel hload hseg hnd hnin hn hloc hfuel
    obtain ⟨k, rfl⟩ : ∃ k, fuel = k + 1 := ⟨fuel - 1, by simp at hfuel; omega⟩
    obtain ⟨r, hp, hr, hv, ht⟩ := Seg_cons.mp hseg
    by_cases hb : c.2.1 < b
    · -- the cursor moves on to the `next` field of the cell `c`
      have hrt : r.time < b := by rw [← hv] at hb; exact hb
      have hnd2 : c.1 ∉ rest.map Prod.fst ∧ (rest.map Prod.fst).Nodup := by simpa using hnd
      have hnin2 : n ≠ c.1 ∧ n ∉ rest.map Prod.fst := by
        simpa [not_or] using hnin
      have hload1 : load h RL (.next_of c.1) = .ok r.next := by simp [load, hr]
      obtain ⟨loc1, p1, h4, RL4, p4, e1, e2, e3, hs, hm, hfr, hsz⟩ :=
        ih (.next_of c.1) r.next x k hload1 ht hnd2.2 hnin2.2 hn
          (by intro a ha; cases ha; exact ⟨hnd2.1, Ne.symm hnin2.1⟩)
          (by simp at hfuel; omega)
      obtain ⟨hRL, node, hnode, h4c⟩ := hm
      rw [hr] at hnode
      cases hnode
      refine ⟨loc1, p1, h4, RL4, some c.1, ?_, e2, e3, ?_, ?_, ?_, hsz⟩
      · simp only [scan, hload, hp, Outcome.ok_bind, hr, hrt, if_true, e1]
      · have : before_first_ge (fun c => c.2.1) b (n, (b, job)) (c :: rest) =
            c :: before_first_ge (fun c => c.2.1) b (n, (b, job)) rest := by
          simp [before_first_ge, List.takeWhile_cons, List.dropWhile_cons, hb]
        rw [this]
        exact Seg_cons.mpr ⟨_, rfl, h4c, hv, hs⟩
      · cases loc with
        | var =>
          show RL4 = some c.1
          rw [hRL, ← hp]
          simpa [load] using hload
        | next_of a =>
          obtain ⟨hain, han⟩ := hloc a rfl
          have hain2 : a ≠ c.1 ∧ a ∉ rest.map Prod.fst := by simpa [not_or] using hain
          cases hra : h.read a with
          | none => simp [load, hra] at hload
          | some na =>
            have hnext : na.next = some c.1 := by
              have : na.next = p := by simpa [load, hra] using hload
              rw [this, hp]
            refine ⟨hRL, na, hra, ?_⟩
            rw [hfr a hain2.2 han (by intro e; cases e; exact hain2.1 rfl), hra, ← hnext]
      · intro y hy hyn hyl
        have hy2 : y ≠ c.1 ∧ y ∉ rest.map Prod.fst := by simpa [not_or] using hy
        exact hfr y hy2.2 hyn (by intro e; cases e; exact hy2.1 rfl)
    · -- the scan stops at the cursor
      have hrt : ¬ r.time < b := by rw [← hv] at hb; exact hb
      have hscan : scan h RL b (k + 1) loc = .ok loc := by
        simp only [scan, hload, hp, Outcome.ok_bind, hr, hrt, if_false, Outcome.pure_eq]
      obtain ⟨h4, RL4, e, hs, hm, hfr, hsz⟩ := store_here hload hseg hnin hn hloc
      have : before_first_ge (fun c => c.2.1) b (n, (b, job)) (c :: rest) =
          (n, (b, job)) :: c :: rest := by
        simp [before_first_ge, List.takeWhile_cons, List.dropWhile_cons, hb]
      rw [this]
      exact ⟨loc, p, h4, RL4, some n, hscan, hload, e, hs, hm, fun y _ => hfr y, hsz⟩

end SJF

/-- Distinct addresses below `N` are at most `N` many. -/
theorem length_le_of_nodup_lt {l : List Nat} {N : Nat} (hnd : l.Nodup) (hlt : ∀ a ∈ l, a < N) :
    l.length ≤ N := by
  have h1 : l.toFinset.card = l.length := List.toFinset_card_of_nodup hnd
  have h2 : l.toFinset ⊆ Finset.range N := by
    intro a ha
    exact Finset.mem_range.mpr (hlt a (List.mem_toFinset.mp ha))
  have h3 := Finset.card_le_card h2
  rw [Finset.card_range] at h3
  omega

namespace SJF

theorem map_before_first_ge {γ δ : Type} (f : γ → δ) (key : δ → Int) (b : Int) (e : γ)
    (l : List γ) :
    (before_first_ge (fun c => key (f c)) b e l).map f = before_first_ge key b (f e) (l.map f) := by
  induction l with
  | nil => simp [before_first_ge]
  | cons c l ih =>
    simp only [before_first_ge] at ih ⊢
    by_cases hc : key (f c) < b
    · simpa [List.takeWhile_cons, List.dropWhile_cons, hc] using ih
    · simp [List.takeWhile_cons, List.dropWhile_cons, hc]

theorem perm_before_first_ge {γ : Type} (key : γ → Int) (b : Int) (e : γ) (l : List γ) :
    (before_first_ge key b e l).Perm (e :: l) := by
  unfold before_first_ge
  have h := List.takeWhile_append_dropWhile (fun c => decide (key c < b)) l
  calc (l.takeWhile (fun c => decide (key c < b)) ++
          e :: l.dropWhile (fun c => decide (key c < b))).Perm
        (e :: (l.takeWhile (fun c => decide (key c < b)) ++
          l.dropWhile (fun c => decide (key c < b)))) := List.perm_middle
    _ = e :: l := by rw [h]

theorem sjf_Queue_Insert_holds {h : Heap list_node} {RL : queue} {cs : List (Nat × (Int × Int))}
    (hh : Holds h RL cs) (b job : Int) :
    ∃ k RL1, Queue_Insert h RL b job = .ok (k, RL1) ∧
      Holds k RL1 (before_first_ge (fun c => c.2.1) b (h.size, (b, job)) cs) ∧
      k.size = h.size + 1 := by
  obtain ⟨hseg, hnd⟩ := hh
  have hlt := Seg_lt hseg
  have hlt2 : ∀ a ∈ cs.map Prod.fst, a < h.size := by
    intro a ha
    obtain ⟨d, hd, e⟩ := List.mem_map.mp ha
    exact e ▸ hlt d hd
  have hlen : cs.length ≤ h.size := by
    simpa using length_le_of_nodup_lt hnd hlt2
  have hnin : h.size ∉ cs.map Prod.fst := fun hm => by
    have := hlt2 _ hm; omega
  have hread : ∀ y, ((h.malloc ⟨0, 0, none⟩).2.write h.size ⟨job, b, none⟩).read y =
      if y = h.size then some ⟨job, b, none⟩ else h.read y :=
    Heap.read_malloc_write h _ _
  have hseg2 : Seg list_node.next payload
      ((h.malloc ⟨0, 0, none⟩).2.write h.size ⟨job, b, none⟩) RL cs none := by
    refine Seg_frame ?_ hseg
    intro d hd
    rw [hread, if_neg]
    have := hlt d hd
    omega
  obtain ⟨loc1, p1, h4, RL4, p4, e1, e2, e3, hs, hm, hfr, hsz⟩ :=
    scan_store (b := b) (n := h.size) cs .var RL none
      (((h.malloc ⟨0, 0, none⟩).2.write h.size ⟨job, b, none⟩).size + 1)
      rfl hseg2 hnd hnin (by rw [hread, if_pos rfl]) (by intro a ha; cases ha)
      (by simp; omega)
  have hm : RL4 = p4 := hm
  subst hm
  refine ⟨h4, RL4, ?_, ⟨hs, ?_⟩, by simpa using hsz⟩
  · show (scan ((h.malloc ⟨0, 0, none⟩).2.write h.size ⟨job, b, none⟩) RL b
        (((h.malloc ⟨0, 0, none⟩).2.write h.size ⟨job, b, none⟩).size + 1) .var >>= fun rlp =>
        load ((h.malloc ⟨0, 0, none⟩).2.write h.size ⟨job, b, none⟩) RL rlp >>= fun p =>
          store (((h.malloc ⟨0, 0, none⟩).2.write h.size ⟨job, b, none⟩).write h.size
            ⟨job, b, p⟩) RL (some h.size) rlp) = _
    rw [e1, Outcome.ok_bind, e2, Outcome.ok_bind, e3]
  · have hp := (perm_before_first_ge (fun c : Nat × (Int × Int) => c.2.1) b
      (h.size, (b, job)) cs).map Prod.fst
    rw [hp.nodup_iff, List.map_cons, List.nodup_cons]
    exact ⟨hnin, hnd⟩

theorem sjf_Queue_Insert_models {h : Heap list_node} {RL : queue} {l : List (Int × Int)}
    (hm : Models h RL l) (b job : Int) :
    ∃ k RL1, Queue_Insert h RL b job = .ok (k, RL1) ∧
      Models k RL1 (before_first_ge Prod.fst b (b, job) l) := by
  obtain ⟨cs, hh, rfl⟩ := hm
  obtain ⟨k, RL1, e, hk, _⟩ := sjf_Queue_Insert_holds hh b job
  exact ⟨k, RL1, e, _, hk, map_before_first_ge Prod.snd Prod.fst b _ cs⟩

end SJF

section Unique
variable {α β : Type} {nxt : α → Option Nat} {val : α → β}

/-- A pointer spells at most one list. -/
theorem Seg_unique {h : Heap α} {cs : List (Nat × β)} :
    ∀ {p : Option Nat} {ds : List (Nat × β)},
      Seg nxt val h p cs none → Seg nxt val h p ds none → cs = ds := by
  induction cs with
  | nil =>
    intro p ds h1 h2
    have hp : p = none := h1
    cases ds with
    | nil => rfl
    | cons d ds =>
      obtain ⟨_, hq, _⟩ := Seg_cons.mp h2
      rw [hp] at hq; cases hq
  | cons c cs ih =>
    intro p ds h1 h2
    obtain ⟨r, hp, hr, hv, ht⟩ := Seg_cons.mp h1
    cases ds with
    | nil =>
      have hq : p = none := h2
      rw [hq] at hp; cases hp
    | cons d ds =>
      obtain ⟨r2, hp2, hr2, hv2, ht2⟩ := Seg_cons.mp h2
      have e1 : c.1 = d.1 := by rw [hp] at hp2; exact Option.some.inj hp2
      rw [← e1, hr] at hr2
      cases hr2
      have e2 : c = d := Prod.ext e1 (hv.symm.trans hv2)
      rw [e2, ih ht ht2]

end Unique

namespace SJF

theorem Models_unique {h : Heap list_node} {RL : queue} {l1 l2 : List (Int × Int)}
    (h1 : Models h RL l1) (h2 : Models h RL l2) : l1 = l2 := by
  obtain ⟨cs, ⟨hs, _⟩, rfl⟩ := h1
  obtain ⟨ds, ⟨ht, _⟩, rfl⟩ := h2
  rw [Seg_unique hs ht]

theorem sorted_before_first_ge {γ : Type} (key : γ → Int) (e : γ) (l : List γ)
    (hs : l.Sorted (fun x y => key x ≤ key y)) :
    (before_first_ge key (key e) e l).Sorted (fun x y => key x ≤ key y) := by
  induction l with
  | nil => simp [before_first_ge]
  | cons c l ih =>
    obtain ⟨hc, hl⟩ := List.sorted_cons.mp hs
    by_cases hb : key c < key e
    · have hstep : before_first_ge key (key e) e (c :: l) =
          c :: before_first_ge key (key e) e l := by
        simp [before_first_ge, List.takeWhile_cons, List.dropWhile_cons, hb]
      rw [hstep]
      refine List.sorted_cons.mpr ⟨?_, ih hl⟩
      intro d hd
      rcases List.mem_cons.mp ((perm_before_first_ge key (key e) e l).mem_iff.mp hd) with e1 | e1
      · rw [e1]; omega
      · exact hc d e1
    · have hstep : before_first_ge key (key e) e (c :: l) = e :: c :: l := by
        simp [before_first_ge, List.takeWhile_cons, List.dropWhile_cons, hb]
      rw [hstep]
      refine List.sorted_cons.mpr ⟨?_, hs⟩
      intro d hd
      rcases List.mem_cons.mp hd with e1 | e1
      · rw [e1]; omega
      · have := hc d e1; omega

theorem prefix_lt_before_first_ge {γ : Type} (key : γ → Int) (b : Int) (l : List γ) :
    ∀ c ∈ l.takeWhile (fun c => decide (key c < b)), key c < b := by
  intro c hc
  simpa using List.mem_takeWhile_imp hc

theorem rest_ge_before_first_ge {γ : Type} (key : γ → Int) (b : Int) (l : List γ)
    (hs : l.Sorted (fun x y => key x ≤ key y)) :
    ∀ c ∈ l.dropWhile (fun c => decide (key c < b)), b ≤ key c := by
  induction l with
  | nil => intro c hc; simp at hc
  | cons d l ih =>
    obtain ⟨hd, hl⟩ := List.sorted_cons.mp hs
    intro c hc
    by_cases hb : key d < b
    · rw [List.dropWhile_cons, if_pos (by simpa using hb)] at hc
      exact ih hl c hc
    · rw [List.dropWhile_cons, if_neg (by simpa using hb)] at hc
      rcases List.mem_cons.mp hc with e1 | e1
      · rw [e1]; omega
      · have := hd c e1; omega

theorem arrive_append (l : List (Int × Int)) (arrivals : List (Int × Int)) :
    (arrivals.foldl (fun l e => before_first_ge Prod.fst e.1 e l) l).Perm (arrivals.reverse ++ l) ∧
    (l.Sorted (fun x y => x.1 ≤ y.1) →
      (arrivals.foldl (fun l e => before_first_ge Prod.fst e.1 e l) l).Sorted
        (fun x y => x.1 ≤ y.1)) := by
  induction arrivals generalizing l with
  | nil => simp
  | cons e arrivals ih =>
    simp only [List.foldl_cons, List.reverse_cons, List.append_assoc, List.singleton_append]
    obtain ⟨hp, hs⟩ := ih (before_first_ge Prod.fst e.1 e l)
    refine ⟨hp.trans ((perm_before_first_ge Prod.fst e.1 e l).append_left _),
      fun hl => hs (sorted_before_first_ge Prod.fst e l hl)⟩

theorem arrive_perm (arrivals : List (Int × Int)) : (arrive arrivals).Perm arrivals := by
  have := (arrive_append [] arrivals).1
  simp only [List.append_nil] at this
  exact this.trans (List.reverse_perm _)

theorem arrive_sorted (arrivals : List (Int × Int)) :
    (arrive arrivals).Sorted (fun x y => x.1 ≤ y.1) :=
  (arrive_append [] arrivals).2 List.sorted_nil

/-- With pairwise distinct burst lengths the ready list does not depend on the order
of the arrivals. -/
theorem arrive_congr {a1 a2 : List (Int × Int)} (hp : a1.Perm a2)
    (hnd : (a1.map Prod.fst).Nodup) : arrive a1 = arrive a2 := by
  have strict : ∀ a : List (Int × Int), a.Perm a1 →
      (arrive a).Sorted (fun x y => x.1 < y.1) := by
    intro a ha
    have h1 : (arrive a).Pairwise (fun x y => x.1 ≤ y.1) := arrive_sorted a
    have h2 : ((arrive a).map Prod.fst).Nodup :=
      (((arrive_perm a).trans ha).map Prod.fst).nodup_iff.mpr hnd
    have h3 : (arrive a).Pairwise (fun x y => x.1 ≠ y.1) := by
      rw [List.Nodup, List.pairwise_map] at h2
      exact h2
    exact (h1.and h3).imp (fun hxy => lt_of_le_of_ne hxy.1 hxy.2)
  have hperm : (arrive a1).Perm (arrive a2) :=
    ((arrive_perm a1).trans hp).trans (arrive_perm a2).symm
  have : IsAntisymm (Int × Int) (fun x y => x.1 < y.1) :=
    ⟨fun x y hxy hyx => absurd hxy (not_lt.mpr (le_of_lt hyx))⟩
  exact List.eq_of_perm_of_sorted hperm (strict a1 (List.Perm.refl _)) (strict a2 hp.symm)

end SJF

theorem resumes_append (t u : List Event) : resumes (t ++ u) = resumes t ++ resumes u := by
  induction t with
  | nil => rfl
  | cons ev t ih =>
    cases ev with
    | kill q sg => cases sg <;> simp [resumes, ih]
    | usleep x => simpa [resumes] using ih
    | wait => simpa [resumes] using ih
    | printf m => simpa [resumes] using ih
    | fork a c => simpa [resumes] using ih
    | sleep x => simpa [resumes] using ih

namespace SJF

theorem sjf_Queue_Remove_holds {h : Heap list_node} {RL : queue} {a : Nat} {e : Int × Int}
    {cs : List (Nat × (Int × Int))} (hh : Holds h RL ((a, e) :: cs)) :
    ∃ node, RL = some a ∧ h.read a = some node ∧ node.my_id = e.2 ∧
      Queue_Remove h (some RL) = .ok (h.free a, node.next) ∧ Holds (h.free a) node.next cs := by
  obtain ⟨hseg, hnd⟩ := hh
  obtain ⟨r, hf, hr, hv, ht⟩ := Seg_cons.mp hseg
  simp only at hf hr hv
  have hnd2 : a ∉ cs.map Prod.fst ∧ (cs.map Prod.fst).Nodup := by simpa using hnd
  refine ⟨r, hf, hr, by rw [← hv]; rfl, by simp [Queue_Remove, hf, hr], ?_, hnd2.2⟩
  refine Seg_frame ?_ ht
  intro d hd
  rw [Heap.read_free, if_neg]
  intro e
  exact hnd2.1 (e ▸ List.mem_map_of_mem _ hd)

theorem create_models (arrivals : List (Int × Int)) : ∀ (s : State) {l : List (Int × Int)},
    Models s.heap s.RL l →
    ∃ s1, create s arrivals = .ok s1 ∧ s1.trace = s.trace ∧
      Models s1.heap s1.RL (arrivals.foldl (fun l e => before_first_ge Prod.fst e.1 e l) l) := by
  induction arrivals with
  | nil =>
    intro s l hm
    exact ⟨s, rfl, rfl, hm⟩
  | cons e arrivals ih =>
    intro s l hm
    obtain ⟨t, child⟩ := e
    obtain ⟨k, RL1, e1, hk⟩ := sjf_Queue_Insert_models hm t child
    obtain ⟨s1, e2, htr, hm1⟩ := ih { s with heap := k, RL := RL1 } hk
    exact ⟨s1, by simp only [create, e1, Outcome.ok_bind, e2], htr, hm1⟩

theorem schedule_holds (cs : List (Nat × (Int × Int))) : ∀ (s : State) (fuel : Nat),
    Holds s.heap s.RL cs → cs.length ≤ fuel →
    ∃ s2, schedule fuel s = .ok s2 ∧ s2.RL = none ∧
      resumes s2.trace = resumes s.trace ++ cs.map (fun c => c.2.2) := by
  induction cs with
  | nil =>
    intro s fuel hh _
    have hRL : s.RL = none := hh.1
    refine ⟨s, ?_, hRL, by simp⟩
    cases fuel <;> simp [schedule, hRL]
  | cons c cs ih =>
    intro s fuel hh hfuel
    obtain ⟨a, e⟩ := c
    obtain ⟨k, rfl⟩ : ∃ k, fuel = k + 1 := ⟨fuel - 1, by simp at hfuel; omega⟩
    obtain ⟨node, hRL, hr, hid, hrem, hk⟩ := sjf_Queue_Remove_holds hh
    obtain ⟨s2, e2, h2, htr⟩ := ih ⟨s.heap.free a, node.next,
      (s.trace ++ [Event.kill node.my_id .SIGCONT, Event.wait]) ++
        [Event.printf "Scheduler: A child has completed\n"]⟩ k hk (by simpa using hfuel)
    refine ⟨s2, ?_, h2, ?_⟩
    · rw [schedule]
      simp only [hRL, hr]
      rw [← hRL, hrem, Outcome.ok_bind]
      exact e2
    · rw [htr]
      simp [resumes_append, resumes, hid]

/-- C2 as stated fails on a tie: with the ready list holding one job of burst
length 5 (pid 100), `Queue_Insert` of a second job of burst length 5 (pid 103) puts
the new job in front of the old one, not behind it as the stable insert would. -/
theorem insert_tie_counterexample :
    Models ⟨[some ⟨100, 5, none⟩]⟩ (some 0) [(5, 100)] ∧
    [((5 : Int), (100 : Int))].Sorted (fun x y => x.1 ≤ y.1) ∧
    Queue_Insert ⟨[some ⟨100, 5, none⟩]⟩ (some 0) 5 103 =
      .ok (⟨[some ⟨100, 5, none⟩, some ⟨103, 5, some 0⟩]⟩, some 1) ∧
    Models ⟨[some ⟨100, 5, none⟩, some ⟨103, 5, some 0⟩]⟩ (some 1) [(5, 103), (5, 100)] ∧
    before_first_gt Prod.fst 5 ((5 : Int), (103 : Int)) [(5, 100)] = [(5, 100), (5, 103)] ∧
    ¬ Models ⟨[some ⟨100, 5, none⟩, some ⟨103, 5, some 0⟩]⟩ (some 1) [(5, 100), (5, 103)] := by
  have hm : Models ⟨[some ⟨100, 5, none⟩, some ⟨103, 5, some 0⟩]⟩ (some 1)
      [(5, 103), (5, 100)] := ⟨[(1, (5, 103)), (0, (5, 100))], by decide, rfl⟩
  refine ⟨⟨[(0, (5, 100))], by decide, rfl⟩, by simp, by decide, hm, by decide, ?_⟩
  intro hc
  have := Models_unique hm hc
  revert this
  decide

/-- C2, amended: on a well-formed ready list sorted ascending by burst length,
`Queue_Insert(queue, b, job)` returns normally and places the new job immediately
before the first entry whose burst length is at least `b` (at the tail if there is
none): every entry in front of it has a burst length below `b`, every entry behind it
has a burst length of at least `b` (so entries of equal burst length come after the
new job), and the list stays sorted ascending. -/
theorem insert_before_first_ge (h : Heap list_node) (RL : queue) (l : List (Int × Int))
    (b job : Int) (hm : Models h RL l) (hs : l.Sorted (fun x y => x.1 ≤ y.1)) :
    ∃ k RL1 front back, Queue_Insert h RL b job = .ok (k, RL1) ∧ l = front ++ back ∧
      Models k RL1 (front ++ (b, job) :: back) ∧
      (∀ e ∈ front, e.1 < b) ∧ (∀ e ∈ back, b ≤ e.1) ∧
      (front ++ (b, job) :: back).Sorted (fun x y => x.1 ≤ y.1) := by
  obtain ⟨k, RL1, e, hk⟩ := sjf_Queue_Insert_models hm b job
  exact ⟨k, RL1, l.takeWhile (fun c => decide (c.1 < b)), l.dropWhile (fun c => decide (c.1 < b)),
    e, (List.takeWhile_append_dropWhile _ l).symm, hk,
    prefix_lt_before_first_ge Prod.fst b l, rest_ge_before_first_ge Prod.fst b l hs,
    sorted_before_first_ge Prod.fst (b, job) l hs⟩

/-- The amended C2 at a ready list with bursts 2, 5, 8 and a new job of burst 5. -/
theorem insert_before_first_ge_witness :
    Models ⟨[some ⟨100, 2, some 1⟩, some ⟨101, 5, some 2⟩, some ⟨102, 8, none⟩]⟩ (some 0)
      [(2, 100), (5, 101), (8, 102)] ∧
    [((2 : Int), (100 : Int)), (5, 101), (8, 102)].Sorted (fun x y => x.1 ≤ y.1) ∧
    ∃ k RL1 front back,
      Queue_Insert ⟨[some ⟨100, 2, some 1⟩, some ⟨101, 5, some 2⟩, some ⟨102, 8, none⟩]⟩
        (some 0) 5 103 = .ok (k, RL1) ∧
      [((2 : Int), (100 : Int)), (5, 101), (8, 102)] = front ++ back ∧
      Models k RL1 (front ++ (5, 103) :: back) ∧
      (∀ e ∈ front, e.1 < 5) ∧ (∀ e ∈ back, 5 ≤ e.1) ∧
      (front ++ (5, 103) :: back).Sorted (fun x y => x.1 ≤ y.1) :=
  ⟨⟨[(0, (2, 100)), (1, (5, 101)), (2, (8, 102))], by decide, rfl⟩, by decide,
    insert_before_first_ge _ _ _ 5 103
      ⟨[(0, (2, 100)), (1, (5, 101)), (2, (8, 102))], by decide, rfl⟩ (by decide)⟩

/-- C3 (SJF execution order): for every sequence of arrivals (burst length, pid), the
creation loop builds the ready list and the scheduling loop, given at least one step
per arrival, ends with an empty list after resuming the jobs in an order that is a
rearrangement of the arrivals (every job exactly once) with nondecreasing burst
lengths. When the burst lengths are pairwise distinct, every rearrangement of the
arrivals is resumed in that same order; arrivals with bursts 5, 2, 8 are resumed in
the order 2, 5, 8. -/
theorem execution_order (h0 : Heap list_node) (q0 : queue) (arrivals : List (Int × Int)) :
    ∃ (s1 : State) (order : List (Int × Int)),
      create ⟨h0, Queue_Init q0, []⟩ arrivals = .ok s1 ∧
      order.Perm arrivals ∧ order.Sorted (fun x y => x.1 ≤ y.1) ∧
      (∀ fuel, arrivals.length ≤ fuel → ∃ s2, schedule fuel s1 = .ok s2 ∧ s2.RL = none ∧
        resumes s2.trace = order.map Prod.snd) ∧
      (∀ arrivals2 : List (Int × Int), arrivals2.Perm arrivals →
        (arrivals.map Prod.fst).Nodup →
        ∃ t1 t2, create ⟨h0, Queue_Init q0, []⟩ arrivals2 = .ok t1 ∧
          schedule arrivals2.length t1 = .ok t2 ∧ t2.RL = none ∧
          resumes t2.trace = order.map Prod.snd) ∧
      (∀ a b c, arrivals = [(5, a), (2, b), (8, c)] → order.map Prod.snd = [b, a, c]) := by
  have run : ∀ arr : List (Int × Int), ∃ s1, create ⟨h0, Queue_Init q0, []⟩ arr = .ok s1 ∧
      ∀ fuel, arr.length ≤ fuel → ∃ s2, schedule fuel s1 = .ok s2 ∧ s2.RL = none ∧
        resumes s2.trace = (arrive arr).map Prod.snd := by
    intro arr
    obtain ⟨s1, e1, htr, cs, hh, hcs⟩ := create_models arr ⟨h0, Queue_Init q0, []⟩
      (l := []) ⟨[], ⟨rfl, by simp⟩, rfl⟩
    refine ⟨s1, e1, ?_⟩
    intro fuel hfuel
    have hlen : cs.length = arr.length := by
      have := congrArg List.length hcs
      rw [List.length_map] at this
      rw [this]
      exact (arrive_perm arr).length_eq
    obtain ⟨s2, e2, h2, hres⟩ := schedule_holds cs s1 fuel hh (by omega)
    refine ⟨s2, e2, h2, ?_⟩
    rw [hres, htr]
    have : arrive arr = cs.map Prod.snd := hcs.symm
    simp [resumes, this]
  obtain ⟨s1, e1, hrun⟩ := run arrivals
  refine ⟨s1, arrive arrivals, e1, arrive_perm arrivals, arrive_sorted arrivals, hrun, ?_, ?_⟩
  · intro arrivals2 hp hnd
    obtain ⟨t1, f1, hrun2⟩ := run arrivals2
    obtain ⟨t2, f2, g2, hres⟩ := hrun2 arrivals2.length (le_refl _)
    refine ⟨t1, t2, f1, f2, g2, ?_⟩
    rw [hres, arrive_congr hp.symm hnd]
  · intro a b c harr
    subst harr
    simp [arrive, before_first_ge]

/-- C3 at the scenario of the specification: the jobs with pids 100, 101, 102 and
bursts 5, 2, 8 arrive in that order and are resumed in the order 101, 100, 102. -/
theorem execution_order_witness :
    ∃ s1 s2, create ⟨⟨[]⟩, Queue_Init none, []⟩ [(5, 100), (2, 101), (8, 102)] = .ok s1 ∧
      schedule 3 s1 = .ok s2 ∧ s2.RL = none ∧ resumes s2.trace = [101, 100, 102] := by
  obtain ⟨s1, order, e1, _, _, hrun, _, hsc⟩ :=
    execution_order ⟨[]⟩ none [(5, 100), (2, 101), (8, 102)]
  obtain ⟨s2, e2, h2, hres⟩ := hrun 3 (by decide)
  exact ⟨s1, s2, e1, e2, h2, by rw [hres, hsc 100 101 102 rfl]⟩

end SJF

/-! ## RR: the dispatch step (C4) and the run-time model (C7) -/

namespace RR

theorem iteration_preempt {s : State} {a : Nat} {j : Int} {cs : List (Nat × Int)}
    (hh : FIFO.Holds s.heap s.RL ((a, j) :: cs)) (hd : s.done = 0) (qt : Int) :
    ∃ s1, iteration qt false s = .ok s1 ∧
      FIFO.Holds s1.heap s1.RL (cs ++ [(s.heap.size, j)]) ∧ s1.done = 0 ∧ s1.child = j ∧
      s1.trace = s.trace ++ events qt false j := by
  obtain ⟨e1, q1, e2, h1⟩ := FIFO.Queue_Remove_holds hh
  obtain ⟨k, q2, e3, h2, _, _⟩ := FIFO.Queue_Insert_holds h1 j
  rw [Heap.size_free] at h2
  refine ⟨⟨k, q2, s.done, j, s.trace ++ events qt false j⟩, ?_, h2, hd, rfl, rfl⟩
  simp only [iteration, e1, Outcome.ok_bind, Bool.false_eq_true, if_false, hd, if_true, e2, e3,
    Outcome.pure_eq, events, List.append_assoc, List.cons_append, List.nil_append]

theorem iteration_complete {s : State} {a : Nat} {j : Int} {cs : List (Nat × Int)}
    (hh : FIFO.Holds s.heap s.RL ((a, j) :: cs)) {f : Bool} (hf : f = true ∨ s.done ≠ 0)
    (qt : Int) :
    ∃ s1, iteration qt f s = .ok s1 ∧ FIFO.Holds s1.heap s1.RL cs ∧ s1.done = 0 ∧
      s1.child = s.child ∧ s1.trace = s.trace ++ events qt true j := by
  obtain ⟨e1, q1, e2, h1⟩ := FIFO.Queue_Remove_holds hh
  refine ⟨⟨s.heap.free a, q1, 0, s.child, s.trace ++ events qt true j⟩, ?_, h1, rfl, rfl, rfl⟩
  cases f with
  | true =>
    simp only [iteration, e1, Outcome.ok_bind, if_true, term_child, one_ne_zero, if_false, e2,
      Outcome.pure_eq, events, List.append_assoc, List.cons_append, List.nil_append]
  | false =>
    have hd : s.done ≠ 0 := by simpa using hf
    simp only [iteration, e1, Outcome.ok_bind, Bool.false_eq_true, if_false, hd, e2,
      Outcome.pure_eq, events, if_true, List.append_assoc, List.cons_append, List.nil_append]

end RR

theorem preemptions_append (t u : List Event) :
    preemptions (t ++ u) = preemptions t ++ preemptions u := by
  induction t with
  | nil => rfl
  | cons ev t ih =>
    cases ev with
    | kill q sg => cases sg <;> simp [preemptions, ih]
    | usleep x => simpa [preemptions] using ih
    | wait => simpa [preemptions] using ih
    | printf m => simpa [preemptions] using ih
    | fork a c => simpa [preemptions] using ih
    | sleep x => simpa [preemptions] using ih

namespace FIFO

theorem Holds_nil_first {h : Heap list_node} {q : queue} (hh : Holds h q []) :
    q.first = none := hh.1

theorem Holds_cons_first {h : Heap list_node} {q : queue} {c : Nat × Int}
    {cs : List (Nat × Int)} (hh : Holds h q (c :: cs)) : q.first = some c.1 := by
  obtain ⟨_, hp, _⟩ := Seg_cons.mp hh.1
  exact hp

end FIFO

namespace RR

theorem iteration_models {s : State} {j : Int} {js : List Int}
    (hm : FIFO.Models s.heap s.RL (j :: js)) (qt : Int) (f : Bool) :
    ∃ s1, iteration qt f s = .ok s1 ∧
      FIFO.Models s1.heap s1.RL (step (decide (s.done ≠ 0) || f) (j :: js)) ∧ s1.done = 0 ∧
      s1.trace = s.trace ++ events qt (decide (s.done ≠ 0) || f) j := by
  obtain ⟨cs, hh, hl⟩ := hm
  cases cs with
  | nil => cases hl
  | cons c cs =>
    obtain ⟨a, x⟩ := c
    simp only [List.map_cons, List.cons.injEq] at hl
    obtain ⟨rfl, rfl⟩ := hl
    by_cases hd : s.done = 0
    · cases f with
      | false =>
        obtain ⟨s1, e1, h1, d1, _, t1⟩ := iteration_preempt hh hd qt
        exact ⟨s1, e1, ⟨_, h1, by simp [step, hd]⟩, d1, by simpa [hd] using t1⟩
      | true =>
        obtain ⟨s1, e1, h1, d1, _, t1⟩ := iteration_complete hh (Or.inl rfl) qt
        exact ⟨s1, e1, ⟨_, h1, by simp [step]⟩, d1, by simpa using t1⟩
    · obtain ⟨s1, e1, h1, d1, _, t1⟩ := iteration_complete hh (f := f) (Or.inr hd) qt
      exact ⟨s1, e1, ⟨_, h1, by simp [step, hd]⟩, d1, by simpa [hd] using t1⟩

theorem run_models (qt : Int) (ins : List (Bool × Bool)) : ∀ (s : State) (l : List Int),
    FIFO.Models s.heap s.RL l →
    ∃ s1, run qt ins s = .ok s1 ∧
      FIFO.Models s1.heap s1.RL (queue_after (decide (s.done ≠ 0)) ins l) ∧
      s1.trace = s.trace ++ trace_of qt (decide (s.done ≠ 0)) ins l := by
  induction ins with
  | nil =>
    intro s l hm
    exact ⟨s, rfl, hm, by simp [trace_of]⟩
  | cons i fs ih =>
    intro s l hm
    obtain ⟨f, late⟩ := i
    cases l with
    | nil =>
      obtain ⟨cs, hh, hcs⟩ := hm
      have hcs0 : cs = [] := by simpa using hcs
      subst hcs0
      refine ⟨s, ?_, ⟨[], hh, rfl⟩, by simp [trace_of]⟩
      simp only [run, FIFO.Holds_nil_first hh]
    | cons j js =>
      obtain ⟨cs, hh, hcs⟩ := hm
      obtain ⟨a, hfirst⟩ : ∃ a, s.RL.first = some a := by
        cases cs with
        | nil => cases hcs
        | cons c cs => exact ⟨c.1, FIFO.Holds_cons_first hh⟩
      obtain ⟨s1, e1, h1, d1, t1⟩ := iteration_models ⟨cs, hh, hcs⟩ qt f
      have hlate : decide ((if late = true then term_child s1 else s1).done ≠ 0) = late := by
        cases late <;> simp [term_child, d1]
      obtain ⟨s2, e2, h2, t2⟩ := ih (if late = true then term_child s1 else s1) _
        (by cases late <;> simpa [term_child] using h1)
      rw [hlate] at h2 t2
      refine ⟨s2, ?_, by simpa [queue_after] using h2, ?_⟩
      · simp only [run, hfirst, e1, Outcome.ok_bind, e2]
      · rw [t2]
        have : (if late = true then term_child s1 else s1).trace = s1.trace := by
          cases late <;> simp [term_child]
        rw [this, t1]
        simp [trace_of]

/-- C4 (Round-Robin dispatch step): on a well-formed non-empty ready queue holding
`j :: js`, an iteration in which the flag `done` is clear after the quantum returns
normally with the queue holding `js ++ [j]` (same length); an iteration in which the
flag is set after the quantum returns normally with the queue holding `js` and the
flag cleared. -/
theorem dispatch_step (qt : Int) (s : State) (j : Int) (js : List Int)
    (hm : FIFO.Models s.heap s.RL (j :: js)) :
    (s.done = 0 → ∃ s1, iteration qt false s = .ok s1 ∧
      FIFO.Models s1.heap s1.RL (js ++ [j]) ∧ (js ++ [j]).length = (j :: js).length ∧
      s1.done = 0) ∧
    (∀ f : Bool, f = true ∨ s.done ≠ 0 → ∃ s1, iteration qt f s = .ok s1 ∧
      FIFO.Models s1.heap s1.RL js ∧ s1.done = 0) := by
  obtain ⟨cs, hh, hl⟩ := hm
  cases cs with
  | nil => cases hl
  | cons c cs =>
    obtain ⟨a, x⟩ := c
    simp only [List.map_cons, List.cons.injEq] at hl
    obtain ⟨rfl, rfl⟩ := hl
    constructor
    · intro hd
      obtain ⟨s1, e1, h1, d1, _, _⟩ := iteration_preempt hh hd qt
      exact ⟨s1, e1, ⟨_, h1, by simp⟩, by simp, d1⟩
    · intro f hf
      obtain ⟨s1, e1, h1, d1, _, _⟩ := iteration_complete hh hf qt
      exact ⟨s1, e1, ⟨_, h1, rfl⟩, d1⟩

/-- C4 at a ready queue holding the pids 10 and 11. -/
theorem dispatch_step_witness :
    FIFO.Models ⟨[some ⟨10, some 1, none⟩, some ⟨11, none, some 0⟩]⟩ ⟨some 0, some 1⟩ [10, 11] ∧
    ((0 : Int) = 0 → ∃ s1, iteration 50000 false
        ⟨⟨[some ⟨10, some 1, none⟩, some ⟨11, none, some 0⟩]⟩, ⟨some 0, some 1⟩, 0, 0, []⟩ = .ok s1 ∧
      FIFO.Models s1.heap s1.RL ([11] ++ [10]) ∧ ([11] ++ [10]).length = [10, 11].length ∧
      s1.done = 0) ∧
    (∀ f : Bool, f = true ∨ (0 : Int) ≠ 0 → ∃ s1, iteration 50000 f
        ⟨⟨[some ⟨10, some 1, none⟩, some ⟨11, none, some 0⟩]⟩, ⟨some 0, some 1⟩, 0, 0, []⟩ = .ok s1 ∧
      FIFO.Models s1.heap s1.RL [11] ∧ s1.done = 0) :=
  ⟨⟨[(0, 10), (1, 11)], by decide, rfl⟩,
    dispatch_step 50000
      ⟨⟨[some ⟨10, some 1, none⟩, some ⟨11, none, some 0⟩]⟩, ⟨some 0, some 1⟩, 0, 0, []⟩ 10 [11]
      ⟨[(0, 10), (1, 11)], by decide, rfl⟩⟩

theorem completions_events (qt : Int) (f : Bool) (j : Int) (cur : Option Int) (t : List Event) :
    completions_from cur (events qt f j ++ t) = (if f then [j] else []) ++ completions t := by
  cases f <;> simp [events, completions_from, completions, completed_line]

theorem resumes_events (qt : Int) (f : Bool) (j : Int) : resumes (events qt f j) = [j] := by
  cases f <;> simp [events, resumes]

theorem preemptions_events (qt : Int) (f : Bool) (j : Int) :
    preemptions (events qt f j) = if f then [] else [j] := by
  cases f <;> simp [events, preemptions]

theorem need_one {Q r : Nat} (hr : 0 < r) (hle : r ≤ Q) : need Q r = 1 := by
  unfold need
  have h1 : Q ≤ r + Q - 1 := by omega
  have h2 : r + Q - 1 < 2 * Q := by omega
  have h3 : 1 ≤ (r + Q - 1) / Q := (Nat.le_div_iff_mul_le (by omega)).mpr (by omega)
  have h4 : (r + Q - 1) / Q < 2 := (Nat.div_lt_iff_lt_mul (by omega)).mpr (by omega)
  omega

theorem need_step {Q r : Nat} (hQ : 0 < Q) (hlt : Q < r) : need Q (r - Q) + 1 = need Q r := by
  unfold need
  have : r + Q - 1 = (r - Q + Q - 1) + Q := by omega
  rw [this, Nat.add_div_right _ hQ]

theorem need_pos {Q r : Nat} (hQ : 0 < Q) (hr : 0 < r) : 1 ≤ need Q r := by
  unfold need
  exact (Nat.le_div_iff_mul_le hQ).mpr (by omega)

theorem map_update_of_not_mem {γ : Type} (g : Nat → γ) (rem : Int → Nat) (j : Int) (v : Nat)
    (l : List Int) (hj : j ∉ l) :
    l.map (fun p => g (Function.update rem j v p)) = l.map (fun p => g (rem p)) := by
  apply List.map_congr_left
  intro p hp
  have : p ≠ j := fun e => hj (e ▸ hp)
  simp [Function.update, this]

theorem step_models {s : State} {j : Int} {js : List Int}
    (hm : FIFO.Models s.heap s.RL (j :: js)) (qt : Int) :
    (∃ a, s.RL.first = some a ∧ head_id s.heap (some a) = .ok j) ∧
    (s.done = 0 → ∃ s1, iteration qt false s = .ok s1 ∧ FIFO.Models s1.heap s1.RL (js ++ [j]) ∧
      s1.done = 0 ∧ s1.trace = s.trace ++ events qt false j) ∧
    (∀ f : Bool, f = true ∨ s.done ≠ 0 → ∃ s1, iteration qt f s = .ok s1 ∧
      FIFO.Models s1.heap s1.RL js ∧ s1.done = 0 ∧ s1.trace = s.trace ++ events qt true j) := by
  obtain ⟨cs, hh, hl⟩ := hm
  cases cs with
  | nil => cases hl
  | cons c cs =>
    obtain ⟨a, x⟩ := c
    simp only [List.map_cons, List.cons.injEq] at hl
    obtain ⟨rfl, rfl⟩ := hl
    have hfirst := FIFO.Holds_cons_first hh
    obtain ⟨hid, _⟩ := FIFO.Queue_Remove_holds hh
    rw [hfirst] at hid
    refine ⟨⟨a, hfirst, hid⟩, ?_, ?_⟩
    · intro hd
      obtain ⟨s1, e1, h1, d1, _, t1⟩ := iteration_preempt hh hd qt
      exact ⟨s1, e1, ⟨_, h1, by simp⟩, d1, t1⟩
    · intro f hf
      obtain ⟨s1, e1, h1, d1, _, t1⟩ := iteration_complete hh hf qt
      exact ⟨s1, e1, ⟨_, h1, rfl⟩, d1, t1⟩

theorem timed_spec (Q : Nat) (hQ : 0 < Q) (n : Nat) : ∀ (rem : Int → Nat) (s : State)
    (l : List Int), FIFO.Models s.heap s.RL l → s.done = 0 → l.Nodup →
    (∀ p ∈ l, 0 < rem p) → (l.map (fun p => need Q (rem p))).sum = n →
    ∃ s1 t, timed Q n rem s = .ok s1 ∧ s1.RL.first = none ∧ s1.trace = s.trace ++ t ∧
      (resumes t).length = n ∧ resumes t = timed_order Q n rem l ∧
      (∀ p, (preemptions t).count p = if p ∈ l then need Q (rem p) - 1 else 0) ∧
      (∀ p, (completions t).count p = if p ∈ l then 1 else 0) := by
  induction n with
  | zero =>
    intro rem s l hm hd hnd hpos hsum
    have hl : l = [] := by
      cases l with
      | nil => rfl
      | cons p ps =>
        have := need_pos hQ (hpos p (List.mem_cons_self _ _))
        simp only [List.map_cons, List.sum_cons] at hsum
        omega
    subst hl
    obtain ⟨cs, hh, hcs⟩ := hm
    have hcs0 : cs = [] := by simpa using hcs
    subst hcs0
    refine ⟨s, [], ?_, FIFO.Holds_nil_first hh, by simp, rfl, ?_, ?_, ?_⟩
    · simp only [timed, FIFO.Holds_nil_first hh]
    · simp [resumes, timed_order]
    · intro p; simp [preemptions]
    · intro p; simp [completions, completions_from]
  | succ n ih =>
    intro rem s l hm hd hnd hpos hsum
    cases l with
    | nil => simp at hsum
    | cons j js =>
      obtain ⟨⟨a, hfirst, hid⟩, hpre, hcomp⟩ := step_models hm Q
      simp only [List.map_cons, List.sum_cons, List.nodup_cons] at hsum hnd
      have hjpos : 0 < rem j := hpos j (by simp)
      by_cases hle : rem j ≤ Q
      · -- the job completes within the quantum
        have hdec : decide (rem j ≤ Q) = true := by simpa using hle
        obtain ⟨s1, e1, h1, d1, t1⟩ := hcomp true (Or.inl rfl)
        have hsum1 : (js.map
            (fun p => need Q (Function.update rem j (rem j - Q) p))).sum = n := by
          rw [map_update_of_not_mem (need Q) rem j _ _ hnd.1]
          have := need_one hjpos hle
          omega
        obtain ⟨s2, t, e2, f2, t2, r2, o2, p2, k2⟩ :=
          ih (Function.update rem j (rem j - Q)) s1 js h1 d1 hnd.2
            (by
              intro p hp
              have : p ≠ j := fun e => hnd.1 (e ▸ hp)
              simpa [Function.update, this] using hpos p (by simp [hp])) hsum1
        refine ⟨s2, events Q true j ++ t, ?_, f2, ?_, ?_, ?_, ?_, ?_⟩
        · simp only [timed, hfirst, hid, Outcome.ok_bind, hdec, e1, e2]
        · rw [t2, t1, List.append_assoc]
        · rw [resumes_append, resumes_events, List.length_append, r2]
          simp; omega
        · rw [resumes_append, resumes_events, o2]
          simp [timed_order, step, hle]
        · intro p
          rw [preemptions_append, preemptions_events, List.count_append, p2]
          by_cases hp : p = j
          · subst hp
            simp [hnd.1, need_one hjpos hle]
          · simp [hp, Function.update]
        · intro p
          rw [completions, completions_events, List.count_append, k2]
          by_cases hp : p = j
          · subst hp
            simp [hnd.1]
          · simp [hp, Ne.symm hp]
      · -- the quantum runs out first
        have hlt : Q < rem j := by omega
        obtain ⟨s1, e1, h1, d1, t1⟩ := hpre hd
        have hdec : decide (rem j ≤ Q) = false := by simpa using hle
        have hnd1 : (js ++ [j]).Nodup := by
          rw [List.nodup_append]
          refine ⟨hnd.2, by simp, ?_⟩
          intro x hx hx2
          have : x = j := by simpa using hx2
          exact hnd.1 (this ▸ hx)
        have hsum1 : ((js ++ [j]).map
            (fun p => need Q (Function.update rem j (rem j - Q) p))).sum = n := by
          rw [List.map_append, List.sum_append,
            map_update_of_not_mem (need Q) rem j _ _ hnd.1]
          have := need_step hQ hlt
          simp only [List.map_cons, List.map_nil, List.sum_cons, List.sum_nil,
            Function.update_same]
          omega
        obtain ⟨s2, t, e2, f2, t2, r2, o2, p2, k2⟩ :=
          ih (Function.update rem j (rem j - Q)) s1 (js ++ [j]) h1 d1 hnd1
            (by
              intro p hp
              by_cases hpj : p = j
              · subst hpj; simp; omega
              · have : p ∈ js := by simpa [hpj] using hp
                simpa [Function.update, hpj] using hpos p (by simp [this])) hsum1
        refine ⟨s2, events Q false j ++ t, ?_, f2, ?_, ?_, ?_, ?_, ?_⟩
        · simp only [timed, hfirst, hid, Outcome.ok_bind, hdec, e1, e2]
        · rw [t2, t1, List.append_assoc]
        · rw [resumes_append, resumes_events, List.length_append, r2]
          simp; omega
        · rw [resumes_append, resumes_events, o2]
          simp [timed_order, step, hle]
        · intro p
          rw [preemptions_append, preemptions_events, List.count_append, p2]
          by_cases hp : p = j
          · subst hp
            have := need_step hQ hlt
            have := need_pos hQ (show 0 < rem p - Q by omega)
            simp; omega
          · simp [hp, Function.update, Ne.symm hp]
        · intro p
          rw [completions, completions_events, List.count_append, k2]
          by_cases hp : p = j
          · subst hp
            simp
          · simp [hp]

/-- For `Q > 0` and `r > 0`, `need Q r` is the ceiling of `r / Q`: the least `k` with
`r ≤ k * Q`. -/
theorem need_spec {Q r : Nat} (hQ : 0 < Q) (hr : 0 < r) :
    (need Q r - 1) * Q < r ∧ r ≤ need Q r * Q := by
  have h1 : need Q r * Q ≤ r + Q - 1 := Nat.div_mul_le_self _ _
  have h2 : r + Q - 1 < (need Q r + 1) * Q := by
    have := Nat.lt_succ_iff.mpr (le_refl ((r + Q - 1) / Q))
    exact (Nat.div_lt_iff_lt_mul hQ).mp this
  have h3 := need_pos hQ hr
  rw [Nat.add_mul, Nat.one_mul] at h2
  rw [Nat.sub_mul, Nat.one_mul]
  generalize need Q r * Q = x at h1 h2 ⊢
  omega

theorem sum_need (Q : Nat) (hQ : 0 < Q) (rem : Int → Nat) (l : List Int)
    (hpos : ∀ p ∈ l, 0 < rem p) :
    (l.map (fun p => need Q (rem p))).sum = (l.map (fun p => need Q (rem p) - 1)).sum + l.length := by
  induction l with
  | nil => rfl
  | cons p l ih =>
    have h1 := need_pos hQ (hpos p (List.mem_cons_self _ _))
    have h2 := ih (fun q hq => hpos q (List.mem_cons_of_mem _ hq))
    simp only [List.map_cons, List.sum_cons, List.length_cons]
    omega

/-- C7 (Round-Robin preemption count): under the run-time model (job `p` needs
`rem p > 0`, a dispatch takes `Q > 0` of it, the completion flag is seen set exactly
when the job needed no more than `Q`), on a well-formed ready queue of distinct pids
with the flag clear, the loop ends with the queue empty; every job `p` is sent the
pause signal exactly `need Q (rem p) - 1` times (the ceiling of `rem p / Q`, minus
one) and is seen complete exactly once; and the number of iterations (one resume
each) is the sum of these preemption counts plus the number of jobs. -/
theorem preemption_count (Q : Nat) (rem : Int → Nat) (s : State) (l : List Int)
    (hQ : 0 < Q) (hm : FIFO.Models s.heap s.RL l) (hd : s.done = 0) (hnd : l.Nodup)
    (hpos : ∀ p ∈ l, 0 < rem p) :
    ∃ s1 t, timed Q ((l.map (fun p => need Q (rem p) - 1)).sum + l.length) rem s = .ok s1 ∧
      s1.RL.first = none ∧ s1.trace = s.trace ++ t ∧
      (∀ p ∈ l, (preemptions t).count p = need Q (rem p) - 1 ∧ (completions t).count p = 1) ∧
      (resumes t).length = (l.map (fun p => need Q (rem p) - 1)).sum + l.length ∧
      resumes t = timed_order Q ((l.map (fun p => need Q (rem p) - 1)).sum + l.length) rem l := by
  obtain ⟨s1, t, e, f, ht, r, o, p, k⟩ := timed_spec Q hQ _ rem s l hm hd hnd hpos
    (sum_need Q hQ rem l hpos)
  refine ⟨s1, t, e, f, ht, ?_, r, o⟩
  intro q hq
  have hp := p q
  have hk := k q
  rw [if_pos hq] at hp hk
  exact ⟨hp, hk⟩

/-- C7 at the scenario of the specification: quantum 50, job 10 needs 120 and job 11
needs 30. -/
theorem preemption_count_witness :
    0 < 50 ∧
    FIFO.Models ⟨[some ⟨10, some 1, none⟩, some ⟨11, none, some 0⟩]⟩ ⟨some 0, some 1⟩ [10, 11] ∧
    (0 : Int) = 0 ∧ [(10 : Int), 11].Nodup ∧
    (∀ p ∈ [(10 : Int), 11], 0 < (fun p : Int => if p = 10 then 120 else 30) p) ∧
    ∃ s1 t, timed 50 (([(10 : Int), 11].map (fun p => need 50
        ((fun p : Int => if p = 10 then 120 else 30) p) - 1)).sum + [(10 : Int), 11].length)
        (fun p : Int => if p = 10 then 120 else 30)
        ⟨⟨[some ⟨10, some 1, none⟩, some ⟨11, none, some 0⟩]⟩, ⟨some 0, some 1⟩, 0, 0, []⟩ = .ok s1 ∧
      s1.RL.first = none ∧ s1.trace = [] ++ t ∧
      (∀ p ∈ [(10 : Int), 11], (preemptions t).count p =
        need 50 ((fun p : Int => if p = 10 then 120 else 30) p) - 1 ∧
        (completions t).count p = 1) ∧
      (resumes t).length = ([(10 : Int), 11].map (fun p => need 50
        ((fun p : Int => if p = 10 then 120 else 30) p) - 1)).sum + [(10 : Int), 11].length ∧
      resumes t = timed_order 50 (([(10 : Int), 11].map (fun p => need 50
        ((fun p : Int => if p = 10 then 120 else 30) p) - 1)).sum + [(10 : Int), 11].length)
        (fun p : Int => if p = 10 then 120 else 30) [10, 11] :=
  ⟨by decide, ⟨[(0, 10), (1, 11)], by decide, rfl⟩, rfl, by decide, by decide,
    preemption_count 50 (fun p : Int => if p = 10 then 120 else 30)
      ⟨⟨[some ⟨10, some 1, none⟩, some ⟨11, none, some 0⟩]⟩, ⟨some 0, some 1⟩, 0, 0, []⟩ [10, 11]
      (by decide) ⟨[(0, 10), (1, 11)], by decide, rfl⟩ rfl (by decide) (by decide)⟩

/-- The scenario of the specification: with quantum 50, job A (pid 10) needing 120 and
job B (pid 11) needing 30, the dispatch order is A, B, A, A, in 4 iterations. -/
theorem scenario_order :
    timed_order 50 (([(10 : Int), 11].map (fun p => need 50
        ((fun p : Int => if p = 10 then 120 else 30) p) - 1)).sum + [(10 : Int), 11].length)
      (fun p : Int => if p = 10 then 120 else 30) [10, 11] = [10, 11, 10, 10] := by
  decide

end RR

@[simp] theorem Outcome.fault_bind {α β : Type} (f : α → Outcome β) :
    ((Outcome.fault : Outcome α) >>= f) = Outcome.fault := rfl

namespace FIFO

theorem Holds_frame {h k : Heap list_node} {q : queue} {cs : List (Nat × Int)}
    (hh : Holds h q cs) (same : ∀ c ∈ cs, k.read c.1 = h.read c.1) : Holds k q cs :=
  ⟨Seg_frame same hh.1, hh.2.1, hh.2.2⟩

theorem Holds_lt {h : Heap list_node} {q : queue} {cs : List (Nat × Int)}
    (hh : Holds h q cs) : ∀ a ∈ cs.map Prod.fst, a < h.size := by
  intro a ha
  obtain ⟨d, hd, e⟩ := List.mem_map.mp ha
  exact e ▸ Seg_lt hh.1 d hd

theorem Holds_last_mem {h : Heap list_node} {q : queue} {cs : List (Nat × Int)}
    (hh : Holds h q cs) {b : Nat} (hb : q.last = some b) : b ∈ cs.map Prod.fst := by
  have := hh.2.2
  rw [hb] at this
  exact List.mem_of_getLast?_eq_some this.symm

end FIFO

/-! ## MFQ: iterations on two tiers (C5, C6, C9) -/

namespace MFQ

theorem Queue_Insert_ends (h : Heap list_node) (q : queue) (x : Int) :
    Queue_Insert h q x =
      (FIFO.Queue_Insert h (ends q) x >>= fun r => pure (r.1, ⟨r.2.first, r.2.last, q.next⟩)) := by
  cases hf : q.first with
  | none => simp [Queue_Insert, FIFO.Queue_Insert, ends, hf, Heap.malloc]
  | some a =>
    cases hl : q.last with
    | none => simp [Queue_Insert, FIFO.Queue_Insert, ends, hf, hl, Heap.malloc]
    | some l =>
      simp only [Queue_Insert, FIFO.Queue_Insert, ends, hf, hl, Heap.malloc]
      split <;> simp_all

theorem Queue_Remove_ends (h : Heap list_node) (q : queue) :
    Queue_Remove h (some q) =
      (FIFO.Queue_Remove h (some (ends q)) >>= fun r =>
        pure (r.1, ⟨r.2.first, r.2.last, q.next⟩)) := by
  cases hf : q.first with
  | none => simp [Queue_Remove, FIFO.Queue_Remove, ends, hf]
  | some a =>
    cases hr : h.read a with
    | none => simp [Queue_Remove, FIFO.Queue_Remove, ends, hf, hr]
    | some node =>
      simp only [Queue_Remove, FIFO.Queue_Remove, ends, hf, hr]
      split <;> simp_all

theorem mfq_insert {h : Heap list_node} {q : queue} {cs : List (Nat × Int)}
    (hh : FIFO.Holds h (ends q) cs) (x : Int) :
    ∃ k q1, Queue_Insert h q x = .ok (k, q1) ∧ FIFO.Holds k (ends q1) (cs ++ [(h.size, x)]) ∧
      q1.next = q.next ∧ k.size = h.size + 1 ∧
      ∀ b, b ≠ h.size → q.last ≠ some b → k.read b = h.read b := by
  obtain ⟨k, q1, e, hk, hs, hf⟩ := FIFO.Queue_Insert_holds hh x
  refine ⟨k, ⟨q1.first, q1.last, q.next⟩, ?_, hk, rfl, hs, hf⟩
  rw [Queue_Insert_ends, e]; rfl

theorem mfq_remove {h : Heap list_node} {q : queue} {a : Nat} {x : Int}
    {cs : List (Nat × Int)} (hh : FIFO.Holds h (ends q) ((a, x) :: cs)) :
    q.first = some a ∧ head_id h q.first = .ok x ∧
    ∃ q1, Queue_Remove h (some q) = .ok (h.free a, q1) ∧ FIFO.Holds (h.free a) (ends q1) cs ∧
      q1.next = q.next := by
  obtain ⟨hid, q1, e, hk⟩ := FIFO.Queue_Remove_holds hh
  refine ⟨FIFO.Holds_cons_first hh, hid, ⟨q1.first, q1.last, q.next⟩, ?_, hk, rfl⟩
  rw [Queue_Remove_ends, e]; rfl

theorem low_holds_iff {s : State} {cs : List (Nat × Int)} :
    low_holds s cs ↔ ∃ t lq, s.RL.next = some t ∧ s.tiers.read t = some lq ∧
      FIFO.Holds s.heap (ends lq) cs := by
  unfold low_holds low
  cases hn : s.RL.next with
  | none => simp
  | some t =>
    cases hr : s.tiers.read t with
    | none => simp [hr]
    | some lq => simp [hr]

/-- Cells of the other tier are not touched when a cell is freed. -/
theorem Holds_free {h : Heap list_node} {q : FIFO.queue} {cs : List (Nat × Int)} {a : Nat}
    (hh : FIFO.Holds h q cs) (ha : a ∉ cs.map Prod.fst) : FIFO.Holds (h.free a) q cs := by
  refine FIFO.Holds_frame hh ?_
  intro c hc
  rw [Heap.read_free, if_neg]
  intro e
  exact ha (e ▸ List.mem_map_of_mem _ hc)

theorem iteration_high_preempt {s : State} {a : Nat} {j : Int} {csH csL : List (Nat × Int)}
    (hh : Holds s ((a, j) :: csH) csL) (hd : s.done = 0) (qt : Int) :
    ∃ s1, iteration qt false s = .ok s1 ∧ Holds s1 csH (csL ++ [(s.heap.size, j)]) ∧
      s1.done = 0 ∧ s1.trace = s.trace ++ RR.events qt false j := by
  obtain ⟨hH, hL, hnd⟩ := hh
  obtain ⟨t, lq, hn, hr, hLq⟩ := low_holds_iff.mp hL
  obtain ⟨hfirst, hid, q5, e5, h5, n5⟩ := mfq_remove hH
  simp only [List.cons_append, List.map_cons, List.nodup_cons, List.map_append,
    List.mem_append, not_or] at hnd
  have hL5 : FIFO.Holds (s.heap.free a) (ends lq) csL := Holds_free hLq hnd.1.2
  obtain ⟨k, lq6, e6, h6, n6, sz6, fr6⟩ := mfq_insert hL5 j
  rw [Heap.size_free] at h6 fr6
  have hnd2 := List.nodup_append.mp hnd.2
  refine ⟨⟨k, s.tiers.write t lq6, q5, s.done, j, s.trace ++ RR.events qt false j⟩, ?_,
    ⟨?_, ?_, ?_⟩, hd, rfl⟩
  · rw [hfirst] at hid
    simp only [iteration, hfirst, hid, Outcome.ok_bind, Bool.false_eq_true, if_false, hd,
      if_true, e5, low, n5, hn, hr, e6, Outcome.pure_eq, RR.events, List.append_assoc,
      List.cons_append, List.nil_append]
  · refine FIFO.Holds_frame h5 ?_
    intro c hc
    have hc1 : c.1 ∈ csH.map Prod.fst := List.mem_map_of_mem _ hc
    have hlt := FIFO.Holds_lt h5 c.1 hc1
    rw [Heap.size_free] at hlt
    refine fr6 c.1 (by omega) ?_
    intro hlast
    exact hnd2.2.2 hc1 (FIFO.Holds_last_mem hLq hlast)
  · refine low_holds_iff.mpr ⟨t, lq6, hn ▸ n5, ?_, h6⟩
    show (s.tiers.write t lq6).read t = some lq6
    rw [Heap.read_write, if_pos ⟨rfl, Heap.read_lt hr⟩]
  · rw [List.map_append, List.map_append, ← List.append_assoc, List.nodup_append]
    refine ⟨hnd.2, by simp, ?_⟩
    intro x hx hx2
    have hx3 : x = s.heap.size := by simpa using hx2
    have hlt : x < s.heap.size := by
      rcases List.mem_append.mp hx with h1 | h1
      · have := FIFO.Holds_lt h5 x h1
        simpa using this
      · exact FIFO.Holds_lt hLq x h1
    omega

theorem iteration_high_complete {s : State} {a : Nat} {j : Int} {csH csL : List (Nat × Int)}
    (hh : Holds s ((a, j) :: csH) csL) {f : Bool} (hf : f = true ∨ s.done ≠ 0) (qt : Int) :
    ∃ s1, iteration qt f s = .ok s1 ∧ Holds s1 csH csL ∧
      s1.done = 0 ∧ s1.trace = s.trace ++ RR.events qt true j := by
  obtain ⟨hH, hL, hnd⟩ := hh
  obtain ⟨t, lq, hn, hr, hLq⟩ := low_holds_iff.mp hL
  obtain ⟨hfirst, hid, q5, e5, h5, n5⟩ := mfq_remove hH
  simp only [List.cons_append, List.map_cons, List.nodup_cons, List.map_append,
    List.mem_append, not_or] at hnd
  refine ⟨⟨s.heap.free a, s.tiers, q5, 0, s.child, s.trace ++ RR.events qt true j⟩, ?_,
    ⟨h5, ?_, by rw [List.map_append]; exact hnd.2⟩, rfl, rfl⟩
  · rw [hfirst] at hid
    cases f with
    | true =>
      simp only [iteration, hfirst, hid, Outcome.ok_bind, if_true, term_child, one_ne_zero,
        if_false, e5, Outcome.pure_eq, RR.events, List.append_assoc, List.cons_append,
        List.nil_append]
    | false =>
      have hd : s.done ≠ 0 := by simpa using hf
      simp only [iteration, hfirst, hid, Outcome.ok_bind, Bool.false_eq_true, if_false, hd, e5,
        Outcome.pure_eq, RR.events, if_true, List.append_assoc, List.cons_append,
        List.nil_append]
  · exact low_holds_iff.mpr ⟨t, lq, hn ▸ n5, hr, Holds_free hLq hnd.1.2⟩

theorem iteration_low_preempt {s : State} {a : Nat} {j : Int} {csL : List (Nat × Int)}
    (hh : Holds s [] ((a, j) :: csL)) (hd : s.done = 0) (qt : Int) :
    ∃ s1, iteration qt false s = .ok s1 ∧ Holds s1 [] (csL ++ [(s.heap.size, j)]) ∧
      s1.done = 0 ∧ s1.trace = s.trace ++ RR.events qt false j := by
  obtain ⟨hH, hL, hnd⟩ := hh
  obtain ⟨t, lq, hn, hr, hLq⟩ := low_holds_iff.mp hL
  have hfirst : s.RL.first = none := FIFO.Holds_nil_first hH
  obtain ⟨_, hid, q5, e5, h5, n5⟩ := mfq_remove hLq
  obtain ⟨k, lq7, e7, h7, n7, sz7, fr7⟩ := mfq_insert h5 j
  rw [Heap.size_free] at h7
  have hlt := Heap.read_lt hr
  have hr5 : (s.tiers.write t q5).read t = some q5 := by
    rw [Heap.read_write, if_pos ⟨rfl, hlt⟩]
  refine ⟨⟨k, (s.tiers.write t q5).write t lq7, s.RL, s.done, j,
    s.trace ++ RR.events qt false j⟩, ?_, ⟨?_, ?_, ?_⟩, hd, rfl⟩
  · simp only [iteration, hfirst, low, hn, hr, hid, Outcome.ok_bind, Bool.false_eq_true,
      if_false, hd, if_true, e5, hr5, e7, Outcome.pure_eq, RR.events, List.append_assoc,
      List.cons_append, List.nil_append]
  · exact ⟨hH.1, hH.2.1, hH.2.2⟩
  · refine low_holds_iff.mpr ⟨t, lq7, hn, ?_, h7⟩
    show ((s.tiers.write t q5).write t lq7).read t = some lq7
    rw [Heap.read_write, if_pos ⟨rfl, by simpa using hlt⟩]
  · simpa using h7.2.1

theorem iteration_low_complete {s : State} {a : Nat} {j : Int} {csL : List (Nat × Int)}
    (hh : Holds s [] ((a, j) :: csL)) {f : Bool} (hf : f = true ∨ s.done ≠ 0) (qt : Int) :
    ∃ s1, iteration qt f s = .ok s1 ∧ Holds s1 [] csL ∧
      s1.done = 0 ∧ s1.trace = s.trace ++ RR.events qt true j := by
  obtain ⟨hH, hL, hnd⟩ := hh
  obtain ⟨t, lq, hn, hr, hLq⟩ := low_holds_iff.mp hL
  have hfirst : s.RL.first = none := FIFO.Holds_nil_first hH
  obtain ⟨_, hid, q5, e5, h5, n5⟩ := mfq_remove hLq
  have hlt := Heap.read_lt hr
  refine ⟨⟨s.heap.free a, s.tiers.write t q5, s.RL, 0, s.child,
    s.trace ++ RR.events qt true j⟩, ?_, ⟨⟨hH.1, hH.2.1, hH.2.2⟩, ?_, ?_⟩, rfl, rfl⟩
  · cases f with
    | true =>
      simp only [iteration, hfirst, low, hn, hr, hid, Outcome.ok_bind, if_true, term_child,
        one_ne_zero, if_false, e5, Outcome.pure_eq, RR.events, List.append_assoc,
        List.cons_append, List.nil_append]
    | false =>
      have hd : s.done ≠ 0 := by simpa using hf
      simp only [iteration, hfirst, low, hn, hr, hid, Outcome.ok_bind, Bool.false_eq_true,
        if_false, hd, e5, Outcome.pure_eq, RR.events, if_true, List.append_assoc,
        List.cons_append, List.nil_append]
  · refine low_holds_iff.mpr ⟨t, q5, hn, ?_, h5⟩
    show (s.tiers.write t q5).read t = some q5
    rw [Heap.read_write, if_pos ⟨rfl, hlt⟩]
  · simpa using h5.2.1

theorem guard_models {s : State} {H L : List Int} (hm : Models s H L) :
    guard s = .ok (dispatched (H, L)).isSome := by
  obtain ⟨csH, csL, ⟨hH, hL, _⟩, rfl, rfl⟩ := hm
  obtain ⟨t, lq, hn, hr, hLq⟩ := low_holds_iff.mp hL
  cases csH with
  | cons c csH =>
    have := FIFO.Holds_cons_first hH
    simp only [ends] at this
    simp [guard, this, dispatched]
  | nil =>
    have hf : s.RL.first = none := FIFO.Holds_nil_first hH
    cases csL with
    | nil =>
      have : lq.first = none := FIFO.Holds_nil_first hLq
      simp [guard, hf, low, hn, hr, this, dispatched]
    | cons c csL =>
      have := FIFO.Holds_cons_first hLq
      simp only [ends] at this
      simp [guard, hf, low, hn, hr, this, dispatched]

theorem mfq_step_models {s : State} {H L : List Int} {j : Int} (hm : Models s H L)
    (hj : dispatched (H, L) = some j) (qt : Int) (f : Bool) :
    ∃ s1, iteration qt f s = .ok s1 ∧
      Models s1 (step (decide (s.done ≠ 0) || f) (H, L)).1
        (step (decide (s.done ≠ 0) || f) (H, L)).2 ∧
      s1.done = 0 ∧ s1.trace = s.trace ++ RR.events qt (decide (s.done ≠ 0) || f) j := by
  obtain ⟨csH, csL, hh, rfl, rfl⟩ := hm
  have key : (decide (s.done ≠ 0) || f) = false → s.done = 0 ∧ f = false := by
    intro h
    simpa using h
  cases he : decide (s.done ≠ 0) || f with
  | false =>
    obtain ⟨hd, hf⟩ := key he
    subst hf
    cases csH with
    | cons c csH =>
      obtain ⟨a, x⟩ := c
      have hx : x = j := by simpa [dispatched] using hj
      subst hx
      obtain ⟨s1, e, h1, d1, t1⟩ := iteration_high_preempt hh hd qt
      exact ⟨s1, e, ⟨_, _, h1, by simp [step], by simp [step]⟩, d1, t1⟩
    | nil =>
      cases csL with
      | nil => simp [dispatched] at hj
      | cons c csL =>
        obtain ⟨a, x⟩ := c
        have hx : x = j := by simpa [dispatched] using hj
        subst hx
        obtain ⟨s1, e, h1, d1, t1⟩ := iteration_low_preempt hh hd qt
        exact ⟨s1, e, ⟨_, _, h1, by simp [step], by simp [step]⟩, d1, t1⟩
  | true =>
    have hf : f = true ∨ s.done ≠ 0 := by
      rcases Bool.or_eq_true_iff.mp he with h | h
      · exact Or.inr (by simpa using h)
      · exact Or.inl h
    cases csH with
    | cons c csH =>
      obtain ⟨a, x⟩ := c
      have hx : x = j := by simpa [dispatched] using hj
      subst hx
      obtain ⟨s1, e, h1, d1, t1⟩ := iteration_high_complete hh hf qt
      exact ⟨s1, e, ⟨_, _, h1, by simp [step], by simp [step]⟩, d1, t1⟩
    | nil =>
      cases csL with
      | nil => simp [dispatched] at hj
      | cons c csL =>
        obtain ⟨a, x⟩ := c
        have hx : x = j := by simpa [dispatched] using hj
        subst hx
        obtain ⟨s1, e, h1, d1, t1⟩ := iteration_low_complete hh hf qt
        exact ⟨s1, e, ⟨_, _, h1, by simp [step], by simp [step]⟩, d1, t1⟩

theorem Models_term_child {s : State} {H L : List Int} (hm : Models s H L) (late : Bool) :
    Models (if late = true then term_child s else s) H L := by
  cases late
  · simpa using hm
  · obtain ⟨csH, csL, ⟨hH, hL, hnd⟩, e1, e2⟩ := hm
    refine ⟨csH, csL, ⟨hH, ?_, hnd⟩, e1, e2⟩
    obtain ⟨t, lq, hn, hr, hLq⟩ := low_holds_iff.mp hL
    exact low_holds_iff.mpr ⟨t, lq, hn, hr, hLq⟩

theorem mfq_run_models (qt : Int) (ins : List (Bool × Bool)) :
    ∀ (s : State) (H L : List Int), Models s H L →
    ∃ s1, run qt ins s = .ok s1 ∧
      Models s1 (tiers_after (decide (s.done ≠ 0)) ins (H, L)).1
        (tiers_after (decide (s.done ≠ 0)) ins (H, L)).2 ∧
      s1.trace = s.trace ++ trace_of qt (decide (s.done ≠ 0)) ins (H, L) := by
  induction ins with
  | nil =>
    intro s H L hm
    exact ⟨s, rfl, hm, by simp [trace_of]⟩
  | cons i fs ih =>
    intro s H L hm
    obtain ⟨f, late⟩ := i
    have hg := guard_models hm
    cases hj : dispatched (H, L) with
    | none =>
      refine ⟨s, ?_, by simpa [tiers_after, hj] using hm, by simp [trace_of, hj]⟩
      simp [run, hg, hj]
    | some j =>
      obtain ⟨s1, e1, h1, d1, t1⟩ := mfq_step_models hm hj qt f
      have hlate : decide ((if late = true then term_child s1 else s1).done ≠ 0) = late := by
        cases late <;> simp [term_child, d1]
      obtain ⟨s2, e2, h2, t2⟩ := ih (if late = true then term_child s1 else s1) _ _
        (Models_term_child h1 late)
      rw [hlate] at h2 t2
      refine ⟨s2, ?_, by simpa [tiers_after, hj] using h2, ?_⟩
      · simp [run, hg, hj, e1, e2]
      · rw [t2]
        have : (if late = true then term_child s1 else s1).trace = s1.trace := by
          cases late <;> simp [term_child]
        rw [this, t1]
        simp [trace_of, hj]

/-! ### List-level facts -/

theorem step_high_suffix (f : Bool) (T : List Int × List Int) : (step f T).1 <:+ T.1 := by
  obtain ⟨H, L⟩ := T
  cases H with
  | cons j H => cases f <;> simp [step, List.suffix_cons]
  | nil => cases L <;> cases f <;> simp [step]

theorem tiers_after_high_suffix (ins : List (Bool × Bool)) :
    ∀ (d : Bool) (T : List Int × List Int), (tiers_after d ins T).1 <:+ T.1 := by
  induction ins with
  | nil => intro d T; exact List.suffix_refl _
  | cons i fs ih =>
    intro d T
    obtain ⟨f, late⟩ := i
    cases hj : dispatched T with
    | none => simp [tiers_after, hj]
    | some j =>
      simp only [tiers_after, hj]
      exact (ih late (step (d || f) T)).trans (step_high_suffix (d || f) T)

theorem step_perm (f : Bool) (T : List Int × List Int) (j : Int) (hj : dispatched T = some j) :
    ((step f T).1 ++ (step f T).2 ++ (if f then [j] else [])).Perm (T.1 ++ T.2) := by
  obtain ⟨H, L⟩ := T
  cases H with
  | cons x H =>
    have hx : x = j := by simpa [dispatched] using hj
    subst hx
    cases f
    · simp only [step, Bool.false_eq_true, if_false, List.append_nil, ← List.append_assoc]
      exact List.perm_append_singleton _ _
    · simp only [step, if_true]
      exact List.perm_append_singleton _ _
  | nil =>
    cases L with
    | nil => simp [dispatched] at hj
    | cons x L =>
      have hx : x = j := by simpa [dispatched] using hj
      subst hx
      cases f
      · simp only [step, Bool.false_eq_true, if_false, List.append_nil, List.nil_append]
        exact List.perm_append_singleton _ _
      · simp only [step, if_true, List.nil_append]
        exact List.perm_append_singleton _ _

theorem tiers_after_perm (qt : Int) (ins : List (Bool × Bool)) :
    ∀ (d : Bool) (T : List Int × List Int),
    ((tiers_after d ins T).1 ++ (tiers_after d ins T).2 ++
      completions (trace_of qt d ins T)).Perm (T.1 ++ T.2) := by
  induction ins with
  | nil => intro d T; simp [tiers_after, trace_of, completions, completions_from]
  | cons i fs ih =>
    intro d T
    obtain ⟨f, late⟩ := i
    cases hj : dispatched T with
    | none => simp [tiers_after, trace_of, hj, completions, completions_from]
    | some j =>
      simp only [tiers_after, trace_of, hj]
      rw [completions, RR.completions_events]
      have h1 := ih late (step (d || f) T)
      have h2 := step_perm (d || f) T j hj
      refine List.Perm.trans ?_ h2
      refine List.Perm.trans ?_ (h1.append_right _)
      rw [List.append_assoc, List.append_assoc, List.append_assoc]
      refine List.Perm.append_left _ (List.Perm.append_left _ ?_)
      exact List.perm_append_comm

end MFQ

namespace RR

theorem queue_after_perm (qt : Int) (ins : List (Bool × Bool)) : ∀ (d : Bool) (l : List Int),
    (queue_after d ins l ++ completions (trace_of qt d ins l)).Perm l := by
  induction ins with
  | nil => intro d l; simp [queue_after, trace_of, completions, completions_from]
  | cons i fs ih =>
    intro d l
    obtain ⟨f, late⟩ := i
    cases l with
    | nil => simp [queue_after, trace_of, completions, completions_from]
    | cons j js =>
      simp only [queue_after, trace_of]
      rw [completions, completions_events]
      cases he : d || f with
      | false =>
        simp only [step, Bool.false_eq_true, if_false, List.nil_append]
        exact (ih late (js ++ [j])).trans (List.perm_append_singleton _ _)
      | true =>
        simp only [step, if_true]
        have := ih late js
        exact (List.perm_middle).trans (this.cons j)

end RR

/-- In a rearrangement of a duplicate-free list split in two parts, a member is in
the first part exactly once or not at all, according to whether it is in the second. -/
theorem count_of_perm_append {l rest gone : List Int} (hp : (rest ++ gone).Perm l)
    (hnd : l.Nodup) : rest.Nodup ∧ ∀ j ∈ l, rest.count j = if j ∈ gone then 0 else 1 := by
  have hnd2 : (rest ++ gone).Nodup := hp.nodup_iff.mpr hnd
  obtain ⟨h1, h2, h3⟩ := List.nodup_append.mp hnd2
  refine ⟨h1, ?_⟩
  intro j hj
  have hmem : j ∈ rest ++ gone := hp.mem_iff.mpr hj
  by_cases hg : j ∈ gone
  · rw [if_pos hg]
    exact List.count_eq_zero_of_not_mem (fun hr => h3 hr hg)
  · rw [if_neg hg]
    have : j ∈ rest := by
      rcases List.mem_append.mp hmem with h | h
      · exact h
      · exact absurd h hg
    exact List.count_eq_one_of_mem h1 this

namespace MFQ

/-- C5 (Multi-Level Feedback priority): from a well-formed state, after any inputs
`ins` the loop is in a well-formed state with tiers `H1`, `L1`, and the iteration run
there resumes exactly one job: the head of the high tier when that tier is not
empty, and the head of the low tier when the high tier is empty. With distinct pids
the head of the low tier is not the job resumed while the high tier is not empty. -/
theorem priority (qt : Int) (s : State) (H L : List Int) (ins : List (Bool × Bool)) (f : Bool)
    (hm : Models s H L) :
    ∃ s1 H1 L1, run qt ins s = .ok s1 ∧ Models s1 H1 L1 ∧
      (∀ j H2, H1 = j :: H2 → ∃ s2 t, iteration qt f s1 = .ok s2 ∧
        s2.trace = s1.trace ++ t ∧ resumes t = [j]) ∧
      (∀ j L2, H1 = [] → L1 = j :: L2 → ∃ s2 t, iteration qt f s1 = .ok s2 ∧
        s2.trace = s1.trace ++ t ∧ resumes t = [j]) ∧
      (∀ j L2, L1 = j :: L2 → H1 ≠ [] → (H1 ++ L1).Nodup → ∀ s2 t,
        iteration qt f s1 = .ok s2 → s2.trace = s1.trace ++ t → resumes t ≠ [j]) := by
  obtain ⟨s1, e1, h1, _⟩ := mfq_run_models qt ins s H L hm
  refine ⟨s1, _, _, e1, h1, ?_, ?_, ?_⟩
  · intro j H2 hH
    obtain ⟨s2, e2, _, _, t2⟩ := mfq_step_models h1 (j := j) (by rw [hH]; rfl) qt f
    exact ⟨s2, _, e2, t2, RR.resumes_events qt _ j⟩
  · intro j L2 hH hL
    obtain ⟨s2, e2, _, _, t2⟩ := mfq_step_models h1 (j := j) (by rw [hH, hL]; rfl) qt f
    exact ⟨s2, _, e2, t2, RR.resumes_events qt _ j⟩
  · intro j L2 hL hH hnd s2 t e2 ht hres
    cases hH1 : (tiers_after (decide (s.done ≠ 0)) ins (H, L)).1 with
    | nil => exact hH hH1
    | cons x H2 =>
      obtain ⟨s3, e3, _, _, t3⟩ := mfq_step_models h1 (j := x) (by rw [hH1]; rfl) qt f
      rw [e2] at e3
      cases e3
      rw [t3] at ht
      have ht2 := (List.append_cancel_left ht).symm
      rw [ht2, RR.resumes_events] at hres
      have hx : x = j := by simpa using hres
      rw [hH1, hL, hx] at hnd
      simp at hnd

/-- C5 at a state with pid 10 in the high tier and pid 11 in the low tier. -/
theorem priority_witness :
    Models ⟨⟨[some ⟨10, none, none⟩, some ⟨11, none, none⟩]⟩, ⟨[some ⟨some 1, some 1, none⟩]⟩,
      ⟨some 0, some 0, some 0⟩, 0, 0, []⟩ [10] [11] ∧
    ∃ s1 H1 L1, run 50000 [(false, false)]
        ⟨⟨[some ⟨10, none, none⟩, some ⟨11, none, none⟩]⟩, ⟨[some ⟨some 1, some 1, none⟩]⟩,
          ⟨some 0, some 0, some 0⟩, 0, 0, []⟩ = .ok s1 ∧ Models s1 H1 L1 ∧
      (∀ j H2, H1 = j :: H2 → ∃ s2 t, iteration 50000 true s1 = .ok s2 ∧
        s2.trace = s1.trace ++ t ∧ resumes t = [j]) ∧
      (∀ j L2, H1 = [] → L1 = j :: L2 → ∃ s2 t, iteration 50000 true s1 = .ok s2 ∧
        s2.trace = s1.trace ++ t ∧ resumes t = [j]) ∧
      (∀ j L2, L1 = j :: L2 → H1 ≠ [] → (H1 ++ L1).Nodup → ∀ s2 t,
        iteration 50000 true s1 = .ok s2 → s2.trace = s1.trace ++ t → resumes t ≠ [j]) :=
  ⟨⟨[(0, 10)], [(1, 11)], by decide, rfl, rfl⟩,
    priority 50000 _ [10] [11] [(false, false)] true
      ⟨[(0, 10)], [(1, 11)], by decide, rfl, rfl⟩⟩

/-- C6 (Multi-Level Feedback demotion step): in a well-formed state with the flag
clear, an iteration in which the flag stays clear moves the head `j` of a non-empty
high tier `j :: H2` to the tail of the low tier, giving tiers `H2` and `L ++ [j]`; with
an empty high tier it moves the head `j` of the low tier `j :: L2` to the tail of the
low tier, giving tiers `[]` and `L2 ++ [j]`. -/
theorem demotion (qt : Int) (s : State) (H L : List Int) (hm : Models s H L)
    (hd : s.done = 0) :
    (∀ j H2, H = j :: H2 → ∃ s1, iteration qt false s = .ok s1 ∧ Models s1 H2 (L ++ [j])) ∧
    (∀ j L2, H = [] → L = j :: L2 →
      ∃ s1, iteration qt false s = .ok s1 ∧ Models s1 [] (L2 ++ [j])) := by
  constructor
  · intro j H2 hH
    subst hH
    obtain ⟨s1, e1, h1, _, _⟩ := mfq_step_models hm (j := j) rfl qt false
    exact ⟨s1, e1, by simpa [step, hd] using h1⟩
  · intro j L2 hH hL
    subst hH hL
    obtain ⟨s1, e1, h1, _, _⟩ := mfq_step_models hm (j := j) rfl qt false
    exact ⟨s1, e1, by simpa [step, hd] using h1⟩

/-- C6 at a state with tiers `[10]`, `[11]` and at a state with tiers `[]`, `[11, 12]`. -/
theorem demotion_witness :
    (Models ⟨⟨[some ⟨10, none, none⟩, some ⟨11, none, none⟩]⟩, ⟨[some ⟨some 1, some 1, none⟩]⟩,
      ⟨some 0, some 0, some 0⟩, 0, 0, []⟩ [10] [11] ∧ (0 : Int) = 0 ∧
     ((∀ j H2, [10] = j :: H2 → ∃ s1, iteration 50000 false
        ⟨⟨[some ⟨10, none, none⟩, some ⟨11, none, none⟩]⟩, ⟨[some ⟨some 1, some 1, none⟩]⟩,
          ⟨some 0, some 0, some 0⟩, 0, 0, []⟩ = .ok s1 ∧ Models s1 H2 ([11] ++ [j])) ∧
      (∀ j L2, [(10 : Int)] = [] → [11] = j :: L2 → ∃ s1, iteration 50000 false
        ⟨⟨[some ⟨10, none, none⟩, some ⟨11, none, none⟩]⟩, ⟨[some ⟨some 1, some 1, none⟩]⟩,
          ⟨some 0, some 0, some 0⟩, 0, 0, []⟩ = .ok s1 ∧ Models s1 [] (L2 ++ [j])))) ∧
    (Models ⟨⟨[some ⟨11, some 1, none⟩, some ⟨12, none, some 0⟩]⟩,
      ⟨[some ⟨some 0, some 1, none⟩]⟩, ⟨none, none, some 0⟩, 0, 0, []⟩ [] [11, 12] ∧
      (0 : Int) = 0 ∧
     ((∀ j H2, [] = j :: H2 → ∃ s1, iteration 50000 false
        ⟨⟨[some ⟨11, some 1, none⟩, some ⟨12, none, some 0⟩]⟩,
          ⟨[some ⟨some 0, some 1, none⟩]⟩, ⟨none, none, some 0⟩, 0, 0, []⟩ = .ok s1 ∧
        Models s1 H2 ([11, 12] ++ [j])) ∧
      (∀ j L2, ([] : List Int) = [] → [11, 12] = j :: L2 → ∃ s1, iteration 50000 false
        ⟨⟨[some ⟨11, some 1, none⟩, some ⟨12, none, some 0⟩]⟩,
          ⟨[some ⟨some 0, some 1, none⟩]⟩, ⟨none, none, some 0⟩, 0, 0, []⟩ = .ok s1 ∧
        Models s1 [] (L2 ++ [j])))) :=
  ⟨⟨⟨[(0, 10)], [(1, 11)], by decide, rfl, rfl⟩, rfl,
      demotion 50000 _ [10] [11] ⟨[(0, 10)], [(1, 11)], by decide, rfl, rfl⟩ rfl⟩,
    ⟨⟨[], [(0, 11), (1, 12)], by decide, rfl, rfl⟩, rfl,
      demotion 50000 _ [] [11, 12] ⟨[], [(0, 11), (1, 12)], by decide, rfl, rfl⟩ rfl⟩⟩

end MFQ

/-! ## `Queue_Remove` on an empty queue (C8) -/

/-- C8, the code at the failing input: called with a valid pointer to an empty queue
(`first = NULL`, or `*rlp = NULL` in SJF), `Queue_Remove` of all four programs passes
the test `rlp == NULL` and dereferences the `NULL` head pointer; the branch that
prints `Empty List` and exits with status 1 is taken only for a `NULL` queue pointer. -/
theorem remove_empty_faults :
    (∀ (h : Heap list_node) (last : Option Nat),
      FIFO.Queue_Remove h (some ⟨none, last⟩) = .fault) ∧
    (∀ (h : Heap SJF.list_node), SJF.Queue_Remove h (some none) = .fault) ∧
    (∀ (h : Heap list_node) (last next : Option Nat),
      MFQ.Queue_Remove h (some ⟨none, last, next⟩) = .fault) ∧
    (∀ h : Heap list_node, FIFO.Queue_Remove h none = .exited 1 "Empty List\n") ∧
    (∀ h : Heap SJF.list_node, SJF.Queue_Remove h none = .exited 1 "Empty List\n") ∧
    (∀ h : Heap list_node, MFQ.Queue_Remove h none = .exited 1 "Empty List\n") :=
  ⟨fun _ _ => rfl, fun _ => rfl, fun _ _ _ => rfl, fun _ => rfl, fun _ => rfl, fun _ => rfl⟩

namespace MFQ

/-- C9 (Multi-Level Feedback never promotes): from a well-formed state, after any
inputs `ins` the loop is in a well-formed state whose high tier `H1` is a suffix of
the initial high tier; with distinct pids a job in the low tier `L1` is in the high
tier of no state reached later; and with the flag clear, an iteration in which the
flag stays clear moves the dispatched job from the head of the high tier to the tail
of the low tier, or from the head to the tail of the low tier. -/
theorem never_promotes (qt : Int) (s : State) (H L : List Int) (ins : List (Bool × Bool))
    (hm : Models s H L) :
    ∃ s1 H1 L1, run qt ins s = .ok s1 ∧ Models s1 H1 L1 ∧ H1 <:+ H ∧
      ((H ++ L).Nodup → ∀ j ∈ L1, ∀ ins2 : List (Bool × Bool), ∃ s2 H2 L2,
        run qt ins2 s1 = .ok s2 ∧ Models s2 H2 L2 ∧ j ∉ H2) ∧
      (∀ j H2, s1.done = 0 → H1 = j :: H2 →
        ∃ s2, iteration qt false s1 = .ok s2 ∧ Models s2 H2 (L1 ++ [j])) ∧
      (∀ j L2, s1.done = 0 → H1 = [] → L1 = j :: L2 →
        ∃ s2, iteration qt false s1 = .ok s2 ∧ Models s2 [] (L2 ++ [j])) := by
  obtain ⟨s1, e1, h1, _⟩ := mfq_run_models qt ins s H L hm
  refine ⟨s1, _, _, e1, h1, tiers_after_high_suffix ins _ (H, L), ?_, ?_, ?_⟩
  · intro hnd j hj ins2
    obtain ⟨s2, e2, h2, _⟩ := mfq_run_models qt ins2 s1 _ _ h1
    refine ⟨s2, _, _, e2, h2, ?_⟩
    intro hjH
    have hsuf := tiers_after_high_suffix ins2 (decide (s1.done ≠ 0))
      (tiers_after (decide (s.done ≠ 0)) ins (H, L))
    have hjH1 : j ∈ (tiers_after (decide (s.done ≠ 0)) ins (H, L)).1 := hsuf.subset hjH
    have hp := tiers_after_perm qt ins (decide (s.done ≠ 0)) (H, L)
    have hnd2 := hp.nodup_iff.mpr hnd
    have hnd3 := (List.nodup_append.mp (List.nodup_append.mp hnd2).1).2.2
    exact hnd3 hjH1 hj
  · intro j H2 hd hH
    obtain ⟨s2, e2, h2, _, _⟩ := mfq_step_models h1 (j := j) (by rw [hH]; rfl) qt false
    refine ⟨s2, e2, ?_⟩
    rw [hH] at h2
    simpa [step, hd] using h2
  · intro j L2 hd hH hL
    obtain ⟨s2, e2, h2, _, _⟩ := mfq_step_models h1 (j := j) (by rw [hH, hL]; rfl) qt false
    refine ⟨s2, e2, ?_⟩
    rw [hH, hL] at h2
    simpa [step, hd] using h2

/-- C9 at a state with pid 10 in the high tier and pid 11 in the low tier. -/
theorem never_promotes_witness :
    Models ⟨⟨[some ⟨10, none, none⟩, some ⟨11, none, none⟩]⟩, ⟨[some ⟨some 1, some 1, none⟩]⟩,
      ⟨some 0, some 0, some 0⟩, 0, 0, []⟩ [10] [11] ∧
    ∃ s1 H1 L1, run 50000 [(false, false), (false, true)]
        ⟨⟨[some ⟨10, none, none⟩, some ⟨11, none, none⟩]⟩, ⟨[some ⟨some 1, some 1, none⟩]⟩,
          ⟨some 0, some 0, some 0⟩, 0, 0, []⟩ = .ok s1 ∧ Models s1 H1 L1 ∧ H1 <:+ [10] ∧
      (([10] ++ [11] : List Int).Nodup → ∀ j ∈ L1, ∀ ins2 : List (Bool × Bool), ∃ s2 H2 L2,
        run 50000 ins2 s1 = .ok s2 ∧ Models s2 H2 L2 ∧ j ∉ H2) ∧
      (∀ j H2, s1.done = 0 → H1 = j :: H2 →
        ∃ s2, iteration 50000 false s1 = .ok s2 ∧ Models s2 H2 (L1 ++ [j])) ∧
      (∀ j L2, s1.done = 0 → H1 = [] → L1 = j :: L2 →
        ∃ s2, iteration 50000 false s1 = .ok s2 ∧ Models s2 [] (L2 ++ [j])) :=
  ⟨⟨[(0, 10)], [(1, 11)], by decide, rfl, rfl⟩,
    never_promotes 50000 _ [10] [11] [(false, false), (false, true)]
      ⟨[(0, 10)], [(1, 11)], by decide, rfl, rfl⟩⟩

end MFQ

/-! ## Job handles stay unique (C10) -/

/-- C10 (job-handle uniqueness): for the RR loop and for the MFQ loop, from a
well-formed state with pairwise distinct pids, after any inputs `ins` the loop is in
a well-formed state in which no pid occurs twice (in MFQ: across both tiers), every
initial job whose completion was not observed occurs exactly once, and every job
whose completion was observed does not occur. -/
theorem job_unique (qt : Int) (ins : List (Bool × Bool)) :
    (∀ (s : RR.State) (l : List Int), FIFO.Models s.heap s.RL l → l.Nodup →
      ∃ s1 l1 t, RR.run qt ins s = .ok s1 ∧ FIFO.Models s1.heap s1.RL l1 ∧
        s1.trace = s.trace ++ t ∧ l1.Nodup ∧
        ∀ j ∈ l, l1.count j = if j ∈ completions t then 0 else 1) ∧
    (∀ (s : MFQ.State) (H L : List Int), MFQ.Models s H L → (H ++ L).Nodup →
      ∃ s1 H1 L1 t, MFQ.run qt ins s = .ok s1 ∧ MFQ.Models s1 H1 L1 ∧
        s1.trace = s.trace ++ t ∧ (H1 ++ L1).Nodup ∧
        ∀ j ∈ H ++ L, (H1 ++ L1).count j = if j ∈ completions t then 0 else 1) := by
  constructor
  · intro s l hm hnd
    obtain ⟨s1, e1, h1, t1⟩ := RR.run_models qt ins s l hm
    obtain ⟨n1, c1⟩ := count_of_perm_append (RR.queue_after_perm qt ins _ l) hnd
    exact ⟨s1, _, _, e1, h1, t1, n1, c1⟩
  · intro s H L hm hnd
    obtain ⟨s1, e1, h1, t1⟩ := MFQ.mfq_run_models qt ins s H L hm
    obtain ⟨n1, c1⟩ := count_of_perm_append (MFQ.tiers_after_perm qt ins _ (H, L)) hnd
    exact ⟨s1, _, _, _, e1, h1, t1, n1, c1⟩

/-- C10 at an RR queue holding the pids 10, 11 and at MFQ tiers `[10]`, `[11]`, for
an iteration that preempts, with a late run of the handler, and one that sees a
completion. -/
theorem job_unique_witness :
    (FIFO.Models ⟨[some ⟨10, some 1, none⟩, some ⟨11, none, some 0⟩]⟩ ⟨some 0, some 1⟩ [10, 11] ∧
      [(10 : Int), 11].Nodup ∧
      ∃ s1 l1 t, RR.run 50000 [(false, true), (true, false)]
          ⟨⟨[some ⟨10, some 1, none⟩, some ⟨11, none, some 0⟩]⟩, ⟨some 0, some 1⟩, 0, 0, []⟩ =
          .ok s1 ∧ FIFO.Models s1.heap s1.RL l1 ∧ s1.trace = [] ++ t ∧ l1.Nodup ∧
        ∀ j ∈ [(10 : Int), 11], l1.count j = if j ∈ completions t then 0 else 1) ∧
    (MFQ.Models ⟨⟨[some ⟨10, none, none⟩, some ⟨11, none, none⟩]⟩,
        ⟨[some ⟨some 1, some 1, none⟩]⟩, ⟨some 0, some 0, some 0⟩, 0, 0, []⟩ [10] [11] ∧
      ([10] ++ [11] : List Int).Nodup ∧
      ∃ s1 H1 L1 t, MFQ.run 50000 [(false, true), (true, false)]
          ⟨⟨[some ⟨10, none, none⟩, some ⟨11, none, none⟩]⟩,
            ⟨[some ⟨some 1, some 1, none⟩]⟩, ⟨some 0, some 0, some 0⟩, 0, 0, []⟩ = .ok s1 ∧
        MFQ.Models s1 H1 L1 ∧ s1.trace = [] ++ t ∧ (H1 ++ L1).Nodup ∧
        ∀ j ∈ ([10] ++ [11] : List Int), (H1 ++ L1).count j =
          if j ∈ completions t then 0 else 1) :=
  ⟨⟨⟨[(0, 10), (1, 11)], by decide, rfl⟩, by decide,
      (job_unique 50000 [(false, true), (true, false)]).1 _ [10, 11]
        ⟨[(0, 10), (1, 11)], by decide, rfl⟩ (by decide)⟩,
    ⟨⟨[(0, 10)], [(1, 11)], by decide, rfl, rfl⟩, by decide,
      (job_unique 50000 [(false, true), (true, false)]).2 _ [10] [11]
        ⟨[(0, 10)], [(1, 11)], by decide, rfl, rfl⟩ (by decide)⟩⟩

namespace FIFO

theorem fifo_iteration {s : State} {a : Nat} {j : Int} {cs : List (Nat × Int)}
    (hh : Holds s.heap s.RL ((a, j) :: cs)) :
    ∃ s1, iteration s = .ok s1 ∧ Holds s1.heap s1.RL cs ∧
      s1.trace = s.trace ++ [Event.kill j .SIGCONT, Event.wait,
        Event.printf "Scheduler: A child has completed\n"] := by
  obtain ⟨e1, q1, e2, h1⟩ := Queue_Remove_holds hh
  refine ⟨⟨s.heap.free a, q1, (s.trace ++ [Event.kill j .SIGCONT, Event.wait]) ++
    [Event.printf "Scheduler: A child has completed\n"]⟩, ?_, h1, by simp⟩
  simp only [iteration, e1, Outcome.ok_bind, e2, Outcome.pure_eq]

theorem steps_holds (cs : List (Nat × Int)) : ∀ (s : State) (k : Nat),
    Holds s.heap s.RL cs → k ≤ cs.length →
    ∃ sk, steps k s = .ok sk ∧ Holds sk.heap sk.RL (cs.drop k) ∧
      sk.trace = s.trace ++ events_of ((cs.take k).map Prod.snd) := by
  induction cs with
  | nil =>
    intro s k hh hk
    have hk0 : k = 0 := by simpa using hk
    subst hk0
    exact ⟨s, rfl, hh, by simp [events_of]⟩
  | cons c cs ih =>
    intro s k hh hk
    cases k with
    | zero => exact ⟨s, rfl, hh, by simp [events_of]⟩
    | succ k =>
      obtain ⟨a, j⟩ := c
      obtain ⟨s1, e1, h1, t1⟩ := fifo_iteration hh
      obtain ⟨sk, e2, h2, t2⟩ := ih s1 k h1 (by simpa using hk)
      refine ⟨sk, ?_, by simpa using h2, ?_⟩
      · simp only [steps, Holds_cons_first hh, e1, Outcome.ok_bind, e2]
      · rw [t2, t1]
        simp [events_of]

theorem schedule_fifo (cs : List (Nat × Int)) : ∀ (s : State),
    Holds s.heap s.RL cs →
    ∃ sN, steps cs.length s = .ok sN ∧ sN.RL.first = none ∧
      (∀ fuel, cs.length ≤ fuel → schedule fuel s = .ok sN) ∧
      (∀ fuel, fuel < cs.length → schedule fuel s = .unfinished) := by
  induction cs with
  | nil =>
    intro s hh
    have hf := Holds_nil_first hh
    refine ⟨s, rfl, hf, ?_, ?_⟩
    · intro fuel _
      cases fuel <;> simp [schedule, hf]
    · intro fuel hfuel
      simp at hfuel
  | cons c cs ih =>
    intro s hh
    obtain ⟨a, j⟩ := c
    have hf := Holds_cons_first hh
    obtain ⟨s1, e1, h1, t1⟩ := fifo_iteration hh
    obtain ⟨sN, e2, f2, g2, u2⟩ := ih s1 h1
    refine ⟨sN, ?_, f2, ?_, ?_⟩
    · simp only [List.length_cons, steps, hf, e1, Outcome.ok_bind, e2]
    · intro fuel hfuel
      obtain ⟨k, rfl⟩ : ∃ k, fuel = k + 1 := ⟨fuel - 1, by simp at hfuel; omega⟩
      rw [schedule]
      simp only [hf, e1, Outcome.ok_bind]
      exact g2 k (by simpa using hfuel)
    · intro fuel hfuel
      cases fuel with
      | zero => simp [schedule, hf]
      | succ k =>
        rw [schedule]
        simp only [hf, e1, Outcome.ok_bind]
        exact u2 k (by simpa using hfuel)

/-- The first `n + 1` iterations are the first `n` followed by one more. -/
theorem steps_succ (n : Nat) : ∀ (u v w : State), steps n u = .ok v → v.RL.first ≠ none →
    iteration v = .ok w → steps (n + 1) u = .ok w := by
  induction n with
  | zero =>
    intro u v w hu hv hw
    cases hu
    cases hfirst : u.RL.first with
    | none => exact absurd hfirst hv
    | some x => simp [steps, hfirst, hw]
  | succ n ihn =>
    intro u v w hu hv hw
    cases hfirst : u.RL.first with
    | none =>
      simp only [steps, hfirst] at hu
      cases hu
      exact absurd hfirst hv
    | some x =>
      rw [steps] at hu ⊢
      simp only [hfirst] at hu ⊢
      cases hi : iteration u with
      | ok u1 =>
        rw [hi, Outcome.ok_bind] at hu
        rw [Outcome.ok_bind]
        exact ihn u1 v w hu hv hw
      | exited c m => rw [hi] at hu; cases hu
      | fault => rw [hi] at hu; cases hu
      | unfinished => rw [hi] at hu; cases hu

/-- C11 (FIFO run-to-completion order): on a well-formed ready queue holding the pids
`l` in arrival order, (1) for every `k ≤ N = l.length` the first `k` iterations
return normally, leave the queue holding `l.drop k`, have sent exactly the events of
the first `k` jobs, and leave the queue empty if and only if `k = N`; (2) when `j` is
the `k`-th job, iteration `k` starts with `j` at the head, sends `SIGCONT` to `j`,
waits, and removes it; (3) the loop exits after `N` iterations: any fuel of at least
`N` ends it in the state after `N` iterations, any smaller fuel does not. -/
theorem run_to_completion (s : State) (l : List Int) (hm : Models s.heap s.RL l) :
    (∀ k, k ≤ l.length → ∃ sk, steps k s = .ok sk ∧ Models sk.heap sk.RL (l.drop k) ∧
      sk.trace = s.trace ++ events_of (l.take k) ∧ resumes (events_of (l.take k)) = l.take k ∧
      (sk.RL.first = none ↔ k = l.length)) ∧
    (∀ k j, l[k]? = some j → ∃ sk sk1, steps k s = .ok sk ∧
      head_id sk.heap sk.RL.first = .ok j ∧ iteration sk = .ok sk1 ∧
      sk1.trace = sk.trace ++ [Event.kill j .SIGCONT, Event.wait,
        Event.printf "Scheduler: A child has completed\n"] ∧
      Models sk1.heap sk1.RL (l.drop (k + 1)) ∧ steps (k + 1) s = .ok sk1) ∧
    (∃ sN, steps l.length s = .ok sN ∧ sN.RL.first = none ∧
      (∀ fuel, l.length ≤ fuel → schedule fuel s = .ok sN) ∧
      (∀ fuel, fuel < l.length → schedule fuel s = .unfinished)) := by
  obtain ⟨cs, hh, rfl⟩ := hm
  have hres : ∀ l : List Int, resumes (events_of l) = l := by
    intro l
    induction l with
    | nil => rfl
    | cons p ps ih => simp [events_of, resumes, ih]
  refine ⟨?_, ?_, ?_⟩
  · intro k hk
    rw [List.length_map] at hk
    obtain ⟨sk, e, h, t⟩ := steps_holds cs s k hh hk
    refine ⟨sk, e, ⟨_, h, by rw [List.map_drop]⟩, by rw [t, List.map_take], hres _, ?_⟩
    rw [List.length_map]
    constructor
    · intro hf
      by_contra hne
      have hlt : k < cs.length := by omega
      obtain ⟨c, rest, hc⟩ : ∃ c rest, cs.drop k = c :: rest := by
        cases hd : cs.drop k with
        | nil =>
          have := congrArg List.length hd
          simp at this
          omega
        | cons c rest => exact ⟨c, rest, rfl⟩
      rw [hc] at h
      rw [Holds_cons_first h] at hf
      cases hf
    · intro hk2
      subst hk2
      rw [List.drop_length] at h
      exact Holds_nil_first h
  · intro k j hj
    have hlt : k < cs.length := by
      have := (List.getElem?_eq_some_iff.mp hj).1
      simpa using this
    obtain ⟨sk, e, h, t⟩ := steps_holds cs s k hh (by omega)
    have hdrop : cs.drop k = cs[k] :: cs.drop (k + 1) := (List.drop_eq_getElem_cons hlt)
    have hjk : (cs[k]).2 = j := by
      have := (List.getElem?_eq_some_iff.mp hj).2
      simpa using this
    rw [hdrop] at h
    obtain ⟨hid, _⟩ := Queue_Remove_holds (a := (cs[k]).1) (x := (cs[k]).2) h
    obtain ⟨sk1, e1, h1, t1⟩ := fifo_iteration (a := (cs[k]).1) (j := (cs[k]).2) h
    rw [hjk] at hid t1
    refine ⟨sk, sk1, e, hid, e1, t1, ⟨_, h1, by rw [List.map_drop]⟩, ?_⟩
    exact steps_succ k s sk sk1 e (by rw [Holds_cons_first h]; simp) e1
  · obtain ⟨sN, e, f, g, u⟩ := schedule_fifo cs s hh
    rw [List.length_map]
    exact ⟨sN, e, f, g, u⟩

/-- C11 at a ready queue holding the pids 10 and 11. -/
theorem run_to_completion_witness :
    Models ⟨[some ⟨10, some 1, none⟩, some ⟨11, none, some 0⟩]⟩ ⟨some 0, some 1⟩ [10, 11] ∧
    ∃ sN, steps 2 ⟨⟨[some ⟨10, some 1, none⟩, some ⟨11, none, some 0⟩]⟩, ⟨some 0, some 1⟩, []⟩ =
        .ok sN ∧ sN.RL.first = none ∧
      (∀ fuel, 2 ≤ fuel → schedule fuel
        ⟨⟨[some ⟨10, some 1, none⟩, some ⟨11, none, some 0⟩]⟩, ⟨some 0, some 1⟩, []⟩ = .ok sN) ∧
      (∀ fuel, fuel < 2 → schedule fuel
        ⟨⟨[some ⟨10, some 1, none⟩, some ⟨11, none, some 0⟩]⟩, ⟨some 0, some 1⟩, []⟩ =
          .unfinished) :=
  ⟨⟨[(0, 10), (1, 11)], by decide, rfl⟩,
    (run_to_completion
      ⟨⟨[some ⟨10, some 1, none⟩, some ⟨11, none, some 0⟩]⟩, ⟨some 0, some 1⟩, []⟩ [10, 11]
      ⟨[(0, 10), (1, 11)], by decide, rfl⟩).2.2⟩

end FIFO

section Acyclic
variable {α β : Type} {nxt : α → Option Nat} {val : α → β}

/-- A list that ends in `NULL` visits no cell twice. -/
theorem Seg_nodup {h : Heap α} {cs : List (Nat × β)} :
    ∀ {p : Option Nat}, Seg nxt val h p cs none → (cs.map Prod.fst).Nodup := by
  induction cs with
  | nil => intro p _; simp
  | cons c cs ih =>
    intro p hs
    obtain ⟨r, hp, hr, hv, ht⟩ := Seg_cons.mp hs
    rw [List.map_cons, List.nodup_cons]
    refine ⟨?_, ih ht⟩
    intro hmem
    obtain ⟨d, hd, hdc⟩ := List.mem_map.mp hmem
    obtain ⟨pre, post, hsplit⟩ := List.append_of_mem hd
    rw [hsplit] at ht
    obtain ⟨m, _, h2⟩ := Seg_append.mp ht
    obtain ⟨r2, hm, _, _, _⟩ := Seg_cons.mp h2
    have h3 : Seg nxt val h p (d :: post) none := by
      rw [hp, ← hdc, ← hm]; exact h2
    have := Seg_unique hs h3
    have hlen := congrArg List.length this
    rw [hsplit] at hlen
    simp at hlen
    omega

end Acyclic

namespace FIFO

theorem WellFormed_iff {h : Heap list_node} {q : queue} :
    WellFormed h q ↔ ∃ cs, Holds h q cs := by
  constructor
  · rintro ⟨_, cs, hs, hl⟩
    exact ⟨cs, hs, Seg_nodup hs, hl⟩
  · rintro ⟨cs, hs, hnd, hl⟩
    refine ⟨?_, cs, hs, hl⟩
    cases cs with
    | nil =>
      have hf : q.first = none := hs
      have hl2 : q.last = none := by simpa using hl
      simp [hf, hl2]
    | cons c cs =>
      obtain ⟨_, hp, _⟩ := Seg_cons.mp hs
      have hne : (List.map Prod.fst (c :: cs)) ≠ [] := by simp
      have hl2 : q.last = some ((List.map Prod.fst (c :: cs)).getLast hne) := by
        rw [hl, List.getLast?_eq_getLast _ hne]
      simp [hp, hl2]

/-- C20 (head/tail pointer well-formedness): the invariant holds after `Queue_Init`;
on a well-formed queue `Queue_Insert` returns normally with a well-formed queue; on
a well-formed non-empty queue `Queue_Remove` returns normally with a well-formed
queue. -/
theorem well_formed_preserved (h : Heap list_node) (q : queue) :
    WellFormed h (Queue_Init q) ∧
    (WellFormed h q → ∀ x : Int, ∃ k q1, Queue_Insert h q x = .ok (k, q1) ∧ WellFormed k q1) ∧
    (WellFormed h q → q.first ≠ none →
      ∃ k q1, Queue_Remove h (some q) = .ok (k, q1) ∧ WellFormed k q1) := by
  refine ⟨WellFormed_iff.mpr ⟨[], Queue_Init_holds h q⟩, ?_, ?_⟩
  · intro hw x
    obtain ⟨cs, hh⟩ := WellFormed_iff.mp hw
    obtain ⟨k, q1, e, hk, _, _⟩ := Queue_Insert_holds hh x
    exact ⟨k, q1, e, WellFormed_iff.mpr ⟨_, hk⟩⟩
  · intro hw hne
    obtain ⟨cs, hh⟩ := WellFormed_iff.mp hw
    cases cs with
    | nil => exact absurd (Holds_nil_first hh) hne
    | cons c cs =>
      obtain ⟨a, x⟩ := c
      obtain ⟨_, q1, e, hk⟩ := Queue_Remove_holds hh
      exact ⟨_, q1, e, WellFormed_iff.mpr ⟨_, hk⟩⟩

/-- C20 at a queue of two nodes. -/
theorem well_formed_preserved_witness :
    WellFormed ⟨[some ⟨10, some 1, none⟩, some ⟨11, none, some 0⟩]⟩ ⟨some 0, some 1⟩ ∧
    (⟨some 0, some 1⟩ : queue).first ≠ none ∧
    (∀ x : Int, ∃ k q1, Queue_Insert ⟨[some ⟨10, some 1, none⟩, some ⟨11, none, some 0⟩]⟩
      ⟨some 0, some 1⟩ x = .ok (k, q1) ∧ WellFormed k q1) ∧
    (∃ k q1, Queue_Remove ⟨[some ⟨10, some 1, none⟩, some ⟨11, none, some 0⟩]⟩
      (some ⟨some 0, some 1⟩) = .ok (k, q1) ∧ WellFormed k q1) :=
  have hw : WellFormed ⟨[some ⟨10, some 1, none⟩, some ⟨11, none, some 0⟩]⟩ ⟨some 0, some 1⟩ :=
    ⟨by decide, [(0, 10), (1, 11)], by decide, by decide⟩
  ⟨hw, by decide,
    (well_formed_preserved ⟨[some ⟨10, some 1, none⟩, some ⟨11, none, some 0⟩]⟩
      ⟨some 0, some 1⟩).2.1 hw,
    (well_formed_preserved ⟨[some ⟨10, some 1, none⟩, some ⟨11, none, some 0⟩]⟩
      ⟨some 0, some 1⟩).2.2 hw (by decide)⟩

end FIFO

/-- Changing the time of one job of a duplicate-free list changes the total by the
change for that job. -/
theorem sum_update {l : List Int} (g : Nat → Nat) (rem : Int → Nat) (j : Int) (v : Nat)
    (hnd : l.Nodup) (hj : j ∈ l) :
    (l.map (fun p => g (Function.update rem j v p))).sum + g (rem j) =
      (l.map (fun p => g (rem p))).sum + g v := by
  induction l with
  | nil => cases hj
  | cons x l ih =>
    obtain ⟨hx, hl⟩ := List.nodup_cons.mp hnd
    by_cases hxj : x = j
    · subst hxj
      rw [List.map_cons, List.map_cons, RR.map_update_of_not_mem g rem x v l hx]
      simp only [List.sum_cons, Function.update_same]
      omega
    · have hjl : j ∈ l := by
        rcases List.mem_cons.mp hj with e | e
        · exact absurd e.symm hxj
        · exact e
      have := ih hl hjl
      simp only [List.map_cons, List.sum_cons, Function.update_noteq hxj]
      omega

namespace MFQ

theorem current_models {s : State} {H L : List Int} {j : Int} (hm : Models s H L)
    (hj : dispatched (H, L) = some j) : current s = .ok j := by
  obtain ⟨csH, csL, ⟨hH, hL, _⟩, rfl, rfl⟩ := hm
  obtain ⟨t, lq, hn, hr, hLq⟩ := low_holds_iff.mp hL
  cases csH with
  | cons c csH =>
    obtain ⟨a, x⟩ := c
    have hx : x = j := by simpa [dispatched] using hj
    subst hx
    obtain ⟨hf, hid, _⟩ := mfq_remove hH
    simp only [current, hf]
    rw [← hf]; exact hid
  | nil =>
    have hf : s.RL.first = none := FIFO.Holds_nil_first hH
    cases csL with
    | nil => simp [dispatched] at hj
    | cons c csL =>
      obtain ⟨a, x⟩ := c
      have hx : x = j := by simpa [dispatched] using hj
      subst hx
      obtain ⟨_, hid, _⟩ := mfq_remove hLq
      simp only [current, hf, low, hn, hr, Outcome.ok_bind, hid]

theorem mfq_timed_spec (Q : Nat) (hQ : 0 < Q) (n : Nat) : ∀ (rem : Int → Nat) (s : State)
    (H L : List Int), Models s H L → s.done = 0 → (H ++ L).Nodup →
    (∀ p ∈ H ++ L, 0 < rem p) → ((H ++ L).map (fun p => RR.need Q (rem p))).sum = n →
    (∃ s1 t, timed Q n rem s = .ok s1 ∧ Models s1 [] [] ∧ s1.trace = s.trace ++ t ∧
      (resumes t).length = n) ∧
    ∀ fuel, fuel < n → timed Q fuel rem s = .unfinished := by
  induction n with
  | zero =>
    intro rem s H L hm hd hnd hpos hsum
    have hl : H ++ L = [] := by
      cases hHL : H ++ L with
      | nil => rfl
      | cons p ps =>
        rw [hHL] at hsum hpos
        have := RR.need_pos hQ (hpos p (List.mem_cons_self _ _))
        simp only [List.map_cons, List.sum_cons] at hsum
        omega
    obtain ⟨rfl, rfl⟩ := List.append_eq_nil.mp hl
    refine ⟨⟨s, [], ?_, hm, by simp, rfl⟩, fun fuel hf => absurd hf (Nat.not_lt_zero _)⟩
    have hg := guard_models hm
    simp [timed, hg, dispatched]
  | succ n ih =>
    intro rem s H L hm hd hnd hpos hsum
    cases hj : dispatched (H, L) with
    | none =>
      have : H = [] ∧ L = [] := by
        cases H with
        | cons x H => simp [dispatched] at hj
        | nil =>
          cases L with
          | cons x L => simp [dispatched] at hj
          | nil => exact ⟨rfl, rfl⟩
      obtain ⟨rfl, rfl⟩ := this
      simp at hsum
    | some j =>
      have hg := guard_models hm
      have hcur := current_models hm hj
      obtain ⟨s1, e1, h1, d1, t1⟩ := mfq_step_models hm hj Q (decide (rem j ≤ Q))
      have hd2 : decide (s.done ≠ 0) = false := by simp [hd]
      rw [hd2, Bool.false_or] at h1 t1
      have hperm := step_perm (decide (rem j ≤ Q)) (H, L) j hj
      have hjmem : j ∈ H ++ L := by
        cases H with
        | cons x H =>
          have hx : x = j := by simpa [dispatched] using hj
          simp [hx]
        | nil =>
          cases L with
          | nil => simp [dispatched] at hj
          | cons x L =>
            have hx : x = j := by simpa [dispatched] using hj
            simp [hx]
      have hjpos : 0 < rem j := hpos j hjmem
      have hsumu := sum_update (RR.need Q) rem j (rem j - Q) hnd hjmem
      rw [hsum] at hsumu
      by_cases hle : rem j ≤ Q
      · have hdec : decide (rem j ≤ Q) = true := by simpa using hle
        rw [hdec] at h1 e1 t1 hperm
        simp only [if_true] at hperm
        -- the job is gone from the tiers
        have hnd1 : ((step true (H, L)).1 ++ (step true (H, L)).2 ++ [j]).Nodup :=
          hperm.nodup_iff.mpr hnd
        have hjnot : j ∉ (step true (H, L)).1 ++ (step true (H, L)).2 := by
          intro hmem
          exact (List.nodup_append.mp hnd1).2.2 hmem (by simp)
        have hsum1 : (((step true (H, L)).1 ++ (step true (H, L)).2).map
            (fun p => RR.need Q (Function.update rem j (rem j - Q) p))).sum = n := by
          rw [RR.map_update_of_not_mem (RR.need Q) rem j _ _ hjnot]
          have hp2 := (hperm.map (fun p => RR.need Q (rem p))).sum_eq
          rw [hsum, List.map_append, List.sum_append] at hp2
          have := RR.need_one hjpos hle
          simp only [List.map_cons, List.map_nil, List.sum_cons, List.sum_nil] at hp2
          omega
        obtain ⟨⟨s2, t, e2, m2, t2, r2⟩, u2⟩ := ih (Function.update rem j (rem j - Q)) s1 _ _ h1 d1
          (List.nodup_append.mp hnd1).1
          (by
            intro p hp
            have hpj : p ≠ j := fun e => hjnot (e ▸ hp)
            have hpm : p ∈ H ++ L := hperm.mem_iff.mp (List.mem_append_left _ hp)
            simpa [Function.update, hpj] using hpos p hpm) hsum1
        refine ⟨⟨s2, RR.events Q true j ++ t, ?_, m2, ?_, ?_⟩, ?_⟩
        · rw [timed]
          simp only [hg, hj, Option.isSome_some, hcur, hdec, e1]
          exact e2
        · rw [t2, t1, List.append_assoc]
        · rw [resumes_append, RR.resumes_events, List.length_append, r2]
          simp; omega
        · intro fuel hfuel
          cases fuel with
          | zero =>
            rw [timed]
            simp only [hg, hj, Option.isSome_some]
          | succ k =>
            rw [timed]
            simp only [hg, hj, Option.isSome_some, hcur, hdec, e1]
            exact u2 k (by omega)
      · have hlt : Q < rem j := by omega
        have hdec : decide (rem j ≤ Q) = false := by simpa using hle
        rw [hdec] at h1 e1 t1 hperm
        simp only [Bool.false_eq_true, if_false, List.append_nil] at hperm
        have hnd1 : ((step false (H, L)).1 ++ (step false (H, L)).2).Nodup :=
          hperm.nodup_iff.mpr hnd
        have hsum1 : (((step false (H, L)).1 ++ (step false (H, L)).2).map
            (fun p => RR.need Q (Function.update rem j (rem j - Q) p))).sum = n := by
          have hp2 := (hperm.map
            (fun p => RR.need Q (Function.update rem j (rem j - Q) p))).sum_eq
          rw [hp2]
          have := RR.need_step hQ hlt
          omega
        obtain ⟨⟨s2, t, e2, m2, t2, r2⟩, u2⟩ := ih (Function.update rem j (rem j - Q)) s1 _ _ h1 d1
          hnd1
          (by
            intro p hp
            have hpm : p ∈ H ++ L := hperm.mem_iff.mp hp
            by_cases hpj : p = j
            · subst hpj; simp; omega
            · simpa [Function.update, hpj] using hpos p hpm) hsum1
        refine ⟨⟨s2, RR.events Q false j ++ t, ?_, m2, ?_, ?_⟩, ?_⟩
        · rw [timed]
          simp only [hg, hj, Option.isSome_some, hcur, hdec, e1]
          exact e2
        · rw [t2, t1, List.append_assoc]
        · rw [resumes_append, RR.resumes_events, List.length_append, r2]
          simp; omega
        · intro fuel hfuel
          cases fuel with
          | zero =>
            rw [timed]
            simp only [hg, hj, Option.isSome_some]
          | succ k =>
            rw [timed]
            simp only [hg, hj, Option.isSome_some, hcur, hdec, e1]
            exact u2 k (by omega)

/-- C12 (Multi-Level Feedback loop termination): in a well-formed state the loop
condition holds exactly when one of the two tiers is not empty. Under the run-time
model (job `p` needs `rem p > 0`, a dispatch takes `Q > 0` of it, the completion flag
is seen set exactly when the job needed no more than `Q`), from a well-formed state
with distinct pids and the flag clear, the loop ends with both tiers empty after
exactly `n` iterations, `n` being the sum over the jobs of `need Q (rem p)`, the
ceiling of `rem p / Q`: fuel `n` ends it with `n` resumes, any smaller fuel does not. -/
theorem termination (Q : Nat) (rem : Int → Nat) (s : State) (H L : List Int)
    (hQ : 0 < Q) (hm : Models s H L) (hd : s.done = 0) (hnd : (H ++ L).Nodup)
    (hpos : ∀ p ∈ H ++ L, 0 < rem p) :
    guard s = .ok (decide (H ≠ [] ∨ L ≠ [])) ∧
    (∃ s1 t, timed Q (((H ++ L).map (fun p => RR.need Q (rem p))).sum) rem s = .ok s1 ∧
      Models s1 [] [] ∧ guard s1 = .ok false ∧ s1.trace = s.trace ++ t ∧
      (resumes t).length = ((H ++ L).map (fun p => RR.need Q (rem p))).sum) ∧
    (∀ fuel, fuel < ((H ++ L).map (fun p => RR.need Q (rem p))).sum →
      timed Q fuel rem s = .unfinished) := by
  obtain ⟨⟨s1, t, e, m, ht, r⟩, u⟩ := mfq_timed_spec Q hQ _ rem s H L hm hd hnd hpos rfl
  refine ⟨?_, ⟨s1, t, e, m, ?_, ht, r⟩, u⟩
  · rw [guard_models hm]
    cases H with
    | cons x H => simp [dispatched]
    | nil => cases L <;> simp [dispatched]
  · rw [guard_models m]
    simp [dispatched]

/-- C12 at tiers `[10]`, `[11]` with quantum 50, job 10 needing 120 and job 11
needing 30. -/
theorem termination_witness :
    0 < 50 ∧
    Models ⟨⟨[some ⟨10, none, none⟩, some ⟨11, none, none⟩]⟩, ⟨[some ⟨some 1, some 1, none⟩]⟩,
      ⟨some 0, some 0, some 0⟩, 0, 0, []⟩ [10] [11] ∧
    (0 : Int) = 0 ∧ ([10] ++ [11] : List Int).Nodup ∧
    (∀ p ∈ ([10] ++ [11] : List Int), 0 < (fun p : Int => if p = 10 then 120 else 30) p) ∧
    ∃ s1 t, timed 50 ((([10] ++ [11] : List Int).map (fun p => RR.need 50
        ((fun p : Int => if p = 10 then 120 else 30) p))).sum)
        (fun p : Int => if p = 10 then 120 else 30)
        ⟨⟨[some ⟨10, none, none⟩, some ⟨11, none, none⟩]⟩, ⟨[some ⟨some 1, some 1, none⟩]⟩,
          ⟨some 0, some 0, some 0⟩, 0, 0, []⟩ = .ok s1 ∧
      Models s1 [] [] ∧ guard s1 = .ok false ∧ s1.trace = [] ++ t ∧
      (resumes t).length = (([10] ++ [11] : List Int).map (fun p => RR.need 50
        ((fun p : Int => if p = 10 then 120 else 30) p))).sum :=
  ⟨by decide, ⟨[(0, 10)], [(1, 11)], by decide, rfl, rfl⟩, rfl, by decide, by decide,
    (termination 50 (fun p : Int => if p = 10 then 120 else 30)
      ⟨⟨[some ⟨10, none, none⟩, some ⟨11, none, none⟩]⟩, ⟨[some ⟨some 1, some 1, none⟩]⟩,
        ⟨some 0, some 0, some 0⟩, 0, 0, []⟩ [10] [11]
      (by decide) ⟨[(0, 10)], [(1, 11)], by decide, rfl, rfl⟩ rfl (by decide) (by decide)).2.1⟩

end MFQ

namespace MFQ

/-- C13 as stated fails. (1) On the one-tier structure of `main`, with the new
storage holding `first = 7`, `last = 9`, `next = 3`, the tier that `List_Insert` adds is
not empty, and after `Queue_Init` its `next` is still 3, not `NULL`. (2) On a
two-tier structure (the head record and the record at address 0, both empty, the
second with `next = NULL`), `List_Insert` on the head makes the new record the only
lower tier: the structure has two tiers, not three, and the old second tier is no
longer reached from the head. -/
theorem list_insert_counterexample :
    (List_Insert ⟨[]⟩ ⟨none, none, none⟩ ⟨some 7, some 9, some 3⟩ =
      .ok (⟨[some ⟨some 7, some 9, some 3⟩]⟩, ⟨none, none, some 0⟩) ∧
     ¬ Seg queue.next (fun q => (q.first, q.last)) ⟨[some ⟨some 7, some 9, some 3⟩]⟩ (some 0)
        [(0, (none, none))] none ∧
     Queue_Init ⟨some 7, some 9, some 3⟩ = ⟨none, none, some 3⟩) ∧
    (Seg queue.next (fun q => (q.first, q.last)) ⟨[some ⟨none, none, none⟩]⟩
        (⟨none, none, some 0⟩ : queue).next [(0, (none, none))] none ∧
     List_Insert ⟨[some ⟨none, none, none⟩]⟩ ⟨none, none, some 0⟩ ⟨none, none, none⟩ =
      .ok (⟨[some ⟨none, none, none⟩, some ⟨none, none, none⟩]⟩, ⟨none, none, some 1⟩) ∧
     Seg queue.next (fun q => (q.first, q.last))
        ⟨[some ⟨none, none, none⟩, some ⟨none, none, none⟩]⟩ (some 1) [(1, (none, none))] none ∧
     ¬ Seg queue.next (fun q => (q.first, q.last))
        ⟨[some ⟨none, none, none⟩, some ⟨none, none, none⟩]⟩ (some 1)
        [(0, (none, none)), (1, (none, none))] none) := by
  decide

/-- C13, amended: `List_Insert(rlp)` returns normally; it allocates one new queue
record, at an address `t` that was not live, and stores `t` in `rlp->next` in place of
the former value, leaving `first` and `last` of `rlp` and every record allocated
before as they were. The new record holds the indeterminate content `junk` of its
storage: it is empty only after `Queue_Init`, which sets `first = last = NULL` and
leaves `next` as it was; the lower tiers reached from `rlp` are then the new, empty
record followed by whatever its `next` leads to. -/
theorem list_insert_allocates (tiers : Heap queue) (rlp junk : queue) :
    ∃ t tiers1, List_Insert tiers rlp junk = .ok (tiers1, ⟨rlp.first, rlp.last, some t⟩) ∧
      tiers.read t = none ∧ tiers1.read t = some junk ∧
      (∀ a, a ≠ t → tiers1.read a = tiers.read a) ∧
      Queue_Init junk = ⟨none, none, junk.next⟩ ∧
      Seg queue.next (fun q => (q.first, q.last)) (tiers1.write t (Queue_Init junk)) (some t)
        [(t, (none, none))] junk.next := by
  refine ⟨tiers.size, (tiers.malloc junk).2, rfl, ?_, ?_, ?_, rfl, ?_⟩
  · cases hr : tiers.read tiers.size with
    | none => rfl
    | some r => exact absurd (Heap.read_lt hr) (lt_irrefl _)
  · rw [Heap.read_malloc, if_pos rfl]
  · intro a ha
    rw [Heap.read_malloc, if_neg ha]
  · refine Seg_cons.mpr ⟨Queue_Init junk, rfl, ?_, rfl, rfl⟩
    rw [Heap.read_write, if_pos ⟨rfl, by simp⟩]

end MFQ

theorem digit_char_spec (d : Nat) (hd : d < 10) :
    (Char.ofNat (48 + d)).isDigit = true ∧ ((Char.ofNat (48 + d)).toNat : Int) - 48 = d ∧
    is_space (Char.ofNat (48 + d)) = false ∧ Char.ofNat (48 + d) ≠ '-' ∧
    Char.ofNat (48 + d) ≠ '+' := by
  interval_cases d <;> decide

theorem digits_value_map (ds : List Nat) : ∀ (acc : Int), (∀ d ∈ ds, d < 10) →
    digits_value acc (ds.map (fun d => Char.ofNat (48 + d))) =
      ds.foldl (fun (a : Int) (d : Nat) => a * 10 + d) acc := by
  induction ds with
  | nil => intro acc _; rfl
  | cons d ds ih =>
    intro acc hlt
    obtain ⟨h1, h2, _⟩ := digit_char_spec d (hlt d (List.mem_cons_self _ _))
    simp only [List.map_cons, digits_value, h1, if_true, List.foldl_cons]
    rw [ih _ (fun x hx => hlt x (List.mem_cons_of_mem _ hx))]
    have : acc * 10 + (((Char.ofNat (48 + d)).toNat : Int) - 48) = acc * 10 + (d : Int) := by
      rw [h2]
    rw [this]

theorem foldl_reverse_digits (L : List Nat) :
    L.reverse.foldl (fun (a : Int) (d : Nat) => a * 10 + d) 0 = ((Nat.ofDigits 10 L : Nat) : Int) := by
  induction L with
  | nil => simp
  | cons d L ih =>
    rw [List.reverse_cons, List.foldl_append, ih, Nat.ofDigits_cons]
    simp only [List.foldl_cons, List.foldl_nil]
    push_cast
    ring

/-- `atoi` reads the decimal numeral of `n` as `n`, brought into the range of `int`. -/
theorem atoi_decimal (n : Nat) : atoi (decimal n) = wrap32 n := by
  by_cases h0 : n = 0
  · subst h0
    decide
  · have hne : Nat.digits 10 n ≠ [] := Nat.digits_ne_nil_iff_ne_zero.mpr h0
    have hlt : ∀ d ∈ (Nat.digits 10 n).reverse, d < 10 := by
      intro d hd
      exact Nat.digits_lt_base (by norm_num) (List.mem_reverse.mp hd)
    have hval : digits_value 0 (decimal n) = n := by
      simp only [decimal, h0, if_false]
      rw [digits_value_map _ 0 hlt, foldl_reverse_digits, Nat.ofDigits_digits]
    cases hr : (Nat.digits 10 n).reverse with
    | nil => exact absurd (List.reverse_eq_nil_iff.mp hr) hne
    | cons d ds =>
      have hd : d < 10 := hlt d (by rw [hr]; exact List.mem_cons_self _ _)
      obtain ⟨_, _, h3, h4, h5⟩ := digit_char_spec d hd
      have hdec : decimal n = Char.ofNat (48 + d) :: ds.map (fun d => Char.ofNat (48 + d)) := by
        simp only [decimal, h0, if_false, hr, List.map_cons]
      rw [← hval, hdec]
      simp only [atoi, List.dropWhile, h3, h4, h5, if_false]

theorem wrap32_of_lt {x : Int} (h0 : 0 ≤ x) (h1 : x < 2147483648) : wrap32 x = x := by
  unfold wrap32
  omega

namespace SJF

/-- C14 as stated fails: a job named `12`, the decimal numeral of 12, is queued with
burst length 2, and a job named `5` with burst length 0; `main` reads the name from
its second character on. -/
theorem burst_counterexample :
    decimal 12 = "12".toList ∧ burst_arg "12" = .ok 2 ∧
    decimal 5 = "5".toList ∧ burst_arg "5" = .ok 0 ∧
    ∃ s1, create_jobs (fun _ => 100) ["12"] 0 ⟨⟨[]⟩, none, []⟩ = .ok s1 ∧
      Models s1.heap s1.RL [(2, 100)] ∧ ¬ Models s1.heap s1.RL [(12, 100)] := by
  refine ⟨by simp [decimal], by decide, by simp [decimal], by decide,
    ⟨⟨[some ⟨100, 2, none⟩]⟩, some 0,
      [Event.printf "Parent: Creating program 12\n", Event.fork "12" 100]⟩, by decide, ?_, ?_⟩
  · exact ⟨[(0, (2, 100))], by decide, rfl⟩
  · intro hc
    have hm : Models ⟨[some ⟨100, 2, none⟩]⟩ (some 0) [(2, 100)] :=
      ⟨[(0, (2, 100))], by decide, rfl⟩
    have := Models_unique hm hc
    revert this
    decide

/-- C14, amended: a job argument made of one character followed by the decimal
numeral of `n`, `n < 2^31`, has `atoi(&argv[i][1]) = n`, and the creation loop of
`main` run on it returns normally having put the job into the ready list with burst
length `n`, in front of the first entry of burst length at least `n`. -/
theorem burst_from_name (c : Char) (n : Nat) (pid_of : Nat → Int) (k : Nat) (s : State)
    (l : List (Int × Int)) (hn : n < 2147483648) (hm : Models s.heap s.RL l) :
    burst_arg (String.mk (c :: decimal n)) = .ok (n : Int) ∧
    ∃ s1, create_jobs pid_of [String.mk (c :: decimal n)] k s = .ok s1 ∧
      Models s1.heap s1.RL (before_first_ge Prod.fst (n : Int) ((n : Int), pid_of k) l) ∧
      forks s1.trace = forks s.trace ++ [String.mk (c :: decimal n)] := by
  have hb : burst_arg (String.mk (c :: decimal n)) = .ok (n : Int) := by
    have hl : (String.mk (c :: decimal n)).toList = c :: decimal n := rfl
    simp only [burst_arg, hl, atoi_decimal]
    rw [wrap32_of_lt (Int.ofNat_nonneg n) (by omega)]
  refine ⟨hb, ?_⟩
  obtain ⟨h1, q1, e1, m1⟩ := sjf_Queue_Insert_models hm (n : Int) (pid_of k)
  refine ⟨⟨h1, q1, s.trace ++ [Event.printf ("Parent: Creating program " ++
    String.mk (c :: decimal n) ++ "\n"), Event.fork (String.mk (c :: decimal n)) (pid_of k)]⟩,
    ?_, m1, ?_⟩
  · simp only [create_jobs, hb, Outcome.ok_bind, e1]
  · have hf : ∀ t u : List Event, forks (t ++ u) = forks t ++ forks u := by
      intro t u
      induction t with
      | nil => rfl
      | cons ev t ih => cases ev <;> simp [forks, ih]
    simp [hf, forks]

/-- C14 amended, at the job argument `p12` arriving at an empty ready list. -/
theorem burst_from_name_witness :
    12 < 2147483648 ∧ Models (⟨[]⟩ : Heap list_node) none [] ∧
    burst_arg (String.mk ('p' :: decimal 12)) = .ok ((12 : Nat) : Int) ∧
    ∃ s1, create_jobs (fun _ => 100) [String.mk ('p' :: decimal 12)] 0 ⟨⟨[]⟩, none, []⟩ =
        .ok s1 ∧
      Models s1.heap s1.RL
        (before_first_ge Prod.fst ((12 : Nat) : Int) (((12 : Nat) : Int), 100) []) ∧
      forks s1.trace = forks [] ++ [String.mk ('p' :: decimal 12)] :=
  ⟨by decide, ⟨[], by decide, rfl⟩,
    burst_from_name 'p' 12 (fun _ => 100) 0 ⟨⟨[]⟩, none, []⟩ [] (by decide)
      ⟨[], by decide, rfl⟩⟩

end SJF

namespace MFQ

theorem setup_ok (tiers : Heap queue) (RL0 junk : queue) :
    setup tiers RL0 junk = .ok ((tiers.malloc junk).2.write tiers.size (Queue_Init junk),
      ⟨none, none, some tiers.size⟩) := by
  have hr : (tiers.malloc junk).2.read tiers.size = some junk := by
    rw [Heap.read_malloc, if_pos rfl]
  simp only [setup, List_Insert, Heap.malloc_fst, Outcome.ok_bind, Queue_Init]
  rw [show (tiers.malloc junk) = (some tiers.size, (tiers.malloc junk).2) from rfl]
  simp only [Outcome.ok_bind, hr, Outcome.pure_eq]

end MFQ

theorem usleeps_append (t u : List Event) : usleeps (t ++ u) = usleeps t ++ usleeps u := by
  induction t with
  | nil => rfl
  | cons ev t ih => cases ev <;> simp [usleeps, ih]

namespace RR

theorem rr_create_spec (pid_of : Nat → Int) (args : List String) : ∀ (k : Nat) (s : State)
    (l : List Int), FIFO.Models s.heap s.RL l →
    ∃ s1, create pid_of args k s = .ok s1 ∧
      FIFO.Models s1.heap s1.RL (l ++ created_pids pid_of args k) ∧
      s1.trace = s.trace ++ creation_events pid_of args k ∧ s1.done = s.done := by
  induction args with
  | nil =>
    intro k s l hm
    exact ⟨s, rfl, by simpa [created_pids] using hm, by simp [creation_events], rfl⟩
  | cons a args ih =>
    intro k s l hm
    obtain ⟨cs, hh, rfl⟩ := hm
    obtain ⟨h2, q2, e2, hk, _, _⟩ := FIFO.Queue_Insert_holds hh (pid_of k)
    obtain ⟨s1, e1, m1, t1, d1⟩ := ih (k + 1)
      ⟨h2, q2, s.done, pid_of k, s.trace ++ [Event.printf ("Parent: Creating program " ++ a ++
        "\n"), Event.fork a (pid_of k)]⟩ (cs.map Prod.snd ++ [pid_of k]) ⟨_, hk, by simp⟩
    refine ⟨s1, ?_, by simpa [created_pids] using m1, ?_, d1⟩
    · simp only [create, e2, Outcome.ok_bind]
      exact e1
    · rw [t1]
      simp [creation_events]

theorem usleeps_events (qt : Int) (f : Bool) (j : Int) :
    ∀ x ∈ usleeps (events qt f j), x = qt ∨ x = 1000 := by
  cases f <;> simp [events, usleeps]

/-- The trace of a run of `main` that gets past the argument check: the creation
loop, the start of scheduling, the dispatch loop on the created pids with the time
slice `quantum q`, and the closing line when the loop has ended. -/
theorem rr_main_trace (prog q j : String) (rest : List String) (pid_of : Nat → Int)
    (h0 : Heap list_node) (RL0 : FIFO.queue) (child0 : Int) (ins : List (Bool × Bool)) :
    ∃ tail : List Event,
      (main prog (q :: j :: rest) pid_of h0 RL0 child0 ins).1 =
        creation_events pid_of (j :: rest) 0 ++
        [Event.sleep 1, Event.printf "\nScheduler: Program scheduling beginning...\n"] ++
        trace_of (quantum q) false ins (created_pids pid_of (j :: rest) 0) ++ tail ∧
      usleeps tail = [] := by
  obtain ⟨s1, e1, m1, t1, d1⟩ := rr_create_spec pid_of (j :: rest) 0
    ⟨h0, FIFO.Queue_Init RL0, 0, child0, []⟩ [] ⟨[], FIFO.Queue_Init_holds h0 RL0, rfl⟩
  obtain ⟨s3, e3, m3, t3⟩ := run_models (quantum q) ins
    ⟨s1.heap, s1.RL, s1.done, s1.child, s1.trace ++
      [Event.sleep 1, Event.printf "\nScheduler: Program scheduling beginning...\n"]⟩ _ m1
  have hd : decide (s1.done ≠ 0) = false := by
    rw [d1]; simp
  simp only [hd] at t3
  have hargc : 2 < (q :: j :: rest).length + 1 := by simp
  have hmain : main prog (q :: j :: rest) pid_of h0 RL0 child0 ins =
      (match s3.RL.first with
        | none => (s3.trace ++ [Event.printf "Scheduler: Scheduling complete\n"], .ok 0)
        | some _ => (s3.trace, .unfinished)) := by
    simp only [main, hargc, if_true, List.drop_succ_cons, List.drop_zero, List.headD_cons, e1, e3]
  rw [hmain, t3, t1]
  simp only [List.nil_append]
  cases s3.RL.first with
  | none => exact ⟨[Event.printf "Scheduler: Scheduling complete\n"], by simp, rfl⟩
  | some a => exact ⟨[], by simp, rfl⟩

end RR

namespace MFQ

/-- `Queue_Insert(&RL, x)` on well-formed tiers: the new job goes to the tail of the
high tier and the low tier is not touched. -/
theorem mfq_insert_high {s : State} {csH csL : List (Nat × Int)} (hh : Holds s csH csL)
    (x : Int) :
    ∃ k q2, Queue_Insert s.heap s.RL x = .ok (k, q2) ∧
      ∀ (d c : Int) (t : List Event),
        Holds ⟨k, s.tiers, q2, d, c, t⟩ (csH ++ [(s.heap.size, x)]) csL := by
  obtain ⟨hH, hL, hnd⟩ := hh
  obtain ⟨t, lq, hn, hr, hLq⟩ := low_holds_iff.mp hL
  obtain ⟨k, q2, e, hk, n2, _, fr⟩ := mfq_insert hH x
  refine ⟨k, q2, e, ?_⟩
  intro d c tr
  rw [List.map_append] at hnd
  have hnd2 := List.nodup_append.mp hnd
  refine ⟨hk, ?_, ?_⟩
  · refine low_holds_iff.mpr ⟨t, lq, n2.trans hn, hr, FIFO.Holds_frame hLq ?_⟩
    intro c1 hc1
    have hc2 : c1.1 ∈ csL.map Prod.fst := List.mem_map_of_mem _ hc1
    have hlt := FIFO.Holds_lt hLq c1.1 hc2
    refine fr c1.1 (by omega) ?_
    intro hlast
    exact hnd2.2.2 (FIFO.Holds_last_mem hH hlast) hc2
  · rw [List.map_append, List.map_append, List.append_assoc, List.nodup_append]
    refine ⟨hnd2.1, ?_, ?_⟩
    · simp only [List.map_cons, List.map_nil, List.singleton_append, List.nodup_cons]
      refine ⟨?_, hnd2.2.1⟩
      intro hmem
      have := FIFO.Holds_lt hLq _ hmem
      omega
    · intro a ha hb
      simp only [List.map_cons, List.map_nil, List.singleton_append, List.mem_cons] at hb
      rcases hb with hb | hb
      · have := FIFO.Holds_lt hH a ha
        omega
      · exact hnd2.2.2 ha hb

theorem mfq_create_spec (pid_of : Nat → Int) (args : List String) : ∀ (k : Nat) (s : State)
    (H L : List Int), Models s H L →
    ∃ s1, create pid_of args k s = .ok s1 ∧ Models s1 (H ++ created_pids pid_of args k) L ∧
      s1.trace = s.trace ++ creation_events pid_of args k ∧ s1.done = s.done := by
  induction args with
  | nil =>
    intro k s H L hm
    exact ⟨s, rfl, by simpa [created_pids] using hm, by simp [creation_events], rfl⟩
  | cons a args ih =>
    intro k s H L hm
    obtain ⟨csH, csL, hh, rfl, rfl⟩ := hm
    obtain ⟨h2, q2, e2, hk⟩ := mfq_insert_high hh (pid_of k)
    obtain ⟨s1, e1, m1, t1, d1⟩ := ih (k + 1)
      ⟨h2, s.tiers, q2, s.done, pid_of k, s.trace ++
        [Event.printf ("Parent: Creating program " ++ a ++ "\n"), Event.fork a (pid_of k)]⟩
      (csH.map Prod.snd ++ [pid_of k]) (csL.map Prod.snd)
      ⟨_, _, hk _ _ _, by simp, rfl⟩
    refine ⟨s1, ?_, by simpa [created_pids] using m1, ?_, d1⟩
    · simp only [create, e2, Outcome.ok_bind]
      exact e1
    · rw [t1]
      simp [creation_events]

theorem mfq_usleeps_trace_of (qt : Int) (ins : List (Bool × Bool)) :
    ∀ (d : Bool) (T : List Int × List Int),
    ∀ x ∈ usleeps (trace_of qt d ins T), x = qt ∨ x = 1000 := by
  induction ins with
  | nil => intro d T x hx; simp [trace_of, usleeps] at hx
  | cons i fs ih =>
    intro d T x hx
    obtain ⟨f, late⟩ := i
    cases hj : dispatched T with
    | none => simp [trace_of, hj, usleeps] at hx
    | some j =>
      simp only [trace_of, hj, usleeps_append, List.mem_append] at hx
      rcases hx with h | h
      · exact RR.usleeps_events qt _ j x h
      · exact ih late _ x h

/-- The state `main` starts the creation loop in has two empty tiers. -/
theorem setup_models (h0 : Heap list_node) (tiers : Heap queue) (junk : queue) (d c : Int)
    (t : List Event) :
    Models ⟨h0, (tiers.malloc junk).2.write tiers.size (Queue_Init junk),
      ⟨none, none, some tiers.size⟩, d, c, t⟩ [] [] := by
  refine ⟨[], [], ⟨?_, ?_, by simp⟩, rfl, rfl⟩
  · exact ⟨rfl, by simp, rfl⟩
  · refine low_holds_iff.mpr ⟨tiers.size, Queue_Init junk, rfl, ?_, ⟨rfl, by simp, rfl⟩⟩
    show Heap.read _ tiers.size = _
    rw [Heap.read_write, if_pos ⟨rfl, by simp⟩]

/-- The trace of a run of `main` that gets past the argument check: the creation
loop, the start of scheduling, the dispatch loop with all created pids in the high
tier and the time slice `quantum q`, and the closing line when the loop has ended. -/
theorem mfq_main_trace (prog q j : String) (rest : List String) (pid_of : Nat → Int)
    (h0 : Heap list_node) (tiers0 : Heap queue) (RL0 junk : queue) (child0 : Int)
    (ins : List (Bool × Bool)) :
    ∃ tail : List Event,
      (main prog (q :: j :: rest) pid_of h0 tiers0 RL0 junk child0 ins).1 =
        creation_events pid_of (j :: rest) 0 ++
        [Event.sleep 1, Event.printf "\nScheduler: Program scheduling beginning...\n"] ++
        trace_of (quantum q) false ins (created_pids pid_of (j :: rest) 0, []) ++ tail ∧
      usleeps tail = [] := by
  obtain ⟨s1, e1, m1, t1, d1⟩ := mfq_create_spec pid_of (j :: rest) 0 _ [] []
    (setup_models h0 tiers0 junk 0 child0 [])
  have m2 : Models ⟨s1.heap, s1.tiers, s1.RL, s1.done, s1.child, s1.trace ++
      [Event.sleep 1, Event.printf "\nScheduler: Program scheduling beginning...\n"]⟩
      ([] ++ created_pids pid_of (j :: rest) 0) [] := by
    obtain ⟨csH, csL, ⟨hH, hL, hnd⟩, e1, e2⟩ := m1
    refine ⟨csH, csL, ⟨hH, ?_, hnd⟩, e1, e2⟩
    obtain ⟨t, lq, hn, hr, hLq⟩ := low_holds_iff.mp hL
    exact low_holds_iff.mpr ⟨t, lq, hn, hr, hLq⟩
  obtain ⟨s3, e3, m3, t3⟩ := mfq_run_models (quantum q) ins _ _ _ m2
  have hd : decide (s1.done ≠ 0) = false := by
    rw [d1]; simp
  simp only [hd, List.nil_append] at t3 m3
  have hg := guard_models m3
  have hargc : 2 < (q :: j :: rest).length + 1 := by simp
  have hmain : main prog (q :: j :: rest) pid_of h0 tiers0 RL0 junk child0 ins =
      (match guard s3 with
        | .ok false => (s3.trace ++ [Event.printf "Scheduler: Scheduling complete\n"], .ok 0)
        | .ok true => (s3.trace, .unfinished)
        | .exited c m => (s3.trace, .exited c m)
        | .fault => (s3.trace, .fault)
        | .unfinished => (s3.trace, .unfinished)) := by
    simp only [main, setup_ok, hargc, if_true, List.drop_succ_cons, List.drop_zero,
      List.headD_cons, e1, e3]
  rw [hmain, hg, t3, t1]
  simp only [List.nil_append]
  cases (dispatched (tiers_after false ins (created_pids pid_of (j :: rest) 0, []))).isSome with
  | false => exact ⟨[Event.printf "Scheduler: Scheduling complete\n"], by simp, rfl⟩
  | true => exact ⟨[], by simp, rfl⟩

end MFQ

/-! ## The quantum argument -/

theorem quantum_decimal (m : Nat) (hm : m ≤ 2147483) :
    wrap32 (1000 * atoi (String.mk (decimal m)).toList) = 1000 * (m : Int) := by
  have hl : (String.mk (decimal m)).toList = decimal m := rfl
  rw [hl, atoi_decimal, wrap32_of_lt (Int.ofNat_nonneg m) (by omega)]
  exact wrap32_of_lt (by omega) (by omega)

/-- C16, counterexample: the quantum argument `4294968` denotes 4294968 ms, and
`qt = 1000*atoi(&argv[1][0])` is not the product 4294968000, which no `int` holds:
with wrap-around it is 704, in RR and in MFQ, and 704 is the time slice the RR
dispatcher passes to `usleep`. The bound is sharp: for `2147484` the product
2147484000 is above `INT_MAX` and `qt` wraps to -2147483296. -/
theorem quantum_overflow_counterexample :
    "4294968".toList = decimal 4294968 ∧
    RR.quantum "4294968" = 704 ∧ RR.quantum "4294968" ≠ 1000 * 4294968 ∧
    MFQ.quantum "4294968" = 704 ∧ MFQ.quantum "4294968" ≠ 1000 * 4294968 ∧
    usleeps (RR.main "RRScheduler" ["4294968", "p1"] (fun k => 100 + k) ⟨[]⟩ ⟨none, none⟩ 0
      [(true, false)]).1 = [704] ∧
    "2147484".toList = decimal 2147484 ∧
    RR.quantum "2147484" = -2147483296 ∧ MFQ.quantum "2147484" = -2147483296 := by
  refine ⟨?_, by decide, by decide, by decide, by decide, by decide, ?_, by decide, by decide⟩
  · simp [decimal]
  · simp [decimal]

/-- C16, amended (quantum unit conversion): for a quantum argument that is the
decimal numeral of `m` milliseconds with `m ≤ 2147483`, `qt` computed in `int`
arithmetic is the product `1000*m`, in RR and in MFQ, and in a run of `main` with at
least one job the dispatch loop is the loop with time slice `1000*m`: all the
`usleep` events of the run outside of it are none. -/
theorem quantum_conversion (m : Nat) (hm : m ≤ 2147483) (prog j : String)
    (rest : List String) (pid_of : Nat → Int) (h0 : Heap list_node) (RL0 : FIFO.queue)
    (tiers0 : Heap MFQ.queue) (RLm junk : MFQ.queue) (child0 : Int)
    (ins : List (Bool × Bool)) :
    RR.quantum (String.mk (decimal m)) = 1000 * (m : Int) ∧
    MFQ.quantum (String.mk (decimal m)) = 1000 * (m : Int) ∧
    (∃ tail : List Event,
      (RR.main prog (String.mk (decimal m) :: j :: rest) pid_of h0 RL0 child0 ins).1 =
        creation_events pid_of (j :: rest) 0 ++
        [Event.sleep 1, Event.printf "\nScheduler: Program scheduling beginning...\n"] ++
        RR.trace_of (1000 * (m : Int)) false ins (created_pids pid_of (j :: rest) 0) ++ tail ∧
      usleeps tail = []) ∧
    (∃ tail : List Event,
      (MFQ.main prog (String.mk (decimal m) :: j :: rest) pid_of h0 tiers0 RLm junk child0
          ins).1 =
        creation_events pid_of (j :: rest) 0 ++
        [Event.sleep 1, Event.printf "\nScheduler: Program scheduling beginning...\n"] ++
        MFQ.trace_of (1000 * (m : Int)) false ins (created_pids pid_of (j :: rest) 0, []) ++
        tail ∧
      usleeps tail = []) := by
  have hr : RR.quantum (String.mk (decimal m)) = 1000 * (m : Int) := quantum_decimal m hm
  have hq : MFQ.quantum (String.mk (decimal m)) = 1000 * (m : Int) := quantum_decimal m hm
  refine ⟨hr, hq, ?_, ?_⟩
  · have h := RR.rr_main_trace prog (String.mk (decimal m)) j rest pid_of h0 RL0 child0 ins
    rwa [hr] at h
  · have h := MFQ.mfq_main_trace prog (String.mk (decimal m)) j rest pid_of h0 tiers0 RLm junk
      child0 ins
    rwa [hq] at h

/-- C16 at the quantum argument `50` with two jobs, the first of which is preempted
once. -/
theorem quantum_conversion_witness :
    (50 : Nat) ≤ 2147483 ∧
    RR.quantum (String.mk (decimal 50)) = 1000 * ((50 : Nat) : Int) ∧
    MFQ.quantum (String.mk (decimal 50)) = 1000 * ((50 : Nat) : Int) ∧
    (∃ tail : List Event,
      (RR.main "RRScheduler" (String.mk (decimal 50) :: "a" :: ["b"]) (fun k => 100 + k) ⟨[]⟩
          ⟨none, none⟩ 0 [(false, false), (true, false), (true, false)]).1 =
        creation_events (fun k => 100 + k) ("a" :: ["b"]) 0 ++
        [Event.sleep 1, Event.printf "\nScheduler: Program scheduling beginning...\n"] ++
        RR.trace_of (1000 * ((50 : Nat) : Int)) false [(false, false), (true, false), (true, false)]
          (created_pids (fun k => 100 + k) ("a" :: ["b"]) 0) ++ tail ∧
      usleeps tail = []) ∧
    (∃ tail : List Event,
      (MFQ.main "MFQScheduler" (String.mk (decimal 50) :: "a" :: ["b"]) (fun k => 100 + k) ⟨[]⟩
          ⟨[]⟩ ⟨none, none, none⟩ ⟨some 7, some 7, some 8⟩ 0
          [(false, false), (true, false), (true, false)]).1 =
        creation_events (fun k => 100 + k) ("a" :: ["b"]) 0 ++
        [Event.sleep 1, Event.printf "\nScheduler: Program scheduling beginning...\n"] ++
        MFQ.trace_of (1000 * ((50 : Nat) : Int)) false
          [(false, false), (true, false), (true, false)]
          (created_pids (fun k => 100 + k) ("a" :: ["b"]) 0, []) ++ tail ∧
      usleeps tail = []) :=
  ⟨by decide, quantum_conversion 50 (by decide) "RRScheduler" "a" ["b"] (fun k => 100 + k) ⟨[]⟩
    ⟨none, none⟩ ⟨[]⟩ ⟨none, none, none⟩ ⟨some 7, some 7, some 8⟩ 0
    [(false, false), (true, false), (true, false)]⟩

namespace RR

end RR

/-! ## The completion flag -/

namespace RR

theorem queue_after_nil (d : Bool) (ins : List (Bool × Bool)) : queue_after d ins [] = [] := by
  cases ins <;> simp [queue_after]

theorem step_length (f : Bool) (j : Int) (js : List Int) :
    (step f (j :: js)).length + (if f = true then 1 else 0) = (j :: js).length := by
  cases f <;> simp [step]

/-- When the handler runs in quantum sleeps only and the queue is not empty after
the inputs `ins`, every set flag among them has removed one job. -/
theorem queue_after_length : ∀ (ins : List (Bool × Bool)) (l : List Int),
    (∀ i ∈ ins, i.2 = false) → queue_after false ins l ≠ [] →
    (queue_after false ins l).length + ins.countP (fun i => i.1) = l.length := by
  intro ins
  induction ins with
  | nil => intro l _ _; simp [queue_after]
  | cons i fs ih =>
    intro l hl hne
    obtain ⟨f, late⟩ := i
    have hlate : late = false := hl (f, late) (List.mem_cons_self _ _)
    subst hlate
    cases l with
    | nil => simp [queue_after] at hne
    | cons j js =>
      simp only [queue_after, Bool.false_or] at hne ⊢
      have h1 := ih (step f (j :: js)) (fun i hi => hl i (List.mem_cons_of_mem _ hi)) hne
      have h2 := step_length f j js
      rw [List.countP_cons]
      cases f <;> simp at h2 ⊢ <;> omega

/-- The loop with the handler running in quantum sleeps only: the flag is 0 again
after the inputs `ins`. -/
theorem run_flag (qt : Int) (ins : List (Bool × Bool)) : ∀ (s : State) (l : List Int),
    FIFO.Models s.heap s.RL l → s.done = 0 → (∀ i ∈ ins, i.2 = false) →
    ∃ s1, run qt ins s = .ok s1 ∧ s1.done = 0 ∧
      FIFO.Models s1.heap s1.RL (queue_after false ins l) := by
  induction ins with
  | nil =>
    intro s l hm h0 _
    exact ⟨s, rfl, h0, hm⟩
  | cons i fs ih =>
    intro s l hm h0 hl
    obtain ⟨f, late⟩ := i
    have hlate : late = false := hl (f, late) (List.mem_cons_self _ _)
    subst hlate
    cases l with
    | nil =>
      obtain ⟨cs, hh, hcs⟩ := hm
      have hcs0 : cs = [] := by simpa using hcs
      subst hcs0
      refine ⟨s, ?_, h0, ⟨[], hh, rfl⟩⟩
      simp only [run, FIFO.Holds_nil_first hh]
    | cons j js =>
      obtain ⟨cs, hh, hcs⟩ := hm
      obtain ⟨a, hfirst⟩ : ∃ a, s.RL.first = some a := by
        cases cs with
        | nil => cases hcs
        | cons c cs => exact ⟨c.1, FIFO.Holds_cons_first hh⟩
      obtain ⟨s1, e1, h1, d1, _⟩ := iteration_models ⟨cs, hh, hcs⟩ qt f
      have hd : decide (s.done ≠ 0) = false := by simp [h0]
      rw [hd, Bool.false_or] at h1
      obtain ⟨s2, e2, d2, h2⟩ := ih s1 _ h1 d1 (fun i hi => hl i (List.mem_cons_of_mem _ hi))
      refine ⟨s2, ?_, d2, by simpa [queue_after] using h2⟩
      simp only [run, hfirst, e1, Outcome.ok_bind, Bool.false_eq_true, if_false, e2]

end RR

namespace MFQ

theorem mfq_step_length {f : Bool} {T : List Int × List Int} {j : Int}
    (hj : dispatched T = some j) :
    (step f T).1.length + (step f T).2.length + (if f = true then 1 else 0) =
      T.1.length + T.2.length := by
  obtain ⟨H, L⟩ := T
  cases H with
  | cons a H => cases f <;> simp [step] <;> omega
  | nil =>
    cases L with
    | cons a L => cases f <;> simp [step]
    | nil => simp [dispatched] at hj

theorem tiers_after_length : ∀ (ins : List (Bool × Bool)) (T : List Int × List Int),
    (∀ i ∈ ins, i.2 = false) → dispatched (tiers_after false ins T) ≠ none →
    (tiers_after false ins T).1.length + (tiers_after false ins T).2.length +
      ins.countP (fun i => i.1) = T.1.length + T.2.length := by
  intro ins
  induction ins with
  | nil => intro T _ _; simp [tiers_after]
  | cons i fs ih =>
    intro T hl hne
    obtain ⟨f, late⟩ := i
    have hlate : late = false := hl (f, late) (List.mem_cons_self _ _)
    subst hlate
    cases hj : dispatched T with
    | none =>
      simp only [tiers_after, hj] at hne
      exact absurd rfl hne
    | some j =>
      simp only [tiers_after, hj, Bool.false_or] at hne ⊢
      have h1 := ih (step f T) (fun i hi => hl i (List.mem_cons_of_mem _ hi)) hne
      have h2 := mfq_step_length (f := f) hj
      rw [List.countP_cons]
      cases f <;> simp at h2 ⊢ <;> omega

theorem mfq_run_flag (qt : Int) (ins : List (Bool × Bool)) :
    ∀ (s : State) (H L : List Int), Models s H L → s.done = 0 → (∀ i ∈ ins, i.2 = false) →
    ∃ s1, run qt ins s = .ok s1 ∧ s1.done = 0 ∧
      Models s1 (tiers_after false ins (H, L)).1 (tiers_after false ins (H, L)).2 := by
  induction ins with
  | nil =>
    intro s H L hm h0 _
    exact ⟨s, rfl, h0, hm⟩
  | cons i fs ih =>
    intro s H L hm h0 hl
    obtain ⟨f, late⟩ := i
    have hlate : late = false := hl (f, late) (List.mem_cons_self _ _)
    subst hlate
    have hg := guard_models hm
    cases hj : dispatched (H, L) with
    | none =>
      refine ⟨s, ?_, h0, by simpa [tiers_after, hj] using hm⟩
      simp [run, hg, hj]
    | some j =>
      obtain ⟨s1, e1, h1, d1, _⟩ := mfq_step_models hm hj qt f
      have hd : decide (s.done ≠ 0) = false := by simp [h0]
      rw [hd, Bool.false_or] at h1
      obtain ⟨s2, e2, d2, h2⟩ := ih s1 _ _ h1 d1 (fun i hi => hl i (List.mem_cons_of_mem _ hi))
      refine ⟨s2, ?_, d2, by simpa [tiers_after, hj] using h2⟩
      simp [run, hg, hj, e1, e2]

end MFQ

/-- C18 (completion-flag discipline): let the flag `done` be 0 when the RR and the
MFQ dispatch loops start, and let the handler set it in quantum sleeps only. Then
after any inputs `pre` the loop is at the start of an iteration with the flag 0, and
if a job is left to dispatch, the jobs left and the flags set so far add up to the
jobs at the start. The next iteration ends with the flag 0 again: when the handler
set the flag in its quantum (`f`), it takes the completion branch and removes the
dispatched job; when not, it takes the preemption branch, which keeps all jobs and
leaves the flag as it is. -/
theorem flag_discipline (qt : Int) (pre : List (Bool × Bool)) (f : Bool)
    (s : RR.State) (l : List Int) (m : MFQ.State) (H L : List Int)
    (hs : FIFO.Models s.heap s.RL l) (hm : MFQ.Models m H L)
    (hs0 : s.done = 0) (hm0 : m.done = 0) (hpre : ∀ i ∈ pre, i.2 = false) :
    (∃ s1, RR.run qt pre s = .ok s1 ∧ s1.done = 0 ∧
      FIFO.Models s1.heap s1.RL (RR.queue_after false pre l) ∧
      ∀ j js, RR.queue_after false pre l = j :: js →
        (j :: js).length + pre.countP (fun i => i.1) = l.length ∧
        ∃ s2, RR.iteration qt f s1 = .ok s2 ∧ s2.done = 0 ∧
          FIFO.Models s2.heap s2.RL (if f = true then js else js ++ [j]) ∧
          s2.trace = s1.trace ++ RR.events qt f j) ∧
    (∃ m1, MFQ.run qt pre m = .ok m1 ∧ m1.done = 0 ∧
      MFQ.Models m1 (MFQ.tiers_after false pre (H, L)).1 (MFQ.tiers_after false pre (H, L)).2 ∧
      ∀ j, MFQ.dispatched (MFQ.tiers_after false pre (H, L)) = some j →
        (MFQ.tiers_after false pre (H, L)).1.length +
          (MFQ.tiers_after false pre (H, L)).2.length + pre.countP (fun i => i.1) =
          H.length + L.length ∧
        ∃ m2, MFQ.iteration qt f m1 = .ok m2 ∧ m2.done = 0 ∧
          MFQ.Models m2 (MFQ.step f (MFQ.tiers_after false pre (H, L))).1
            (MFQ.step f (MFQ.tiers_after false pre (H, L))).2 ∧
          (MFQ.step f (MFQ.tiers_after false pre (H, L))).1.length +
            (MFQ.step f (MFQ.tiers_after false pre (H, L))).2.length +
            (if f = true then 1 else 0) =
            (MFQ.tiers_after false pre (H, L)).1.length +
              (MFQ.tiers_after false pre (H, L)).2.length ∧
          m2.trace = m1.trace ++ RR.events qt f j) := by
  constructor
  · obtain ⟨s1, e1, d1, h1⟩ := RR.run_flag qt pre s l hs hs0 hpre
    refine ⟨s1, e1, d1, h1, ?_⟩
    intro j js hq
    refine ⟨?_, ?_⟩
    · have := RR.queue_after_length pre l hpre (by rw [hq]; simp)
      rwa [hq] at this
    · rw [hq] at h1
      obtain ⟨s2, e2, h2, d2, t2⟩ := RR.iteration_models h1 qt f
      have hd : decide (s1.done ≠ 0) = false := by simp [d1]
      rw [hd, Bool.false_or] at h2 t2
      exact ⟨s2, e2, d2, by simpa [RR.step] using h2, t2⟩
  · obtain ⟨m1, e1, d1, h1⟩ := MFQ.mfq_run_flag qt pre m H L hm hm0 hpre
    refine ⟨m1, e1, d1, h1, ?_⟩
    intro j hj
    refine ⟨MFQ.tiers_after_length pre (H, L) hpre (by rw [hj]; simp), ?_⟩
    obtain ⟨m2, e2, h2, d2, t2⟩ := MFQ.mfq_step_models h1 hj qt f
    have hd : decide (m1.done ≠ 0) = false := by simp [d1]
    rw [hd, Bool.false_or] at h2 t2
    exact ⟨m2, e2, d2, h2, MFQ.mfq_step_length hj, t2⟩

/-- C18 at two jobs, after one iteration that preempted the first job, and with the
flag set in the next quantum. -/
theorem flag_discipline_witness :
    FIFO.Models (RR.State.mk ⟨[some ⟨10, some 1, none⟩, some ⟨11, none, some 0⟩]⟩
      ⟨some 0, some 1⟩ 0 0 []).heap (RR.State.mk ⟨[some ⟨10, some 1, none⟩,
      some ⟨11, none, some 0⟩]⟩ ⟨some 0, some 1⟩ 0 0 []).RL [10, 11] ∧
    MFQ.Models ⟨⟨[some ⟨10, none, none⟩, some ⟨11, none, none⟩]⟩,
      ⟨[some ⟨some 1, some 1, none⟩]⟩, ⟨some 0, some 0, some 0⟩, 0, 0, []⟩ [10] [11] ∧
    (∀ i ∈ [(false, false)], i.2 = false) ∧
    (∃ s1, RR.run 50000 [(false, false)] ⟨⟨[some ⟨10, some 1, none⟩, some ⟨11, none, some 0⟩]⟩,
        ⟨some 0, some 1⟩, 0, 0, []⟩ = .ok s1 ∧ s1.done = 0 ∧
      FIFO.Models s1.heap s1.RL (RR.queue_after false [(false, false)] [10, 11]) ∧
      ∀ j js, RR.queue_after false [(false, false)] [10, 11] = j :: js →
        (j :: js).length + [(false, false)].countP (fun i => i.1) = [(10 : Int), 11].length ∧
        ∃ s2, RR.iteration 50000 true s1 = .ok s2 ∧ s2.done = 0 ∧
          FIFO.Models s2.heap s2.RL (if true = true then js else js ++ [j]) ∧
          s2.trace = s1.trace ++ RR.events 50000 true j) :=
  ⟨⟨[(0, 10), (1, 11)], by decide, rfl⟩, ⟨[(0, 10)], [(1, 11)], by decide, rfl, rfl⟩,
    by decide,
    (flag_discipline 50000 [(false, false)] true
      ⟨⟨[some ⟨10, some 1, none⟩, some ⟨11, none, some 0⟩]⟩, ⟨some 0, some 1⟩, 0, 0, []⟩ [10, 11]
      ⟨⟨[some ⟨10, none, none⟩, some ⟨11, none, none⟩]⟩, ⟨[some ⟨some 1, some 1, none⟩]⟩,
        ⟨some 0, some 0, some 0⟩, 0, 0, []⟩ [10] [11]
      ⟨[(0, 10), (1, 11)], by decide, rfl⟩ ⟨[(0, 10)], [(1, 11)], by decide, rfl, rfl⟩
      rfl rfl (by decide)).1⟩

/-! ## One running job at a time -/

namespace RR

theorem exclusive_events (qt : Int) (f : Bool) (j : Int) (t : List Event) :
    exclusive none (events qt f j ++ t) = exclusive none t := by
  cases f <;> simp [events, exclusive, completed_line]

theorem exclusive_trace_of (qt : Int) (ins : List (Bool × Bool)) :
    ∀ (d : Bool) (l : List Int) (t : List Event),
    exclusive none (trace_of qt d ins l ++ t) = exclusive none t := by
  induction ins with
  | nil => intro d l t; simp [trace_of]
  | cons i fs ih =>
    intro d l t
    obtain ⟨f, late⟩ := i
    cases l with
    | nil => simp [trace_of]
    | cons j js =>
      simp only [trace_of, List.append_assoc]
      rw [exclusive_events, ih]

/-- C19 (one running job at a time): the RR loop started on a well-formed queue
comes through any inputs `pre`, and the trace `t` of its signals passes the check
`exclusive`: no job is resumed while the job resumed before it has neither been
sent `SIGUSR1` nor been seen complete. If a job is queued then, the next iteration
issues one resume, as its first event and to the head job `j`, followed in the same
iteration by the pause of `j` or by the completion line, and the trace with this
iteration passes the check as well. -/
theorem one_running (qt : Int) (pre : List (Bool × Bool)) (f : Bool) (s : State)
    (l : List Int) (hm : FIFO.Models s.heap s.RL l) :
    ∃ s1 t, run qt pre s = .ok s1 ∧ s1.trace = s.trace ++ t ∧ exclusive none t = true ∧
      FIFO.Models s1.heap s1.RL (queue_after (decide (s.done ≠ 0)) pre l) ∧
      ∀ j js, queue_after (decide (s.done ≠ 0)) pre l = j :: js →
        head_id s1.heap s1.RL.first = .ok j ∧
        ∃ s2 e, iteration qt f s1 = .ok s2 ∧ s2.trace = s1.trace ++ e ∧
          resumes e = [j] ∧ e.head? = some (Event.kill j .SIGCONT) ∧
          (preemptions e = [j] ∧ completions e = [] ∨
            preemptions e = [] ∧ completions e = [j]) ∧
          exclusive none (t ++ e) = true ∧
          ∀ k : Int, exclusive none (t ++ e ++ [Event.kill k .SIGCONT]) = true := by
  obtain ⟨s1, e1, h1, t1⟩ := run_models qt pre s l hm
  refine ⟨s1, _, e1, t1, ?_, h1, ?_⟩
  · have := exclusive_trace_of qt pre (decide (s.done ≠ 0)) l []
    simpa [exclusive] using this
  · intro j js hq
    rw [hq] at h1
    obtain ⟨⟨a, hfirst, hid⟩, _, _⟩ := step_models h1 qt
    obtain ⟨s2, e2, _, _, t2⟩ := iteration_models h1 qt f
    refine ⟨by rw [hfirst]; exact hid, s2, _, e2, t2, resumes_events _ _ _, ?_, ?_, ?_, ?_⟩
    · cases (decide (s1.done ≠ 0) || f) <;> simp [events]
    · have hc := completions_events qt (decide (s1.done ≠ 0) || f) j none []
      have hp := preemptions_events qt (decide (s1.done ≠ 0) || f) j
      rw [List.append_nil] at hc
      cases hb : (decide (s1.done ≠ 0) || f)
      · left
        rw [hb] at hc hp
        exact ⟨by simpa using hp, by simp [completions, hc, completions_from]⟩
      · right
        rw [hb] at hc hp
        exact ⟨by simpa using hp, by simpa [completions, completions_from] using hc⟩
    · rw [exclusive_trace_of, ← List.append_nil (events _ _ _), exclusive_events]
      rfl
    · intro k
      rw [List.append_assoc, exclusive_trace_of, exclusive_events]
      rfl

/-- C19 at a queue of two jobs, after one iteration that preempted the first job,
and with the flag set in the next quantum. -/
theorem one_running_witness :
    FIFO.Models (State.mk ⟨[some ⟨10, some 1, none⟩, some ⟨11, none, some 0⟩]⟩
      ⟨some 0, some 1⟩ 0 0 []).heap (State.mk ⟨[some ⟨10, some 1, none⟩,
      some ⟨11, none, some 0⟩]⟩ ⟨some 0, some 1⟩ 0 0 []).RL [10, 11] ∧
    ∃ s1 t, run 50000 [(false, false)] ⟨⟨[some ⟨10, some 1, none⟩, some ⟨11, none, some 0⟩]⟩,
        ⟨some 0, some 1⟩, 0, 0, []⟩ = .ok s1 ∧
      s1.trace = (State.mk ⟨[some ⟨10, some 1, none⟩, some ⟨11, none, some 0⟩]⟩
        ⟨some 0, some 1⟩ 0 0 []).trace ++ t ∧ exclusive none t = true ∧
      FIFO.Models s1.heap s1.RL (queue_after (decide ((State.mk ⟨[some ⟨10, some 1, none⟩,
        some ⟨11, none, some 0⟩]⟩ ⟨some 0, some 1⟩ 0 0 []).done ≠ 0)) [(false, false)]
        [10, 11]) ∧
      ∀ j js, queue_after (decide ((State.mk ⟨[some ⟨10, some 1, none⟩,
          some ⟨11, none, some 0⟩]⟩ ⟨some 0, some 1⟩ 0 0 []).done ≠ 0)) [(false, false)]
          [10, 11] = j :: js →
        head_id s1.heap s1.RL.first = .ok j ∧
        ∃ s2 e, iteration 50000 true s1 = .ok s2 ∧ s2.trace = s1.trace ++ e ∧
          resumes e = [j] ∧ e.head? = some (Event.kill j .SIGCONT) ∧
          (preemptions e = [j] ∧ completions e = [] ∨
            preemptions e = [] ∧ completions e = [j]) ∧
          exclusive none (t ++ e) = true ∧
          ∀ k : Int, exclusive none (t ++ e ++ [Event.kill k .SIGCONT]) = true :=
  ⟨⟨[(0, 10), (1, 11)], by decide, rfl⟩,
    one_running 50000 [(false, false)] true
      ⟨⟨[some ⟨10, some 1, none⟩, some ⟨11, none, some 0⟩]⟩, ⟨some 0, some 1⟩, 0, 0, []⟩ [10, 11]
      ⟨[(0, 10), (1, 11)], by decide, rfl⟩⟩

end RR

/-! ## Return of `main` -/

namespace FIFO

/-- The creation loop returns normally and leaves a well-formed queue of one more
cell per job argument. -/
theorem fifo_create_holds (pid_of : Nat → Int) (args : List String) :
    ∀ (k : Nat) (s : State) (cs : List (Nat × Int)), Holds s.heap s.RL cs →
    ∃ s1 cs1, create pid_of args k s = .ok s1 ∧ Holds s1.heap s1.RL cs1 ∧
      cs1.length = cs.length + args.length := by
  induction args with
  | nil =>
    intro k s cs hh
    exact ⟨s, cs, rfl, hh, rfl⟩
  | cons a args ih =>
    intro k s cs hh
    obtain ⟨h2, q2, e2, hk, _, _⟩ := Queue_Insert_holds hh (pid_of k)
    obtain ⟨s1, cs1, e1, h1, l1⟩ := ih (k + 1)
      ⟨h2, q2, s.trace ++ [Event.printf ("Parent: Creating program " ++ a ++ "\n"),
        Event.fork a (pid_of k)]⟩ _ hk
    refine ⟨s1, cs1, ?_, h1, ?_⟩
    · simp only [create, e2, Outcome.ok_bind]
      exact e1
    · rw [l1]
      simp only [List.length_append, List.length_cons, List.length_nil]
      omega

/-- With at least one job argument `main` returns 0 when the loop is given at least
one iteration per job, and is cut off in the loop when given fewer. -/
theorem fifo_main_returns (prog a : String) (rest : List String) (pid_of : Nat → Int)
    (h0 : Heap list_node) (RL0 : queue) (fuel : Nat) :
    (main prog (a :: rest) pid_of h0 RL0 fuel).2 =
      if (a :: rest).length ≤ fuel then .ok 0 else .unfinished := by
  obtain ⟨s1, cs1, e1, h1, l1⟩ := fifo_create_holds pid_of (a :: rest) 0
    ⟨h0, Queue_Init RL0, []⟩ [] (Queue_Init_holds h0 RL0)
  obtain ⟨sN, _, _, hge, hlt⟩ := schedule_fifo cs1
    ⟨s1.heap, s1.RL, s1.trace ++
      [Event.sleep 1, Event.printf "\nScheduler: Program scheduling beginning...\n"]⟩ h1
  have hargc : ¬ (a :: rest).length + 1 < 2 := by simp
  have hlen : cs1.length = (a :: rest).length := by simpa using l1
  rw [hlen] at hge hlt
  by_cases hf : (a :: rest).length ≤ fuel
  · rw [if_pos hf]
    simp only [main, hargc, if_false, e1, hge fuel hf]
  · rw [if_neg hf]
    simp only [main, hargc, if_false, e1, hlt fuel (by omega)]

end FIFO

namespace SJF

theorem burst_arg_ok (a : String) (ha : a ≠ "") : ∃ t, burst_arg a = .ok t := by
  obtain ⟨l⟩ := a
  cases l with
  | nil => exact absurd rfl ha
  | cons c r => exact ⟨atoi r, rfl⟩

/-- On job arguments that are not empty the creation loop returns normally and
leaves a well-formed queue of one more cell per job argument. -/
theorem sjf_create_jobs_holds (pid_of : Nat → Int) (args : List String) :
    ∀ (k : Nat) (s : State) (cs : List (Nat × (Int × Int))), (∀ a ∈ args, a ≠ "") →
    Holds s.heap s.RL cs →
    ∃ s1 cs1, create_jobs pid_of args k s = .ok s1 ∧ Holds s1.heap s1.RL cs1 ∧
      cs1.length = cs.length + args.length := by
  induction args with
  | nil =>
    intro k s cs _ hh
    exact ⟨s, cs, rfl, hh, rfl⟩
  | cons a args ih =>
    intro k s cs hne hh
    obtain ⟨t, et⟩ := burst_arg_ok a (hne a (List.mem_cons_self _ _))
    obtain ⟨h2, q2, e2, hk, _⟩ := sjf_Queue_Insert_holds hh t (pid_of k)
    obtain ⟨s1, cs1, e1, h1, l1⟩ := ih (k + 1)
      ⟨h2, q2, s.trace ++ [Event.printf ("Parent: Creating program " ++ a ++ "\n"),
        Event.fork a (pid_of k)]⟩ _ (fun b hb => hne b (List.mem_cons_of_mem _ hb)) hk
    refine ⟨s1, cs1, ?_, h1, ?_⟩
    · simp only [create_jobs, et, e2, Outcome.ok_bind]
      exact e1
    · rw [l1, (perm_before_first_ge _ _ _ _).length_eq]
      simp only [List.length_cons]
      omega

/-- With at least one job argument and no empty one, `main` returns 0 when the loop
is given at least one iteration per job. -/
theorem sjf_main_returns (prog a : String) (rest : List String) (pid_of : Nat → Int)
    (h0 : Heap list_node) (RL0 : queue) (fuel : Nat) (hne : ∀ b ∈ a :: rest, b ≠ "")
    (hf : (a :: rest).length ≤ fuel) :
    (main prog (a :: rest) pid_of h0 RL0 fuel).2 = .ok 0 := by
  obtain ⟨s1, cs1, e1, h1, l1⟩ := sjf_create_jobs_holds pid_of (a :: rest) 0
    ⟨h0, Queue_Init RL0, []⟩ [] hne ⟨rfl, by simp⟩
  obtain ⟨s2, e2, _, _⟩ := schedule_holds cs1
    ⟨s1.heap, s1.RL, s1.trace ++
      [Event.sleep 1, Event.printf "\nScheduler: Program scheduling beginning...\n"]⟩ fuel h1
    (by rw [l1]; simpa using hf)
  have hargc : ¬ (a :: rest).length + 1 < 2 := by simp
  simp only [main, hargc, if_false, e1, e2]

end SJF

namespace RR

/-- Inputs in which every quantum ends with the flag set empty the queue when there
is at least one per job. -/
theorem queue_after_replicate : ∀ (n : Nat) (d : Bool) (l : List Int), l.length ≤ n →
    queue_after d (List.replicate n (true, false)) l = [] := by
  intro n
  induction n with
  | zero =>
    intro d l hl
    have : l = [] := List.length_eq_zero.mp (by omega)
    subst this
    rfl
  | succ n ih =>
    intro d l hl
    cases l with
    | nil => simp [List.replicate, queue_after]
    | cons j js =>
      simp only [List.replicate, queue_after, Bool.or_true, step, if_true]
      exact ih false js (by simpa using hl)

/-- How `main` ends when it has the quantum and at least one job: it returns 0 when
the inputs `ins` have emptied the queue, and is cut off in the loop otherwise. -/
theorem rr_main_result (prog q j : String) (rest : List String) (pid_of : Nat → Int)
    (h0 : Heap list_node) (RL0 : FIFO.queue) (child0 : Int) (ins : List (Bool × Bool)) :
    (main prog (q :: j :: rest) pid_of h0 RL0 child0 ins).2 =
      if queue_after false ins (created_pids pid_of (j :: rest) 0) = [] then .ok 0
      else .unfinished := by
  obtain ⟨s1, e1, m1, t1, d1⟩ := rr_create_spec pid_of (j :: rest) 0
    ⟨h0, FIFO.Queue_Init RL0, 0, child0, []⟩ [] ⟨[], FIFO.Queue_Init_holds h0 RL0, rfl⟩
  obtain ⟨s3, e3, m3, t3⟩ := run_models (quantum q) ins
    ⟨s1.heap, s1.RL, s1.done, s1.child, s1.trace ++
      [Event.sleep 1, Event.printf "\nScheduler: Program scheduling beginning...\n"]⟩ _ m1
  have hd : decide (s1.done ≠ 0) = false := by
    rw [d1]; simp
  simp only [hd, List.nil_append] at m3
  have hargc : 2 < (q :: j :: rest).length + 1 := by simp
  have hmain : main prog (q :: j :: rest) pid_of h0 RL0 child0 ins =
      (match s3.RL.first with
        | none => (s3.trace ++ [Event.printf "Scheduler: Scheduling complete\n"], .ok 0)
        | some _ => (s3.trace, .unfinished)) := by
    simp only [main, hargc, if_true, List.drop_succ_cons, List.drop_zero, List.headD_cons, e1, e3]
  rw [hmain]
  obtain ⟨cs, hh, hcs⟩ := m3
  cases cs with
  | nil =>
    rw [FIFO.Holds_nil_first hh, if_pos (by rw [← hcs]; rfl)]
  | cons c cs =>
    rw [FIFO.Holds_cons_first hh, if_neg (by rw [← hcs]; simp)]

end RR

namespace MFQ

theorem tiers_after_replicate : ∀ (n : Nat) (d : Bool) (T : List Int × List Int),
    T.1.length + T.2.length ≤ n →
    dispatched (tiers_after d (List.replicate n (true, false)) T) = none := by
  intro n
  induction n with
  | zero =>
    intro d T hl
    obtain ⟨H, L⟩ := T
    have hl2 : H.length + L.length ≤ 0 := hl
    have hH : H = [] := List.length_eq_zero.mp (by omega)
    have hL : L = [] := List.length_eq_zero.mp (by omega)
    subst hH hL
    rfl
  | succ n ih =>
    intro d T hl
    cases hj : dispatched T with
    | none => simp [List.replicate, tiers_after, hj]
    | some j =>
      simp only [List.replicate, tiers_after, hj, Bool.or_true]
      refine ih false _ ?_
      have := mfq_step_length (f := true) hj
      simp only [if_true] at this
      omega

/-- How `main` ends when it has the quantum and at least one job: it returns 0 when
the inputs `ins` have emptied both tiers, and is cut off in the loop otherwise. -/
theorem mfq_main_result (prog q j : String) (rest : List String) (pid_of : Nat → Int)
    (h0 : Heap list_node) (tiers0 : Heap queue) (RL0 junk : queue) (child0 : Int)
    (ins : List (Bool × Bool)) :
    (main prog (q :: j :: rest) pid_of h0 tiers0 RL0 junk child0 ins).2 =
      if dispatched (tiers_after false ins (created_pids pid_of (j :: rest) 0, [])) = none
      then .ok 0 else .unfinished := by
  obtain ⟨s1, e1, m1, t1, d1⟩ := mfq_create_spec pid_of (j :: rest) 0 _ [] []
    (setup_models h0 tiers0 junk 0 child0 [])
  have m2 : Models ⟨s1.heap, s1.tiers, s1.RL, s1.done, s1.child, s1.trace ++
      [Event.sleep 1, Event.printf "\nScheduler: Program scheduling beginning...\n"]⟩
      ([] ++ created_pids pid_of (j :: rest) 0) [] := by
    obtain ⟨csH, csL, ⟨hH, hL, hnd⟩, e1, e2⟩ := m1
    refine ⟨csH, csL, ⟨hH, ?_, hnd⟩, e1, e2⟩
    obtain ⟨t, lq, hn, hr, hLq⟩ := low_holds_iff.mp hL
    exact low_holds_iff.mpr ⟨t, lq, hn, hr, hLq⟩
  obtain ⟨s3, e3, m3, t3⟩ := mfq_run_models (quantum q) ins _ _ _ m2
  have hd : decide (s1.done ≠ 0) = false := by
    rw [d1]; simp
  simp only [hd, List.nil_append] at m3
  have hg := guard_models m3
  have hargc : 2 < (q :: j :: rest).length + 1 := by simp
  have hmain : main prog (q :: j :: rest) pid_of h0 tiers0 RL0 junk child0 ins =
      (match guard s3 with
        | .ok false => (s3.trace ++ [Event.printf "Scheduler: Scheduling complete\n"], .ok 0)
        | .ok true => (s3.trace, .unfinished)
        | .exited c m => (s3.trace, .exited c m)
        | .fault => (s3.trace, .fault)
        | .unfinished => (s3.trace, .unfinished)) := by
    simp only [main, setup_ok, hargc, if_true, List.drop_succ_cons, List.drop_zero,
      List.headD_cons, e1, e3]
  rw [hmain, hg]
  cases hj : dispatched (tiers_after false ins (created_pids pid_of (j :: rest) 0, [])) with
  | none => simp
  | some x => simp

end MFQ

theorem created_pids_length (pid_of : Nat → Int) (args : List String) :
    ∀ k, (created_pids pid_of args k).length = args.length := by
  induction args with
  | nil => intro k; rfl
  | cons a args ih => intro k; simp [created_pids, ih]

/-- C15 (malformed invocation is rejected before any work): called with too few
arguments (`argc < 2` for FIFO and SJF, `argc <= 2` for RR and MFQ, with `argc` the
number of arguments plus one for the program name), `main` of each program ends by
`exit(-1)` after printing the usage line, and no event comes before it: no `fork`,
no signal, no run of the creation loop. Whenever `main` returns, it returns 0. And
called with enough arguments it does return 0 once the dispatch loop has ended: FIFO
and SJF `main` when the loop is given at least one iteration per job (the SJF job
names not being empty, so that `&argv[i][1]` is inside the string), RR and MFQ `main`
exactly when the handler inputs have emptied the ready list, which inputs with the
flag set in one quantum per job do; a loop stopped before that is `unfinished`. -/
theorem malformed_rejected (prog : String) (args : List String) (pid_of : Nat → Int)
    (h0 : Heap list_node) :
    (args.length + 1 < 2 → ∀ (RL0 : FIFO.queue) (fuel : Nat),
      FIFO.main prog args pid_of h0 RL0 fuel = ([], .exited (-1) (prog ++ " p1 p2 ... pN\n"))) ∧
    (args.length + 1 < 2 → ∀ (h1 : Heap SJF.list_node) (RL0 : SJF.queue) (fuel : Nat),
      SJF.main prog args pid_of h1 RL0 fuel = ([], .exited (-1) (prog ++ " p1 p2 ... pN\n"))) ∧
    (args.length + 1 ≤ 2 → ∀ (RL0 : FIFO.queue) (child0 : Int) (ins : List (Bool × Bool)),
      RR.main prog args pid_of h0 RL0 child0 ins =
        ([], .exited (-1) (prog ++ " qt p1 p2 ... pN\n"))) ∧
    (args.length + 1 ≤ 2 → ∀ (tiers0 : Heap MFQ.queue) (RL0 junk : MFQ.queue) (child0 : Int)
        (ins : List (Bool × Bool)),
      MFQ.main prog args pid_of h0 tiers0 RL0 junk child0 ins =
        ([], .exited (-1) (prog ++ " qt p1 p2 ... pN\n"))) ∧
    (∀ (RL0 : FIFO.queue) (fuel : Nat) (r : Int),
      (FIFO.main prog args pid_of h0 RL0 fuel).2 = .ok r → r = 0) ∧
    (∀ (h1 : Heap SJF.list_node) (RL0 : SJF.queue) (fuel : Nat) (r : Int),
      (SJF.main prog args pid_of h1 RL0 fuel).2 = .ok r → r = 0) ∧
    (∀ (RL0 : FIFO.queue) (child0 : Int) (ins : List (Bool × Bool)) (r : Int),
      (RR.main prog args pid_of h0 RL0 child0 ins).2 = .ok r → r = 0) ∧
    (∀ (tiers0 : Heap MFQ.queue) (RL0 junk : MFQ.queue) (child0 : Int)
        (ins : List (Bool × Bool)) (r : Int),
      (MFQ.main prog args pid_of h0 tiers0 RL0 junk child0 ins).2 = .ok r → r = 0) ∧
    (2 ≤ args.length + 1 → ∀ (RL0 : FIFO.queue) (fuel : Nat),
      (args.length ≤ fuel → (FIFO.main prog args pid_of h0 RL0 fuel).2 = .ok 0) ∧
      (fuel < args.length → (FIFO.main prog args pid_of h0 RL0 fuel).2 = .unfinished)) ∧
    (2 ≤ args.length + 1 → (∀ a ∈ args, a ≠ "") →
      ∀ (h1 : Heap SJF.list_node) (RL0 : SJF.queue) (fuel : Nat), args.length ≤ fuel →
      (SJF.main prog args pid_of h1 RL0 fuel).2 = .ok 0) ∧
    (2 < args.length + 1 → ∀ (RL0 : FIFO.queue) (child0 : Int),
      (∀ ins : List (Bool × Bool),
        (RR.queue_after false ins (created_pids pid_of (args.drop 1) 0) = [] →
          (RR.main prog args pid_of h0 RL0 child0 ins).2 = .ok 0) ∧
        (RR.queue_after false ins (created_pids pid_of (args.drop 1) 0) ≠ [] →
          (RR.main prog args pid_of h0 RL0 child0 ins).2 = .unfinished)) ∧
      (RR.main prog args pid_of h0 RL0 child0
        (List.replicate (args.length - 1) (true, false))).2 = .ok 0) ∧
    (2 < args.length + 1 → ∀ (tiers0 : Heap MFQ.queue) (RL0 junk : MFQ.queue) (child0 : Int),
      (∀ ins : List (Bool × Bool),
        (MFQ.dispatched (MFQ.tiers_after false ins
            (created_pids pid_of (args.drop 1) 0, [])) = none →
          (MFQ.main prog args pid_of h0 tiers0 RL0 junk child0 ins).2 = .ok 0) ∧
        (MFQ.dispatched (MFQ.tiers_after false ins
            (created_pids pid_of (args.drop 1) 0, [])) ≠ none →
          (MFQ.main prog args pid_of h0 tiers0 RL0 junk child0 ins).2 = .unfinished)) ∧
      (MFQ.main prog args pid_of h0 tiers0 RL0 junk child0
        (List.replicate (args.length - 1) (true, false))).2 = .ok 0) := by
  refine ⟨?_, ?_, ?_, ?_, ?_, ?_, ?_, ?_, ?_, ?_, ?_, ?_⟩
  · intro h RL0 fuel
    simp only [FIFO.main, h, if_true]
  · intro h h1 RL0 fuel
    simp only [SJF.main, h, if_true]
  · intro h RL0 child0 ins
    have : ¬ 2 < args.length + 1 := by omega
    simp only [RR.main, this, if_false]
  · intro h tiers0 RL0 junk child0 ins
    have : ¬ 2 < args.length + 1 := by omega
    simp only [MFQ.main, MFQ.setup_ok, this, if_false]
  · intro RL0 fuel r h
    unfold FIFO.main at h
    simp only at h
    repeat' split at h
    all_goals first | (cases h; done) | (cases h; rfl)
  · intro h1 RL0 fuel r h
    unfold SJF.main at h
    simp only at h
    repeat' split at h
    all_goals first | (cases h; done) | (cases h; rfl)
  · intro RL0 child0 ins r h
    unfold RR.main at h
    simp only at h
    repeat' split at h
    all_goals first | (cases h; done) | (cases h; rfl)
  · intro tiers0 RL0 junk child0 ins r h
    unfold MFQ.main at h
    rw [MFQ.setup_ok] at h
    simp only at h
    repeat' split at h
    all_goals first | (cases h; done) | (cases h; rfl)
  · intro h RL0 fuel
    match args, h with
    | a :: rest, _ =>
      have hr := FIFO.fifo_main_returns prog a rest pid_of h0 RL0 fuel
      constructor
      · intro hf
        rw [hr, if_pos hf]
      · intro hf
        rw [hr, if_neg (by omega)]
  · intro h hne h1 RL0 fuel hf
    match args, h, hne, hf with
    | a :: rest, _, hne, hf => exact SJF.sjf_main_returns prog a rest pid_of h1 RL0 fuel hne hf
  · intro h RL0 child0
    match args, h with
    | q :: j :: rest, _ =>
      have hr := RR.rr_main_result prog q j rest pid_of h0 RL0 child0
      simp only [List.drop_succ_cons, List.drop_zero]
      refine ⟨fun ins => ⟨fun he => by rw [hr, if_pos he], fun he => by rw [hr, if_neg he]⟩, ?_⟩
      rw [hr, if_pos]
      exact RR.queue_after_replicate _ false _ (by simp [created_pids_length])
  · intro h tiers0 RL0 junk child0
    match args, h with
    | q :: j :: rest, _ =>
      have hr := MFQ.mfq_main_result prog q j rest pid_of h0 tiers0 RL0 junk child0
      simp only [List.drop_succ_cons, List.drop_zero]
      refine ⟨fun ins => ⟨fun he => by rw [hr, if_pos he], fun he => by rw [hr, if_neg he]⟩, ?_⟩
      rw [hr, if_pos]
      exact MFQ.tiers_after_replicate _ false _ (by simp [created_pids_length])

/-- C15 at invocations with no argument (FIFO, SJF) and with the quantum alone (RR,
MFQ), and for each program a run with two jobs that returns 0. -/
theorem malformed_rejected_witness :
    (([] : List String).length + 1 < 2 ∧
      FIFO.main "FIFOScheduler" [] (fun k => 100 + k) ⟨[]⟩ ⟨none, none⟩ 0 =
        ([], .exited (-1) ("FIFOScheduler" ++ " p1 p2 ... pN\n"))) ∧
    (([] : List String).length + 1 < 2 ∧
      SJF.main "SJFScheduler" [] (fun k => 100 + k) ⟨[]⟩ none 0 =
        ([], .exited (-1) ("SJFScheduler" ++ " p1 p2 ... pN\n"))) ∧
    (["50"].length + 1 ≤ 2 ∧
      RR.main "RRScheduler" ["50"] (fun k => 100 + k) ⟨[]⟩ ⟨none, none⟩ 0 [] =
        ([], .exited (-1) ("RRScheduler" ++ " qt p1 p2 ... pN\n"))) ∧
    (["50"].length + 1 ≤ 2 ∧
      MFQ.main "MFQScheduler" ["50"] (fun k => 100 + k) ⟨[]⟩ ⟨[]⟩ ⟨none, none, none⟩
        ⟨none, none, none⟩ 0 [] = ([], .exited (-1) ("MFQScheduler" ++ " qt p1 p2 ... pN\n"))) ∧
    ((2 ≤ ["a", "b"].length + 1 ∧ ["a", "b"].length ≤ 2) ∧
      (FIFO.main "FIFOScheduler" ["a", "b"] (fun k => 100 + k) ⟨[]⟩ ⟨none, none⟩ 2).2 = .ok 0) ∧
    ((2 ≤ ["p5", "p2"].length + 1 ∧ (∀ a ∈ ["p5", "p2"], a ≠ "") ∧ ["p5", "p2"].length ≤ 2) ∧
      (SJF.main "SJFScheduler" ["p5", "p2"] (fun k => 100 + k) ⟨[]⟩ none 2).2 = .ok 0) ∧
    ((2 < ["50", "a", "b"].length + 1 ∧
        RR.queue_after false [(false, false), (true, false), (true, false)]
          (created_pids (fun k => 100 + k) (["50", "a", "b"].drop 1) 0) = []) ∧
      (RR.main "RRScheduler" ["50", "a", "b"] (fun k => 100 + k) ⟨[]⟩ ⟨none, none⟩ 0
        [(false, false), (true, false), (true, false)]).2 = .ok 0) ∧
    ((2 < ["50", "a", "b"].length + 1 ∧
        MFQ.dispatched (MFQ.tiers_after false [(false, false), (true, false), (true, false)]
          (created_pids (fun k => 100 + k) (["50", "a", "b"].drop 1) 0, [])) = none) ∧
      (MFQ.main "MFQScheduler" ["50", "a", "b"] (fun k => 100 + k) ⟨[]⟩ ⟨[]⟩ ⟨none, none, none⟩
        ⟨some 7, some 7, some 8⟩ 0 [(false, false), (true, false), (true, false)]).2 = .ok 0) :=
  ⟨⟨by decide, (malformed_rejected "FIFOScheduler" [] (fun k => 100 + k) ⟨[]⟩).1 (by decide) _ _⟩,
    ⟨by decide,
      (malformed_rejected "SJFScheduler" [] (fun k => 100 + k) ⟨[]⟩).2.1 (by decide) _ _ _⟩,
    ⟨by decide,
      (malformed_rejected "RRScheduler" ["50"] (fun k => 100 + k) ⟨[]⟩).2.2.1 (by decide) _ _ _⟩,
    ⟨by decide,
      (malformed_rejected "MFQScheduler" ["50"] (fun k => 100 + k) ⟨[]⟩).2.2.2.1 (by decide)
        _ _ _ _ _⟩,
    ⟨by decide,
      ((malformed_rejected "FIFOScheduler" ["a", "b"] (fun k => 100 + k) ⟨[]⟩).2.2.2.2.2.2.2.2.1
        (by decide) ⟨none, none⟩ 2).1 (by decide)⟩,
    ⟨by decide,
      (malformed_rejected "SJFScheduler" ["p5", "p2"] (fun k => 100 + k)
        ⟨[]⟩).2.2.2.2.2.2.2.2.2.1 (by decide) (by decide) ⟨[]⟩ none 2 (by decide)⟩,
    ⟨by decide,
      (((malformed_rejected "RRScheduler" ["50", "a", "b"] (fun k => 100 + k)
        ⟨[]⟩).2.2.2.2.2.2.2.2.2.2.1 (by decide) ⟨none, none⟩ 0).1
        [(false, false), (true, false), (true, false)]).1 (by decide)⟩,
    ⟨by decide,
      (((malformed_rejected "MFQScheduler" ["50", "a", "b"] (fun k => 100 + k)
        ⟨[]⟩).2.2.2.2.2.2.2.2.2.2.2 (by decide) ⟨[]⟩ ⟨none, none, none⟩
        ⟨some 7, some 7, some 8⟩ 0).1
        [(false, false), (true, false), (true, false)]).1 (by decide)⟩⟩

end Sched
